import Mathlib

/-!
# Campaign aggregator: aggregation loop, metric derivation and bounded top-K selection

A shallow embedding of `aggregator.go` and a verification of its specification.

Modelling decisions, all taken from the Go semantics of the source:

* `int64` is `Int` with an explicit two's-complement wrap (`wrapInt64`) after each `+=`;
  `IsInt64` says that an integer is in the range of the type.
* `float64` is the inductive type `F64`: NaN, the two infinities, and the finite doubles, each
  finite double being a sign and a magnitude counted in units of `2^-1074`. Conversion,
  addition and division round to nearest, ties to even, as IEEE 754 prescribes.
* a Go string is a Lean `String`; `<` on strings is the lexicographic order of the code points,
  which for valid UTF-8 is the byte order Go compares by.
* `map[string]*CampaignAgg` is an association list with distinct keys; the order in which a
  `range` loop visits the map is the order of the list handed to the selector, and the theorems
  quantify over every such order.
* a slice is a `List`; an index out of range (a Go panic) is `none`.
* `container/heap` is embedded function by function (`Init`, `Push`, `Pop`, `up`, `down`);
  `sort.Slice` is embedded as the insertion sort the library runs on short slices.
* the aggregation loop is embedded over the three library functions it applies to the fields
  of a record (`strconv.ParseInt`, `strconv.ParseFloat`, `strings.TrimSpace`), gathered in
  `StdLib`; the CSV reader is embedded by what `Read` returns for each line.
-/

namespace Aggregator

/-! ## float64 -/

/-- A value of Go's `float64`. `fin neg n` is the finite double of sign `neg` and magnitude
`n * 2^-1074`; `fin true 0` is the negative zero. -/
inductive F64 where
  | nan
  | inf (neg : Bool)
  | fin (neg : Bool) (n : Nat)
deriving DecidableEq, Repr

namespace F64

/-- The double `+0`, the zero value of a `float64` variable or field. -/
def zero : F64 := .fin false 0

/-- Binary search for the floor of the base-2 logarithm: `acc` is raised by each step of the
list for which `2^(acc + step)` still does not exceed `q`. -/
def ilog2Search (q : Nat) : List Nat → Nat → Nat
  | [], acc => acc
  | s :: ss, acc => if 1 <<< (acc + s) ≤ q then ilog2Search q ss (acc + s) else ilog2Search q ss acc

/-- Floor of the base-2 logarithm of `q` (`0` for `q = 0`). -/
def ilog2 (q : Nat) : Nat :=
  if q < 1 <<< 8192 then
    ilog2Search q [4096, 2048, 1024, 512, 256, 128, 64, 32, 16, 8, 4, 2, 1] 0
  else Nat.log2 q

/-- Round the non-negative rational `num / den`, counted in units of `2^-1074`, to the
nearest double, ties to even, and give it the sign `neg`. Values that round to `2^1024` or
more overflow to the infinity. -/
def round (neg : Bool) (num den : Nat) : F64 :=
  let s := ilog2 (num / den) - 52
  let d := den * (1 <<< s)
  let m := num / d
  let r := num % d
  let m1 := if d < 2 * r ∨ (2 * r = d ∧ m % 2 = 1) then m + 1 else m
  let n := m1 * (1 <<< s)
  if 1 <<< 2098 ≤ n then .inf neg else .fin neg n

/-- The conversion `float64(i)` of an integer. -/
def ofInt (i : Int) : F64 := round (decide (i < 0)) (i.natAbs <<< 1074) 1

/-- The signed magnitude of a finite double, in units of `2^-1074`. -/
def signed (neg : Bool) (n : Nat) : Int := if neg then -(n : Int) else (n : Int)

/-- The sum `x + y` of two doubles. -/
def add : F64 → F64 → F64
  | .nan, _ => .nan
  | _, .nan => .nan
  | .inf a, .inf b => if a = b then .inf a else .nan
  | .inf a, .fin _ _ => .inf a
  | .fin _ _, .inf b => .inf b
  | .fin a n, .fin b m =>
    let s : Int := signed a n + signed b m
    if s = 0 then .fin (a && b) 0 else round (decide (s < 0)) s.natAbs 1

/-- The quotient `x / y` of two doubles. -/
def div : F64 → F64 → F64
  | .nan, _ => .nan
  | _, .nan => .nan
  | .inf _, .inf _ => .nan
  | .inf a, .fin b _ => .inf (xor a b)
  | .fin a _, .inf b => .fin (xor a b) 0
  | .fin a n, .fin b m =>
    if m = 0 then (if n = 0 then .nan else .inf (xor a b))
    else round (xor a b) (n <<< 1074) m

/-- The comparison `x < y`: false as soon as one side is NaN. -/
def lt : F64 → F64 → Bool
  | .nan, _ => false
  | _, .nan => false
  | .inf a, .inf b => a && !b
  | .inf a, .fin _ _ => a
  | .fin _ _, .inf b => !b
  | .fin a n, .fin b m => decide (signed a n < signed b m)

/-- The comparison `x > y`. -/
def gt (x y : F64) : Bool := lt y x

/-- The comparison `x == y`: false as soon as one side is NaN; the two zeros are equal. -/
def eq : F64 → F64 → Bool
  | .nan, _ => false
  | _, .nan => false
  | .inf a, .inf b => a == b
  | .inf _, .fin _ _ => false
  | .fin _ _, .inf _ => false
  | .fin a n, .fin b m => decide (signed a n = signed b m)

/-- The comparison `x != y`, the negation of `==`. -/
def ne (x y : F64) : Bool := !(eq x y)

/-- Whether the double is a NaN. -/
def isNaN : F64 → Bool
  | .nan => true
  | _ => false

end F64

/-! ## Strings and machine integers -/

/-- Lexicographic order on sequences of characters: the first differing position decides, and
a proper initial segment comes first. -/
def lexLess : List Char → List Char → Bool
  | [], [] => false
  | [], _ :: _ => true
  | _ :: _, [] => false
  | a :: as, b :: bs =>
    if a.toNat < b.toNat then true
    else if b.toNat < a.toNat then false
    else lexLess as bs

/-- The comparison `a < b` of two Go strings. -/
def strLess (a b : String) : Bool := lexLess a.toList b.toList

/-- The value an `int64` holds after an arithmetic result `x`: two's-complement wrap-around. -/
def wrapInt64 (x : Int) : Int := (x + 2 ^ 63) % 2 ^ 64 - 2 ^ 63

/-! ## Data model -/

/-- The running totals of one campaign (`type CampaignAgg struct`). -/
structure CampaignAgg where
  TotalImpressions : Int
  TotalClicks : Int
  TotalSpend : F64
  TotalConversions : Int
deriving DecidableEq, Repr

/-- The derived snapshot of one campaign (`type CampaignMetrics struct`). -/
structure CampaignMetrics where
  CampaignID : String
  TotalImpressions : Int
  TotalClicks : Int
  TotalSpend : F64
  TotalConversions : Int
  CTR : F64
  CPA : F64
  HasCPA : Bool
deriving DecidableEq, Repr

/-- The metric deriver `buildMetrics`: the struct literal leaves `CPA` and `HasCPA` at their
zero values, which the last `if` overwrites when there are conversions. -/
def buildMetrics (campaignID : String) (agg : CampaignAgg) : CampaignMetrics :=
  let ctr : F64 :=
    if agg.TotalImpressions > 0 then
      F64.div (F64.ofInt agg.TotalClicks) (F64.ofInt agg.TotalImpressions)
    else F64.zero
  let metrics : CampaignMetrics :=
    { CampaignID := campaignID
      TotalImpressions := agg.TotalImpressions
      TotalClicks := agg.TotalClicks
      TotalSpend := agg.TotalSpend
      TotalConversions := agg.TotalConversions
      CTR := ctr
      CPA := F64.zero
      HasCPA := false }
  if agg.TotalConversions > 0 then
    { metrics with
      CPA := F64.div agg.TotalSpend (F64.ofInt agg.TotalConversions)
      HasCPA := true }
  else metrics

/-- The relation `betterCTR`: higher CTR, or equal CTR and smaller key. -/
def betterCTR (a b : CampaignMetrics) : Bool :=
  if F64.ne a.CTR b.CTR then F64.gt a.CTR b.CTR
  else strLess a.CampaignID b.CampaignID

/-- The relation `betterCPA`: lower CPA, or equal CPA and smaller key. -/
def betterCPA (a b : CampaignMetrics) : Bool :=
  if F64.ne a.CPA b.CPA then F64.lt a.CPA b.CPA
  else strLess a.CampaignID b.CampaignID

/-! ## The two heap types -/

/-- The slice type `CTRHeap`. -/
abbrev CTRHeap := List CampaignMetrics

/-- The slice type `CPAHeap`. -/
abbrev CPAHeap := List CampaignMetrics

/-- The body of `CTRHeap.Less` on the two elements `x = h[i]` and `y = h[j]`. -/
def CTRHeap.lessElem (x y : CampaignMetrics) : Bool :=
  if F64.ne x.CTR y.CTR then F64.lt x.CTR y.CTR
  else strLess y.CampaignID x.CampaignID

/-- The method `CTRHeap.Less(i, j)`; `none` is the panic of an index out of range. -/
def CTRHeap.Less (h : CTRHeap) (i j : Nat) : Option Bool :=
  match h[i]?, h[j]? with
  | some x, some y => some (CTRHeap.lessElem x y)
  | _, _ => none

/-- The method `CTRHeap.Len()`. -/
def CTRHeap.Len (h : CTRHeap) : Nat := h.length

/-- The method `CTRHeap.Swap(i, j)`: the two elements exchanged; on an index out of range,
where Go panics, the slice is returned as it is. -/
def CTRHeap.Swap (h : CTRHeap) (i j : Nat) : CTRHeap :=
  match h[i]?, h[j]? with
  | some a, some b => (h.set i b).set j a
  | _, _ => h

/-- The method `CTRHeap.Push(x)`: append. -/
def CTRHeap.Push (h : CTRHeap) (x : CampaignMetrics) : CTRHeap := h ++ [x]

/-- The method `CTRHeap.Pop()`: the slice without its last element `old[n-1]`, and that
element; `none` is the panic of the index `n - 1 = -1` on an empty slice. -/
def CTRHeap.Pop (h : CTRHeap) : Option (CTRHeap × CampaignMetrics) :=
  match h.length with
  | 0 => none
  | n + 1 =>
    match h[n]? with
    | some item => some (h.take n, item)
    | none => none

/-- The body of `CPAHeap.Less` on the two elements `x = h[i]` and `y = h[j]`. -/
def CPAHeap.lessElem (x y : CampaignMetrics) : Bool :=
  if F64.ne x.CPA y.CPA then F64.gt x.CPA y.CPA
  else strLess y.CampaignID x.CampaignID

/-- The method `CPAHeap.Less(i, j)`; `none` is the panic of an index out of range. -/
def CPAHeap.Less (h : CPAHeap) (i j : Nat) : Option Bool :=
  match h[i]?, h[j]? with
  | some x, some y => some (CPAHeap.lessElem x y)
  | _, _ => none

/-- The method `CPAHeap.Len()`. -/
def CPAHeap.Len (h : CPAHeap) : Nat := h.length

/-- The method `CPAHeap.Swap(i, j)`: the two elements exchanged; on an index out of range,
where Go panics, the slice is returned as it is. -/
def CPAHeap.Swap (h : CPAHeap) (i j : Nat) : CPAHeap :=
  match h[i]?, h[j]? with
  | some a, some b => (h.set i b).set j a
  | _, _ => h

/-- The method `CPAHeap.Push(x)`: append. -/
def CPAHeap.Push (h : CPAHeap) (x : CampaignMetrics) : CPAHeap := h ++ [x]

/-- The method `CPAHeap.Pop()`: the slice without its last element `old[n-1]`, and that
element; `none` is the panic of the index `n - 1 = -1` on an empty slice. -/
def CPAHeap.Pop (h : CPAHeap) : Option (CPAHeap × CampaignMetrics) :=
  match h.length with
  | 0 => none
  | n + 1 =>
    match h[n]? with
    | some item => some (h.take n, item)
    | none => none

/-! ## container/heap

The library functions work through the interface methods `Len`, `Less`, `Swap`, `Push` and
`Pop`. Both heap types implement `Len`, `Swap`, `Push` and `Pop` as the same slice operations
and `Less(i, j)` as a function of the two elements `h[i]` and `h[j]`; the embedding of the
library therefore works on the slice and takes the element comparison `less` as its argument
(`heap.Swap` is the `Swap` of both types, `h ++ [x]` their `Push`, and cutting the last
element off their `Pop`). -/

namespace heap

variable {α : Type}

/-- The method `Swap(i, j)`: `h[i], h[j] = h[j], h[i]`. -/
def Swap (h : List α) (i j : Nat) : List α :=
  match h[i]?, h[j]? with
  | some a, some b => (h.set i b).set j a
  | _, _ => h

/-- The loop of `up`, with the number of remaining iterations bounded by `fuel`; every
iteration moves `j` to its parent `(j - 1) / 2`, so `fuel = j` iterations always suffice. -/
def upLoop (less : α → α → Bool) : Nat → List α → Nat → List α
  | 0, h, _ => h
  | fuel + 1, h, j =>
    let i := (j - 1) / 2
    match h[j]?, h[i]? with
    | some x, some y =>
      if i = j ∨ !(less x y) then h
      else upLoop less fuel (Swap h i j) i
    | _, _ => h

/-- The function `up(h, j)`. -/
def up (less : α → α → Bool) (h : List α) (j : Nat) : List α :=
  upLoop less (j + 1) h j

/-- The child that `down` compares with the parent: `j := j1`, then
`if j2 := j1 + 1; j2 < n && h.Less(j2, j1) { j = j2 }`. -/
def downChild (less : α → α → Bool) (h : List α) (j1 n : Nat) : Nat :=
  match h[j1 + 1]?, h[j1]? with
  | some x, some y => if j1 + 1 < n ∧ less x y then j1 + 1 else j1
  | _, _ => j1

/-- The loop of `down`, with the number of remaining iterations bounded by `fuel`; every
iteration moves `i` to one of its children below `n`, so `fuel = n` iterations always
suffice. -/
def downLoop (less : α → α → Bool) : Nat → List α → Nat → Nat → List α
  | 0, h, _, _ => h
  | fuel + 1, h, i, n =>
    let j1 := 2 * i + 1
    if n ≤ j1 then h
    else
      let j := downChild less h j1 n
      match h[j]?, h[i]? with
      | some x, some y =>
        if !(less x y) then h
        else downLoop less fuel (Swap h i j) j n
      | _, _ => h

/-- The function `down(h, i0, n)`; its boolean result is not used by `Init` and `Pop`. -/
def down (less : α → α → Bool) (h : List α) (i0 n : Nat) : List α :=
  downLoop less n h i0 n

/-- The loop of `Init`: `down(h, i, n)` for `i = cnt - 1, ..., 0`. -/
def initLoop (less : α → α → Bool) : Nat → List α → List α
  | 0, h => h
  | cnt + 1, h => initLoop less cnt (down less h cnt h.length)

/-- The function `heap.Init(h)`. -/
def Init (less : α → α → Bool) (h : List α) : List α :=
  initLoop less (h.length / 2) h

/-- The function `heap.Push(h, x)`: append, then `up(h, h.Len()-1)`. -/
def Push (less : α → α → Bool) (h : List α) (x : α) : List α :=
  up less (h ++ [x]) h.length

/-- The function `heap.Pop(h)`: swap the root with the last element, `down(h, 0, n)`, then
cut the last element off and return it. `none` is the panic on an empty heap. -/
def Pop (less : α → α → Bool) (h : List α) : Option (List α × α) :=
  match h.length with
  | 0 => none
  | n + 1 =>
    let h1 := down less (Swap h 0 n) 0 n
    match h1[n]? with
    | some item => some (h1.take n, item)
    | none => none

end heap

/-! ## sort.Slice -/

/-- One pass of the inner loop of the insertion sort: `x` travels left past every element
it is `less` than. The sorted part is held reversed, its last element first. -/
def insertLeft {α : Type} (less : α → α → Bool) (x : α) : List α → List α
  | [] => [x]
  | y :: ys => if less x y then y :: insertLeft less x ys else x :: y :: ys

/-- The function `sort.Slice(s, less)`, embedded as the insertion sort that the library runs
on slices of at most 12 elements. For a comparison that is a strict total order on the
elements every correct sort returns the same slice (see `sortSlice_unique`). -/
def sortSlice {α : Type} (less : α → α → Bool) (s : List α) : List α :=
  (s.foldl (fun sorted x => insertLeft less x sorted) []).reverse

/-! ## The selectors -/

/-- The comparison closure handed to `sort.Slice` in `selectTopCTR`. -/
def selectTopCTR.sortLess (x y : CampaignMetrics) : Bool :=
  if F64.ne x.CTR y.CTR then F64.gt x.CTR y.CTR
  else strLess x.CampaignID y.CampaignID

/-- The comparison closure handed to `sort.Slice` in `selectTopCPA`. -/
def selectTopCPA.sortLess (x y : CampaignMetrics) : Bool :=
  if F64.ne x.CPA y.CPA then F64.lt x.CPA y.CPA
  else strLess x.CampaignID y.CampaignID

/-- One iteration of the loop of `selectTopCTR` on the heap `h`; `none` is a panic. -/
def selectTopCTR.step (k : Int) (h : CTRHeap) (entry : String × CampaignAgg) : Option CTRHeap :=
  let m := buildMetrics entry.1 entry.2
  if (h.length : Int) < k then some (heap.Push CTRHeap.lessElem h m)
  else
    match h[0]? with
    | none => none
    | some root =>
      if betterCTR m root then
        match heap.Pop CTRHeap.lessElem h with
        | none => none
        | some (h1, _) => some (heap.Push CTRHeap.lessElem h1 m)
      else some h

/-- The loop of `selectTopCTR` over the entries of the map in the order `aggs` lists them. -/
def selectTopCTR.loop (k : Int) : CTRHeap → List (String × CampaignAgg) → Option CTRHeap
  | h, [] => some h
  | h, e :: es =>
    match selectTopCTR.step k h e with
    | none => none
    | some h1 => selectTopCTR.loop k h1 es

/-- The function `selectTopCTR(aggs, k)`; `aggs` lists the entries of the map in the order the
`range` loop visits them. `none` is a panic. -/
def selectTopCTR (aggs : List (String × CampaignAgg)) (k : Int) : Option (List CampaignMetrics) :=
  match selectTopCTR.loop k (heap.Init CTRHeap.lessElem []) aggs with
  | none => none
  | some h => some (sortSlice selectTopCTR.sortLess h)

/-- One iteration of the loop of `selectTopCPA` on the heap `h`; `none` is a panic. -/
def selectTopCPA.step (k : Int) (h : CPAHeap) (entry : String × CampaignAgg) : Option CPAHeap :=
  if entry.2.TotalConversions ≤ 0 then some h
  else
    let m := buildMetrics entry.1 entry.2
    if (h.length : Int) < k then some (heap.Push CPAHeap.lessElem h m)
    else
      match h[0]? with
      | none => none
      | some root =>
        if betterCPA m root then
          match heap.Pop CPAHeap.lessElem h with
          | none => none
          | some (h1, _) => some (heap.Push CPAHeap.lessElem h1 m)
        else some h

/-- The loop of `selectTopCPA` over the entries of the map in the order `aggs` lists them. -/
def selectTopCPA.loop (k : Int) : CPAHeap → List (String × CampaignAgg) → Option CPAHeap
  | h, [] => some h
  | h, e :: es =>
    match selectTopCPA.step k h e with
    | none => none
    | some h1 => selectTopCPA.loop k h1 es

/-- The function `selectTopCPA(aggs, k)`; `aggs` lists the entries of the map in the order the
`range` loop visits them. `none` is a panic. -/
def selectTopCPA (aggs : List (String × CampaignAgg)) (k : Int) : Option (List CampaignMetrics) :=
  match selectTopCPA.loop k (heap.Init CPAHeap.lessElem []) aggs with
  | none => none
  | some h => some (sortSlice selectTopCPA.sortLess h)


/-! ## Well-formed totals -/

/-- The integer `x` is a value of type `int64`. -/
def IsInt64 (x : Int) : Prop := -(2 ^ 63) ≤ x ∧ x < 2 ^ 63

instance instDecidableIsInt64 (x : Int) : Decidable (IsInt64 x) := by unfold IsInt64; infer_instance

/-- The three integer fields of the record hold `int64` values, as their Go type demands. -/
def CampaignAgg.Valid (agg : CampaignAgg) : Prop :=
  IsInt64 agg.TotalImpressions ∧ IsInt64 agg.TotalClicks ∧ IsInt64 agg.TotalConversions

instance instDecidableValid (agg : CampaignAgg) : Decidable agg.Valid := by
  unfold CampaignAgg.Valid; infer_instance

/-! ## The standard library functions the aggregation loop calls -/

/-- The functions of the Go standard library that `aggregateCampaigns` applies to the fields
of a record. The loop is embedded over any such functions; `goStdLib` below is the instance
that follows the library's documented behaviour. `none` is a returned error. -/
structure StdLib where
  /-- The call `strconv.ParseInt(s, 10, 64)`. -/
  ParseInt : String → Option Int
  /-- The call `strconv.ParseFloat(s, 64)`. -/
  ParseFloat : String → Option F64
  /-- The call `strings.TrimSpace(s)`. -/
  TrimSpace : String → String

/-- The value of the decimal digit `c`, if it is one. -/
def digitValue (c : Char) : Option Nat :=
  if '0'.toNat ≤ c.toNat ∧ c.toNat ≤ '9'.toNat then some (c.toNat - '0'.toNat) else none

/-- The number written by a non-empty sequence of decimal digits, `acc` being the number read
so far; `none` when a character is not a digit. -/
def readDigits : List Char → Nat → Option Nat
  | [], acc => some acc
  | c :: cs, acc =>
    match digitValue c with
    | some d => readDigits cs (acc * 10 + d)
    | none => none

/-- The call `strconv.ParseInt(s, 10, 64)`: an optional sign, then one or more decimal digits,
and a value that fits `int64`. `none` is a syntax or range error. -/
def parseInt (s : String) : Option Int :=
  let body (neg : Bool) (cs : List Char) : Option Int :=
    match cs with
    | [] => none
    | _ :: _ =>
      match readDigits cs 0 with
      | none => none
      | some n =>
        if neg then (if n ≤ 2 ^ 63 then some (-(n : Int)) else none)
        else (if n < 2 ^ 63 then some (n : Int) else none)
  match s.toList with
  | [] => none
  | '+' :: cs => body false cs
  | '-' :: cs => body true cs
  | cs => body false cs

/-- The predicate `unicode.IsSpace`: the characters `strings.TrimSpace` removes. -/
def isSpace (c : Char) : Bool :=
  let n := c.toNat
  (9 ≤ n ∧ n ≤ 13) ∨ n = 32 ∨ n = 0x85 ∨ n = 0xA0 ∨ n = 0x1680 ∨ (0x2000 ≤ n ∧ n ≤ 0x200A) ∨
    n = 0x2028 ∨ n = 0x2029 ∨ n = 0x202F ∨ n = 0x205F ∨ n = 0x3000

/-- The call `strings.TrimSpace(s)`: `s` without its leading and trailing white space. -/
def trimSpace (s : String) : String :=
  String.mk ((s.toList.dropWhile isSpace).reverse.dropWhile isSpace).reverse

/-- The lower-case form of an ASCII letter, as `strconv` computes it (`c | 0x20`) to compare
without regard to case. -/
def lowerAscii (c : Char) : Char :=
  if 'A'.toNat ≤ c.toNat ∧ c.toNat ≤ 'Z'.toNat then Char.ofNat (c.toNat + 32) else c

/-- The special forms `strconv.ParseFloat` accepts whole: `inf` and `infinity` with an
optional sign, and `nan` without one, in any case of the letters. -/
def parseSpecial (cs : List Char) : Option F64 :=
  let word := cs.map lowerAscii
  if word = "nan".toList then some F64.nan
  else if word = "inf".toList ∨ word = "infinity".toList ∨ word = "+inf".toList ∨
      word = "+infinity".toList then some (F64.inf false)
  else if word = "-inf".toList ∨ word = "-infinity".toList then some (F64.inf true)
  else none

/-- The digits of a decimal mantissa: the number written by the digits read so far, and the
count of digits read after the point. The result is the mantissa, the count of fraction
digits, whether a digit was seen, and the rest of the input. -/
def readMantissa : List Char → Nat → Nat → Bool → Bool → Nat × Nat × Bool × List Char
  | [], mant, frac, _, sawDigits => (mant, frac, sawDigits, [])
  | c :: cs, mant, frac, sawDot, sawDigits =>
    if c = '.' then
      if sawDot then (mant, frac, sawDigits, c :: cs)
      else readMantissa cs mant frac true sawDigits
    else
      match digitValue c with
      | some d => readMantissa cs (mant * 10 + d) (if sawDot then frac + 1 else frac) sawDot true
      | none => (mant, frac, sawDigits, c :: cs)

/-- The digits of a decimal exponent, which `strconv` stops accumulating once the number
read has reached 10000. -/
def readExponent : List Char → Nat → Option Nat
  | [], acc => some acc
  | c :: cs, acc =>
    match digitValue c with
    | some d => readExponent cs (if acc < 10000 then acc * 10 + d else acc)
    | none => none

/-- The double nearest to `mant * 10^e10`, with the sign `neg`; `none` when it overflows
(the range error of `strconv.ParseFloat`). -/
def decimalToF64 (neg : Bool) (mant : Nat) (e10 : Int) : Option F64 :=
  let r :=
    if 0 ≤ e10 then F64.round neg ((mant * 10 ^ e10.toNat) <<< 1074) 1
    else F64.round neg (mant <<< 1074) (10 ^ (-e10).toNat)
  match r with
  | .fin s n => some (.fin s n)
  | _ => none

/-- The call `strconv.ParseFloat(s, 64)` on the decimal forms: an optional sign, decimal
digits with an optional point, an optional exponent `e` or `E` with optional sign, and the
special forms of `parseSpecial`; the result is the nearest double. Hexadecimal mantissas and
underscores between digits, which the library also reads, are outside this embedding and
reported as errors. -/
def parseFloat (s : String) : Option F64 :=
  let cs := s.toList
  match parseSpecial cs with
  | some f => some f
  | none =>
    let signed : Bool × List Char :=
      match cs with
      | '+' :: rest => (false, rest)
      | '-' :: rest => (true, rest)
      | rest => (false, rest)
    match readMantissa signed.2 0 0 false false with
    | (mant, frac, sawDigits, rest) =>
      if !sawDigits then none
      else
        match rest with
        | [] => decimalToF64 signed.1 mant (-(frac : Int))
        | c :: es =>
          if lowerAscii c = 'e' then
            let esigned : Bool × List Char :=
              match es with
              | '+' :: ds => (false, ds)
              | '-' :: ds => (true, ds)
              | ds => (false, ds)
            match esigned.2 with
            | [] => none
            | _ :: _ =>
              match readExponent esigned.2 0 with
              | none => none
              | some e =>
                decimalToF64 signed.1 mant
                  ((if esigned.1 then -(e : Int) else (e : Int)) - (frac : Int))
          else none

/-- The standard library as documented. -/
def goStdLib : StdLib where
  ParseInt := parseInt
  ParseFloat := parseFloat
  TrimSpace := trimSpace

/-! ## The aggregation loop -/

/-- The positions of the five required columns in the header, and the number of fields of
the header, which the CSV reader demands of every later record. -/
structure Columns where
  nFields : Nat
  campaignIdx : Nat
  impressionIdx : Nat
  clickIdx : Nat
  spendIdx : Nat
  conversionIdx : Nat
deriving DecidableEq, Repr

/-- The columns of the header `campaign_id,impressions,clicks,spend,conversions`. -/
def Columns.standard : Columns :=
  { nFields := 5, campaignIdx := 0, impressionIdx := 1, clickIdx := 2, spendIdx := 3,
    conversionIdx := 4 }

/-- One line of the input after the header, as the CSV reader meets it: the fields it splits
the line into, or a line it cannot split (a quoting error), on which `Read` returns an error
other than `ErrFieldCount`. -/
inductive Line where
  | fields (fs : List String)
  | malformed
deriving DecidableEq, Repr

/-- The fields of a record once parsed: the trimmed key and the four numbers. -/
structure Row where
  campaignID : String
  impressions : Int
  clicks : Int
  spend : F64
  conversions : Int
deriving DecidableEq, Repr

/-- The part of the loop body that decides whether a record is folded in: the reader rejects
a record whose field count differs from the header's (`ErrFieldCount`, skipped), an empty
record is skipped, and a record is skipped when one of the four numeric fields does not
parse. `none` is a skipped record. -/
def parseRecord (std : StdLib) (cols : Columns) (fs : List String) : Option Row :=
  if fs.length ≠ cols.nFields then none
  else if fs.length = 0 then none
  else
    let campaignID := std.TrimSpace (fs.getD cols.campaignIdx "")
    match std.ParseInt (fs.getD cols.impressionIdx ""),
      std.ParseInt (fs.getD cols.clickIdx ""),
      std.ParseFloat (fs.getD cols.spendIdx ""),
      std.ParseInt (fs.getD cols.conversionIdx "") with
    | some impressions, some clicks, some spend, some conversions =>
      some { campaignID := campaignID, impressions := impressions, clicks := clicks,
             spend := spend, conversions := conversions }
    | _, _, _, _ => none

/-- The map `aggs`: its entries in the order the keys were first inserted. -/
abbrev AggMap := List (String × CampaignAgg)

/-- The lookup `aggs[key]`; `none` is the nil pointer of a missing key. -/
def AggMap.get (aggs : AggMap) (key : String) : Option CampaignAgg :=
  match aggs with
  | [] => none
  | e :: es => if e.1 = key then some e.2 else AggMap.get es key

/-- The entry of `key` replaced by `agg`, or added when the key is new. -/
def AggMap.set (aggs : AggMap) (key : String) (agg : CampaignAgg) : AggMap :=
  match aggs with
  | [] => [(key, agg)]
  | e :: es => if e.1 = key then (key, agg) :: es else e :: AggMap.set es key agg

/-- The zero value `&CampaignAgg{}`. -/
def CampaignAgg.zero : CampaignAgg :=
  { TotalImpressions := 0, TotalClicks := 0, TotalSpend := F64.zero, TotalConversions := 0 }

/-- The four `+=` of the loop body. -/
def CampaignAgg.add (agg : CampaignAgg) (row : Row) : CampaignAgg :=
  { TotalImpressions := wrapInt64 (agg.TotalImpressions + row.impressions)
    TotalClicks := wrapInt64 (agg.TotalClicks + row.clicks)
    TotalSpend := F64.add agg.TotalSpend row.spend
    TotalConversions := wrapInt64 (agg.TotalConversions + row.conversions) }

/-- The state of the loop: the map and the counter `processed`. -/
structure AggState where
  aggs : AggMap
  processed : Int
deriving DecidableEq, Repr

/-- The state before the first record. -/
def AggState.init : AggState := { aggs := [], processed := 0 }

/-- The end of the loop body for a record that parsed: look the key up, create its entry when
it is missing, add the four fields, count the record. -/
def AggState.fold (st : AggState) (row : Row) : AggState :=
  let agg :=
    match st.aggs.get row.campaignID with
    | none => CampaignAgg.zero
    | some a => a
  { aggs := st.aggs.set row.campaignID (agg.add row)
    processed := wrapInt64 (st.processed + 1) }

/-- One iteration of the loop on a record the reader delivered or rejected for its field
count. -/
def ingest (std : StdLib) (cols : Columns) (st : AggState) (fs : List String) : AggState :=
  match parseRecord std cols fs with
  | none => st
  | some row => st.fold row

/-- The loop of `aggregateCampaigns` from the state `st` over the lines that follow;
`none` is the return with an error on a line the reader cannot split. -/
def aggregateLoop (std : StdLib) (cols : Columns) : AggState → List Line → Option AggState
  | st, [] => some st
  | _, Line.malformed :: _ => none
  | st, Line.fields fs :: rest => aggregateLoop std cols (ingest std cols st fs) rest

/-- The loop `for i, h := range header { idx[strings.TrimSpace(h)] = i }`, followed for the
one key `name`: `acc` is the entry of `name` so far, `i` the index of the next cell. -/
def headerIndexLoop (std : StdLib) (name : String) : List String → Nat → Option Nat → Option Nat
  | [], _, acc => acc
  | h :: hs, i, acc =>
    headerIndexLoop std name hs (i + 1) (if std.TrimSpace h = name then some i else acc)

/-- The lookup `idx[name]` after the loop over the header: the last index at which the
trimmed cell is `name`; `none` when no cell is. -/
def headerIndex (std : StdLib) (header : List String) (name : String) : Option Nat :=
  headerIndexLoop std name header 0 none

/-- The columns `aggregateCampaigns` reads off the header; `none` is the error of a missing
required column. -/
def resolveColumns (std : StdLib) (header : List String) : Option Columns :=
  match headerIndex std header "campaign_id", headerIndex std header "impressions",
    headerIndex std header "clicks", headerIndex std header "spend",
    headerIndex std header "conversions" with
  | some a, some b, some c, some d, some e =>
    some { nFields := header.length, campaignIdx := a, impressionIdx := b, clickIdx := c,
           spendIdx := d, conversionIdx := e }
  | _, _, _, _, _ => none

/-- The function `aggregateCampaigns` on an input whose header record is `header` and whose
later lines are `lines`: the map and the processed count, or `none` for a returned error. -/
def aggregateCampaigns (std : StdLib) (header : List String) (lines : List Line) :
    Option (AggMap × Int) :=
  match resolveColumns std header with
  | none => none
  | some cols =>
    match aggregateLoop std cols AggState.init lines with
    | none => none
    | some st => some (st.aggs, st.processed)

/-! ## Specification vocabulary -/

/-- The comparison `r` is a strict order, total on the elements that satisfy `S`. -/
structure StrictOrderOn {α : Type} (r : α → α → Bool) (S : α → Prop) : Prop where
  irrefl : ∀ x, r x x = false
  trans : ∀ x y z, r x y = true → r y z = true → r x z = true
  total : ∀ x y, S x → S y → x ≠ y → r x y = true ∨ r y x = true

namespace heap

/-- The heap property on the first `n` elements of `h`: no element at an index `c` with
`0 < c < n` is `less` than its parent at index `(c - 1) / 2`. -/
def IsHeapBelow {α : Type} (less : α → α → Bool) (h : List α) (n : Nat) : Prop :=
  ∀ c x y, 0 < c → c < n → h[(c - 1) / 2]? = some x → h[c]? = some y → less y x = false

/-- The heap property of `container/heap` on the whole slice. -/
def IsHeap {α : Type} (less : α → α → Bool) (h : List α) : Prop :=
  IsHeapBelow less h h.length

/-- The loop invariant of `up` at index `j`: the heap property holds on every edge except
the one above `j`, and the children of `j` are in order with the parent of `j`. -/
def UpInv {α : Type} (less : α → α → Bool) (h : List α) (j : Nat) : Prop :=
  (∀ c x y, 0 < c → c ≠ j → h[(c - 1) / 2]? = some x → h[c]? = some y → less y x = false) ∧
  (∀ c x y, 0 < c → 0 < j → (c - 1) / 2 = j → h[(j - 1) / 2]? = some x → h[c]? = some y →
    less y x = false)

/-- The loop invariant of `down` at index `i`, on the first `n` elements: the heap property
holds on every edge except those below `i`, and the children of `i` are in order with the
parent of `i`. -/
def DownInv {α : Type} (less : α → α → Bool) (h : List α) (n i : Nat) : Prop :=
  (∀ c x y, 0 < c → c < n → (c - 1) / 2 ≠ i → h[(c - 1) / 2]? = some x → h[c]? = some y →
    less y x = false) ∧
  (∀ c x y, 0 < c → c < n → 0 < i → (c - 1) / 2 = i → h[(i - 1) / 2]? = some x →
    h[c]? = some y → less y x = false)

end heap

/-- The admission step that both selectors run on an eligible candidate `m`: push while the
heap holds fewer than `k` elements, otherwise replace the root when `m` is better than it.
`none` is a panic. -/
def offer {α : Type} (less better : α → α → Bool) (k : Int) (h : List α) (m : α) :
    Option (List α) :=
  if (h.length : Int) < k then some (heap.Push less h m)
  else
    match h[0]? with
    | none => none
    | some root =>
      if better m root then
        match heap.Pop less h with
        | none => none
        | some (h1, _) => some (heap.Push less h1 m)
      else some h

/-- The admission step run on each candidate of a list in turn. -/
def offerAll {α : Type} (less better : α → α → Bool) (k : Int) :
    List α → List α → Option (List α)
  | h, [] => some h
  | h, m :: ms =>
    match offer less better k h m with
    | none => none
    | some h1 => offerAll less better k h1 ms

/-- The invariant of the selection loop after the candidates `seen` have been offered: the
heap `h` holds at most `k` of them, it holds all of them while they are fewer than `k`, every
retained candidate is better than every discarded one, and `h` has the heap property. -/
structure TopInv {α : Type} (less better : α → α → Bool) (k : Nat) (h seen : List α) : Prop where
  split : ∃ rest, List.Perm (h ++ rest) seen ∧ (∀ x ∈ h, ∀ y ∈ rest, better x y = true) ∧
    (rest ≠ [] → h.length = k)
  size : h.length ≤ k
  isHeap : heap.IsHeap less h

/-- The candidates `selectTopCTR` offers, in the order the map is visited. -/
def ctrCandidates (aggs : List (String × CampaignAgg)) : List CampaignMetrics :=
  aggs.map (fun e => buildMetrics e.1 e.2)

/-- The candidates `selectTopCPA` offers, in the order the map is visited: the entries with
`TotalConversions > 0`. -/
def cpaCandidates (aggs : List (String × CampaignAgg)) : List CampaignMetrics :=
  (aggs.filter (fun e => decide (0 < e.2.TotalConversions))).map (fun e => buildMetrics e.1 e.2)

/-! ## Specification vocabulary for the aggregation -/

/-- The records of the input that the loop folds in, in arrival order: right field count and
four numeric fields that parse. -/
def acceptedRows (std : StdLib) (cols : Columns) (lines : List Line) : List Row :=
  lines.filterMap (fun l =>
    match l with
    | Line.fields fs => parseRecord std cols fs
    | Line.malformed => none)

/-- The accepted records that carry the key `key`, in arrival order. -/
def rowsOf (rows : List Row) (key : String) : List Row :=
  rows.filter (fun r => decide (r.campaignID = key))

/-- The sum of a sequence of doubles, taken from `+0` in the order of the sequence. -/
def sumF64 (xs : List F64) : F64 := xs.foldl F64.add F64.zero

/-- The totals the specification assigns to a key with the non-empty sequence `rs` of
records: the sum of each field, the integer sums as `int64` values. -/
def specTotals (rs : List Row) : CampaignAgg :=
  { TotalImpressions := wrapInt64 (rs.map (fun r => r.impressions)).sum
    TotalClicks := wrapInt64 (rs.map (fun r => r.clicks)).sum
    TotalSpend := sumF64 (rs.map (fun r => r.spend))
    TotalConversions := wrapInt64 (rs.map (fun r => r.conversions)).sum }

/-- The specification's test of a data row for the processed count, first half: the row has
the field count of the header and its four numeric fields parse. -/
def numericOK (std : StdLib) (cols : Columns) (l : Line) : Bool :=
  match l with
  | Line.malformed => false
  | Line.fields fs =>
    decide (fs.length = cols.nFields) && decide (fs.length ≠ 0) &&
      (std.ParseInt (fs.getD cols.impressionIdx "")).isSome &&
      (std.ParseInt (fs.getD cols.clickIdx "")).isSome &&
      (std.ParseFloat (fs.getD cols.spendIdx "")).isSome &&
      (std.ParseInt (fs.getD cols.conversionIdx "")).isSome

/-- The specification's test of a data row for the processed count, second half: the campaign
key is not empty after trimming. -/
def keyNonEmpty (std : StdLib) (cols : Columns) (l : Line) : Bool :=
  match l with
  | Line.malformed => false
  | Line.fields fs => decide (std.TrimSpace (fs.getD cols.campaignIdx "") ≠ "")

/-- The integer part of a totals record: the three `int64` totals. -/
def CampaignAgg.counts (agg : CampaignAgg) : Int × Int × Int :=
  (agg.TotalImpressions, agg.TotalClicks, agg.TotalConversions)

/-- The full pipeline after the header: aggregate, then `selectTopCTR` and `selectTopCPA` on
the map, visited in the order `visit` puts its entries in. -/
def pipeline (std : StdLib) (cols : Columns) (visit : AggMap → AggMap) (k : Int)
    (lines : List Line) : Option (List CampaignMetrics × List CampaignMetrics) :=
  match aggregateLoop std cols AggState.init lines with
  | none => none
  | some st =>
    match selectTopCTR (visit st.aggs) k, selectTopCPA (visit st.aggs) k with
    | some ctr, some cpa => some (ctr, cpa)
    | _, _ => none

/-! ## Sample inputs -/

/-- Three campaigns, two of them tied at a CTR of one half. -/
def tieAggs : AggMap :=
  [("Y", ⟨4, 2, F64.ofInt 3, 1⟩), ("A", ⟨150, 15, F64.fin false (15 <<< 1073), 3⟩),
   ("X", ⟨2, 1, F64.ofInt 1, 0⟩)]

/-- Two eligible campaigns, the first with a NaN as its spend: the map the loop builds from
the rows `A,1,1,NaN,1` and `B,1,1,1,1`. -/
def nanAggs : AggMap :=
  [("A", ⟨1, 1, F64.nan, 1⟩), ("B", ⟨1, 1, F64.ofInt 1, 1⟩)]

/-- The worked input of the specification: two rows of campaign `A`, one of `B`. -/
def sampleLines : List Line :=
  [Line.fields ["A", "100", "10", "5.00", "2"], Line.fields ["A", "50", "5", "2.50", "1"],
   Line.fields ["B", "200", "50", "10.00", "0"]]

/-- Two rows of one campaign whose impressions add up to `2^63`. -/
def overflowLines : List Line :=
  [Line.fields ["A", "9223372036854775807", "0", "0", "0"],
   Line.fields ["A", "1", "0", "0", "0"]]

/-- One row with an empty campaign key and four valid numbers. -/
def emptyKeyLines : List Line := [Line.fields ["", "1", "1", "1", "1"]]

/-- Three rows of one campaign with the spends `1e16`, `1`, `1`. -/
def spendLines : List Line :=
  [Line.fields ["A", "1", "1", "10000000000000000", "1"], Line.fields ["A", "1", "1", "1", "1"],
   Line.fields ["A", "1", "1", "1", "1"]]

/-- The rows of `spendLines` in the order `1`, `1`, `1e16`. -/
def spendLinesReordered : List Line :=
  [Line.fields ["A", "1", "1", "1", "1"], Line.fields ["A", "1", "1", "1", "1"],
   Line.fields ["A", "1", "1", "10000000000000000", "1"]]

/-- A snapshot with `TotalSpend` and `CPA`, the two fields computed from the spend, blanked:
what is left is the key, the three integer totals, the CTR and `HasCPA`. -/
def CampaignMetrics.withoutSpend (m : CampaignMetrics) : CampaignMetrics :=
  { m with TotalSpend := F64.zero, CPA := F64.zero }

/-- The rows `A,1,1,NaN,1` and `B,1,1,1,1`, from which the loop builds `nanAggs`. -/
def nanLines : List Line :=
  [Line.fields ["A", "1", "1", "NaN", "1"], Line.fields ["B", "1", "1", "1", "1"]]

/-- The snapshot of campaign `A` of `nanAggs`: its CPA is a NaN. -/
def nanMetricsA : CampaignMetrics := buildMetrics "A" ⟨1, 1, F64.nan, 1⟩

/-- The snapshot of campaign `B` of `nanAggs`: its CPA is `1`. -/
def nanMetricsB : CampaignMetrics := buildMetrics "B" ⟨1, 1, F64.ofInt 1, 1⟩

/-! ## Comparing totals -/

/-- The comparison `x <= y` of two doubles: false as soon as one side is NaN. -/
def F64.le (x y : F64) : Bool := F64.lt x y || F64.eq x y

/-- The value is one a `float64` variable can hold: a finite one has a magnitude that is a
significand below `2^53` times a power of two, and lies below `2^1024`. -/
def F64.IsDouble : F64 → Prop
  | .fin _ n => (∃ m e : Nat, m < 2 ^ 53 ∧ n = m <<< e) ∧ n < 1 <<< 2098
  | _ => True

/-- The check `if *topK <= 0` of `main`: when it holds the program exits before the
selection. -/
def main.rejectsTopK (topK : Int) : Bool := decide (topK ≤ 0)

/-! ## The loops of the library with every index checked -/

namespace heap

/-- The loop of `up` with the reads of `Less` and `Swap` checked: `none` is the panic of an
index out of range. `Less(j, i)` is called only when `i ≠ j`. -/
def upLoopChecked {α : Type} (less : α → α → Bool) : Nat → List α → Nat → Option (List α)
  | 0, h, _ => some h
  | fuel + 1, h, j =>
    let i := (j - 1) / 2
    if i = j then some h
    else
      match h[j]?, h[i]? with
      | some x, some y =>
        if !(less x y) then some h
        else upLoopChecked less fuel (Swap h i j) i
      | _, _ => none

/-- The choice of the child in `down` with the reads of `Less` checked: `Less(j2, j1)` is
called only when `j2 < n`. -/
def downChildChecked {α : Type} (less : α → α → Bool) (h : List α) (j1 n : Nat) : Option Nat :=
  if j1 + 1 < n then
    match h[j1 + 1]?, h[j1]? with
    | some x, some y => some (if less x y then j1 + 1 else j1)
    | _, _ => none
  else some j1

/-- The loop of `down` with the reads of `Less` and `Swap` checked: `none` is the panic of an
index out of range. -/
def downLoopChecked {α : Type} (less : α → α → Bool) :
    Nat → List α → Nat → Nat → Option (List α)
  | 0, h, _, _ => some h
  | fuel + 1, h, i, n =>
    let j1 := 2 * i + 1
    if n ≤ j1 then some h
    else
      match downChildChecked less h j1 n with
      | none => none
      | some j =>
        match h[j]?, h[i]? with
        | some x, some y =>
          if !(less x y) then some h
          else downLoopChecked less fuel (Swap h i j) j n
        | _, _ => none

end heap

/-! ## Sample rows and states -/

/-- The header of the worked input of the specification. -/
def sampleHeader : List String := ["campaign_id", "impressions", "clicks", "spend", "conversions"]

/-- The map the loop builds from `sampleLines`: `A = (150, 15, 7.50, 3)` and
`B = (200, 50, 10.00, 0)`. -/
def sampleAggs : AggMap :=
  [("A", ⟨150, 15, F64.fin false (15 <<< 1073), 3⟩), ("B", ⟨200, 50, F64.ofInt 10, 0⟩)]

/-- The state of the loop after `sampleLines`. -/
def sampleState : AggState := { aggs := sampleAggs, processed := 3 }

/-- A row of campaign `A` whose spend field is not a number. -/
def badSpendFields : List String := ["A", "100", "10", "abc", "2"]

/-- A row whose campaign key is two blanks, with four valid numbers. -/
def blankKeyFields : List String := ["  ", "1", "1", "1", "1"]

/-- A row of campaign `A` whose four numbers are negative. -/
def negativeFields : List String := ["A", "-200", "-20", "-10", "-5"]

/-- A row of campaign `A` with the numbers `1,1,1,1`. -/
def unitFields : List String := ["A", "1", "1", "1", "1"]

/-- The snapshot of campaign `A` of `sampleAggs`: a CTR of `0.10` and a CPA of `2.50`. -/
def sampleMetricsA : CampaignMetrics :=
  ⟨"A", 150, 15, F64.fin false (15 <<< 1073), 3, F64.fin false (3602879701896397 <<< 1019),
    F64.fin false (5 <<< 1073), true⟩

/-- The snapshot of campaign `B` of `sampleAggs`: a CTR of `0.25` and no CPA. -/
def sampleMetricsB : CampaignMetrics :=
  ⟨"B", 200, 50, F64.ofInt 10, 0, F64.fin false (1 <<< 1072), F64.zero, false⟩

/-- A state in which campaign `A` has the largest `int64` as its impressions. -/
def fullState : AggState :=
  { aggs := [("A", ⟨9223372036854775807, 0, F64.zero, 0⟩)], processed := 1 }

/-- A row of campaign `A` whose spend field is `NaN`. -/
def nanSpendFields : List String := ["A", "1", "1", "NaN", "1"]

/-- A row of campaign `C`, a key the worked input does not hold, with the numbers `1,1,1,1`. -/
def newKeyFields : List String := ["C", "1", "1", "1", "1"]

/-! ## Order facts about the comparisons -/

theorem lexLess_irrefl (a : List Char) : lexLess a a = false := by
  induction a with
  | nil => rfl
  | cons x xs ih => simp [lexLess, ih]

theorem lexLess_trans : ∀ (a b c : List Char), lexLess a b = true → lexLess b c = true →
    lexLess a c = true
  | [], [], _, h, _ => by simp [lexLess] at h
  | [], _ :: _, [], _, h => by simp [lexLess] at h
  | [], _ :: _, _ :: _, _, _ => by simp [lexLess]
  | _ :: _, [], _, h, _ => by simp [lexLess] at h
  | _ :: _, _ :: _, [], _, h => by simp [lexLess] at h
  | x :: xs, y :: ys, z :: zs, h1, h2 => by
    simp only [lexLess] at h1 h2 ⊢
    have ih := lexLess_trans xs ys zs
    split_ifs at h1 h2 ⊢ <;> first | rfl | omega | exact ih h1 h2

theorem lexLess_total : ∀ (a b : List Char), a ≠ b → lexLess a b = true ∨ lexLess b a = true
  | [], [], h => absurd rfl h
  | [], _ :: _, _ => by simp [lexLess]
  | _ :: _, [], _ => by simp [lexLess]
  | x :: xs, y :: ys, h => by
    simp only [lexLess]
    by_cases h1 : x.toNat < y.toNat
    · simp [h1]
    · by_cases h2 : y.toNat < x.toNat
      · simp [h2]
      · have hxy : x = y := by
          apply Char.ext
          apply UInt32.ext
          have : x.toNat = y.toNat := by omega
          simpa [Char.toNat, UInt32.toNat] using this
        subst hxy
        simp only [h1, if_false]
        exact lexLess_total xs ys (fun e => h (by rw [e]))

theorem strLess_irrefl (a : String) : strLess a a = false := lexLess_irrefl _

theorem strLess_trans {a b c : String} (h1 : strLess a b = true) (h2 : strLess b c = true) :
    strLess a c = true := lexLess_trans _ _ _ h1 h2

theorem strLess_total {a b : String} (h : a ≠ b) : strLess a b = true ∨ strLess b a = true :=
  lexLess_total _ _ (fun e => h (String.ext e))

theorem strLess_asymm {a b : String} (h : strLess a b = true) : strLess b a = false := by
  cases hb : strLess b a with
  | false => rfl
  | true => have := strLess_trans h hb; rw [strLess_irrefl] at this; cases this

namespace F64

theorem eq_swap (a b : F64) : eq a b = eq b a := by
  cases a <;> cases b <;> simp only [eq]
  · rename_i x y; cases x <;> cases y <;> rfl
  · rename_i x n y m
    by_cases h : signed x n = signed y m
    · simp [h]
    · have h2 : ¬ signed y m = signed x n := fun e => h e.symm
      simp [h, h2]

theorem lt_irrefl (a : F64) : lt a a = false := by
  cases a <;> simp [lt]

theorem lt_trans {a b c : F64} (h1 : lt a b = true) (h2 : lt b c = true) : lt a c = true := by
  cases a <;> cases b <;> cases c <;> simp_all [lt]
  omega

theorem lt_or_lt_of_eq_false {a b : F64} (ha : isNaN a = false) (hb : isNaN b = false)
    (h : eq a b = false) : lt a b = true ∨ lt b a = true := by
  cases a <;> cases b <;> simp_all [lt, eq, isNaN]
  rename_i x y
  cases x <;> cases y <;> simp_all

theorem lt_false_of_eq {a b : F64} (h : eq a b = true) : lt a b = false := by
  cases a <;> cases b <;> simp_all [lt, eq]

theorem eq_trans {a b c : F64} (h1 : eq a b = true) (h2 : eq b c = true) : eq a c = true := by
  cases a <;> cases b <;> cases c <;> simp_all [eq]

theorem lt_congr_left {a b c : F64} (h : eq a b = true) : lt a c = lt b c := by
  cases a <;> cases b <;> cases c <;> simp_all [lt, eq]

theorem lt_congr_right {a b c : F64} (h : eq a b = true) : lt c a = lt c b := by
  cases a <;> cases b <;> cases c <;> simp_all [lt, eq]

theorem eq_self {a : F64} (ha : isNaN a = false) : eq a a = true := by
  cases a <;> simp_all [eq, isNaN]

end F64

theorem F64.ne_eq_true_of_lt {a b : F64} (h : F64.lt a b = true) : F64.ne a b = true := by
  cases hab : F64.eq a b with
  | false => simp [F64.ne, hab]
  | true => rw [F64.lt_false_of_eq hab] at h; cases h

theorem F64.ne_eq_true_of_gt {a b : F64} (h : F64.lt b a = true) : F64.ne a b = true := by
  cases hab : F64.eq a b with
  | false => simp [F64.ne, hab]
  | true => rw [F64.eq_swap] at hab; rw [F64.lt_false_of_eq hab] at h; cases h

theorem betterCPA_irrefl (x : CampaignMetrics) : betterCPA x x = false := by
  unfold betterCPA
  split
  · exact F64.lt_irrefl _
  · exact strLess_irrefl _

theorem betterCPA_trans {x y z : CampaignMetrics} (h1 : betterCPA x y = true)
    (h2 : betterCPA y z = true) : betterCPA x z = true := by
  unfold betterCPA at h1 h2 ⊢
  cases hxy : F64.eq x.CPA y.CPA <;> cases hyz : F64.eq y.CPA z.CPA <;>
    simp only [F64.ne, hxy, hyz, Bool.not_true, Bool.not_false, if_true, if_false,
      Bool.false_eq_true] at h1 h2
  · have h := F64.lt_trans h1 h2
    simp [F64.ne_eq_true_of_lt h, h]
  · have h : F64.lt x.CPA z.CPA = true := by rw [← F64.lt_congr_right hyz]; exact h1
    simp [F64.ne_eq_true_of_lt h, h]
  · have h : F64.lt x.CPA z.CPA = true := by rw [F64.lt_congr_left hxy]; exact h2
    simp [F64.ne_eq_true_of_lt h, h]
  · simp [F64.ne, F64.eq_trans hxy hyz, strLess_trans h1 h2]

theorem betterCPA_total {x y : CampaignMetrics} (hx : F64.isNaN x.CPA = false)
    (hy : F64.isNaN y.CPA = false) (hk : x.CampaignID ≠ y.CampaignID) :
    betterCPA x y = true ∨ betterCPA y x = true := by
  unfold betterCPA
  cases hxy : F64.eq x.CPA y.CPA
  · have hyx : F64.eq y.CPA x.CPA = false := by rw [F64.eq_swap]; exact hxy
    simpa [F64.ne, hxy, hyx] using F64.lt_or_lt_of_eq_false hx hy hxy
  · have hyx : F64.eq y.CPA x.CPA = true := by rw [F64.eq_swap]; exact hxy
    simpa [F64.ne, hxy, hyx] using strLess_total hk

theorem betterCTR_irrefl (x : CampaignMetrics) : betterCTR x x = false := by
  unfold betterCTR
  split
  · exact F64.lt_irrefl _
  · exact strLess_irrefl _

theorem betterCTR_trans {x y z : CampaignMetrics} (h1 : betterCTR x y = true)
    (h2 : betterCTR y z = true) : betterCTR x z = true := by
  unfold betterCTR F64.gt at h1 h2 ⊢
  cases hxy : F64.eq x.CTR y.CTR <;> cases hyz : F64.eq y.CTR z.CTR <;>
    simp only [F64.ne, hxy, hyz, Bool.not_true, Bool.not_false, if_true, if_false,
      Bool.false_eq_true] at h1 h2
  · have h := F64.lt_trans h2 h1
    simp [F64.ne_eq_true_of_gt h, h]
  · have h : F64.lt z.CTR x.CTR = true := by rw [← F64.lt_congr_left hyz]; exact h1
    simp [F64.ne_eq_true_of_gt h, h]
  · have h : F64.lt z.CTR x.CTR = true := by rw [F64.lt_congr_right hxy]; exact h2
    simp [F64.ne_eq_true_of_gt h, h]
  · simp [F64.ne, F64.eq_trans hxy hyz, strLess_trans h1 h2]

theorem betterCTR_total {x y : CampaignMetrics} (hx : F64.isNaN x.CTR = false)
    (hy : F64.isNaN y.CTR = false) (hk : x.CampaignID ≠ y.CampaignID) :
    betterCTR x y = true ∨ betterCTR y x = true := by
  unfold betterCTR F64.gt
  cases hxy : F64.eq x.CTR y.CTR
  · have hyx : F64.eq y.CTR x.CTR = false := by rw [F64.eq_swap]; exact hxy
    simpa [F64.ne, hxy, hyx] using (F64.lt_or_lt_of_eq_false hx hy hxy).symm
  · have hyx : F64.eq y.CTR x.CTR = true := by rw [F64.eq_swap]; exact hxy
    simpa [F64.ne, hxy, hyx] using strLess_total hk

theorem CTRHeap_lessElem_eq (x y : CampaignMetrics) :
    CTRHeap.lessElem x y = betterCTR y x := by
  unfold CTRHeap.lessElem betterCTR F64.gt F64.ne
  rw [F64.eq_swap]

theorem CPAHeap_lessElem_eq (x y : CampaignMetrics) :
    CPAHeap.lessElem x y = betterCPA y x := by
  unfold CPAHeap.lessElem betterCPA F64.gt F64.ne
  rw [F64.eq_swap]

/-! ## Facts about rounding -/

namespace F64

theorem ilog2Search_le (q : Nat) : ∀ (steps : List Nat) (acc : Nat), 2 ^ acc ≤ q →
    2 ^ ilog2Search q steps acc ≤ q
  | [], _, h => h
  | s :: ss, acc, h => by
    simp only [ilog2Search]
    split
    · rename_i hc
      rw [Nat.one_shiftLeft] at hc
      exact ilog2Search_le q ss _ hc
    · exact ilog2Search_le q ss _ h

theorem ilog2_le {q : Nat} (hq : 1 ≤ q) : 2 ^ ilog2 q ≤ q := by
  unfold ilog2
  split
  · exact ilog2Search_le q _ 0 (by simpa using hq)
  · exact Nat.log2_self_le (by omega)

theorem ilog2_zero : ilog2 0 = 0 := by decide

theorem round_ne_nan (neg : Bool) (num den : Nat) : isNaN (round neg num den) = false := by
  unfold round
  simp only
  split <;> split <;> rfl

/-- Rounding an integer number of units below `2^2097`: the result is finite, and it is zero
only if the number is. -/
theorem round_int (neg : Bool) {num : Nat} (hnum : num < 2 ^ 2097) :
    ∃ n, round neg num 1 = .fin neg n ∧ (0 < num → 0 < n) := by
  unfold round
  simp only [Nat.div_one, Nat.one_mul, Nat.one_shiftLeft]
  generalize hs : ilog2 num - 52 = s
  have hP : 0 < 2 ^ s := Nat.two_pow_pos _
  have hPle : 0 < num → 2 ^ s ≤ num := by
    intro h0
    have h1 := ilog2_le (q := num) h0
    have h2 : 2 ^ s ≤ 2 ^ ilog2 num := Nat.pow_le_pow_right (by decide) (by omega)
    omega
  have hs0 : num = 0 → s = 0 := by
    intro h0
    subst h0
    rw [ilog2_zero] at hs
    omega
  have hdm := Nat.div_add_mod num (2 ^ s)
  have hmod := Nat.mod_lt num hP
  generalize hm : num / 2 ^ s = m at hdm
  generalize hr : num % 2 ^ s = r at hdm hmod
  have hm1 : ∀ m1, (m1 = m ∨ m1 = m + 1) → (m1 = m + 1 → 0 < num) →
      ∃ n, (if 2 ^ 2098 ≤ m1 * 2 ^ s then F64.inf neg else F64.fin neg (m1 * 2 ^ s)) =
        .fin neg n ∧ (0 < num → 0 < n) := by
    intro m1 hcase hup
    have hbound : m1 * 2 ^ s < 2 ^ 2098 := by
      have e : (2:Nat) ^ 2098 = 2 ^ 2097 + 2 ^ 2097 := by
        rw [show 2098 = 2097 + 1 from rfl, Nat.pow_succ]; omega
      rw [e]
      rcases hcase with h1 | h1
      · subst h1
        have : m1 * 2 ^ s ≤ num := by rw [Nat.mul_comm]; omega
        omega
      · subst h1
        have h0 := hup rfl
        have := hPle h0
        have : (m + 1) * 2 ^ s = 2 ^ s * m + 2 ^ s := by rw [Nat.mul_comm]; ring
        omega
    refine ⟨m1 * 2 ^ s, by rw [if_neg (by omega)], ?_⟩
    intro h0
    have h1 := hPle h0
    have hmpos : 0 < m := by
      rw [← hm]
      exact Nat.div_pos h1 hP
    have : 0 < m1 := by rcases hcase with h | h <;> omega
    exact Nat.mul_pos this hP
  split
  · rename_i hc
    apply hm1 (m + 1) (Or.inr rfl)
    intro _
    by_contra h0
    have h00 : num = 0 := by omega
    have := hs0 h00
    subst this
    subst h00
    simp at hr hm
    subst hr
    simp at hc
  · exact hm1 m (Or.inl rfl) (by omega)

theorem ofInt_fin {i : Int} (hi : IsInt64 i) :
    ∃ n, ofInt i = .fin (decide (i < 0)) n ∧ (i ≠ 0 → 0 < n) := by
  unfold ofInt
  have hnum : i.natAbs <<< 1074 < 2 ^ 2097 := by
    rw [Nat.shiftLeft_eq]
    have h1 : i.natAbs ≤ 2 ^ 63 := by
      unfold IsInt64 at hi
      omega
    calc i.natAbs * 2 ^ 1074 ≤ 2 ^ 63 * 2 ^ 1074 := Nat.mul_le_mul_right _ h1
      _ = 2 ^ 1137 := by rw [← Nat.pow_add]
      _ < 2 ^ 2097 := Nat.pow_lt_pow_right (by decide) (by decide)
  obtain ⟨n, hn, hpos⟩ := round_int (decide (i < 0)) hnum
  refine ⟨n, hn, fun h0 => hpos ?_⟩
  rw [Nat.shiftLeft_eq]
  exact Nat.mul_pos (by omega) (Nat.two_pow_pos _)

theorem div_ofInt_ne_nan {a b : Int} (ha : IsInt64 a) (hb : IsInt64 b) (hb0 : b ≠ 0) :
    isNaN (div (ofInt a) (ofInt b)) = false := by
  obtain ⟨n, hn, _⟩ := ofInt_fin ha
  obtain ⟨m, hm, hmpos⟩ := ofInt_fin hb
  rw [hn, hm]
  have := hmpos hb0
  simp only [div]
  rw [if_neg (by omega)]
  exact round_ne_nan _ _ _

theorem div_ne_nan_of_ne_nan {x : F64} {b : Int} (hx : isNaN x = false) (hb : IsInt64 b)
    (hb0 : b ≠ 0) : isNaN (div x (ofInt b)) = false := by
  obtain ⟨m, hm, hmpos⟩ := ofInt_fin hb
  rw [hm]
  have := hmpos hb0
  cases x with
  | nan => simp [isNaN] at hx
  | inf s => simp [div, isNaN]
  | fin s n =>
    simp only [div]
    rw [if_neg (by omega)]
    exact round_ne_nan _ _ _

end F64

/-! ## Facts about `Swap` -/

namespace heap

variable {α : Type}

theorem Swap_length (h : List α) (i j : Nat) : (Swap h i j).length = h.length := by
  unfold Swap
  split <;> simp

theorem Swap_getElem? (h : List α) {i j : Nat} (hi : i < h.length) (hj : j < h.length)
    (t : Nat) :
    (Swap h i j)[t]? = if t = j then h[i]? else if t = i then h[j]? else h[t]? := by
  unfold Swap
  rw [List.getElem?_eq_getElem hi, List.getElem?_eq_getElem hj]
  simp only [List.getElem?_set, List.length_set]
  by_cases h1 : j = t
  · subst h1; simp [hj]
  · have h1b : ¬ t = j := fun e => h1 e.symm
    by_cases h2 : i = t
    · subst h2; simp [h1, h1b, hi]
    · have h2b : ¬ t = i := fun e => h2 e.symm
      simp [h1, h2, h1b, h2b]

theorem perm_set_cons (x b : α) : ∀ (l : List α) (j : Nat), l[j]? = some b →
    List.Perm (b :: l.set j x) (x :: l)
  | [], j, h => by simp at h
  | y :: ys, 0, h => by
    simp at h
    subst h
    exact List.Perm.swap _ _ _
  | y :: ys, j + 1, h => by
    simp at h
    have ih := perm_set_cons x b ys j h
    exact (List.Perm.swap y b _).trans ((ih.cons y).trans (List.Perm.swap x y _))

theorem perm_set_set : ∀ (l : List α) (i j : Nat) (a b : α), l[i]? = some a → l[j]? = some b →
    List.Perm ((l.set i b).set j a) l
  | [], i, _, _, _, h, _ => by simp at h
  | x :: xs, 0, 0, a, b, h1, h2 => by
    simp at h1 h2
    subst h1
    simp
  | x :: xs, 0, j + 1, a, b, h1, h2 => by
    simp at h1 h2
    subst h1
    simpa using perm_set_cons x b xs j h2
  | x :: xs, i + 1, 0, a, b, h1, h2 => by
    simp at h1 h2
    subst h2
    simpa using perm_set_cons x a xs i h1
  | x :: xs, i + 1, j + 1, a, b, h1, h2 => by
    simp at h1 h2
    simpa using perm_set_set xs i j a b h1 h2

theorem Swap_perm (h : List α) (i j : Nat) : List.Perm (Swap h i j) h := by
  unfold Swap
  split
  · rename_i a b ha hb
    exact perm_set_set h i j a b ha hb
  · exact List.Perm.refl _

end heap

theorem StrictOrderOn.asymm {α : Type} {r : α → α → Bool} {S : α → Prop}
    (ord : StrictOrderOn r S) {x y : α} (h : r x y = true) : r y x = false := by
  cases hyx : r y x with
  | false => rfl
  | true => have := ord.trans x y x h hyx; rw [ord.irrefl] at this; cases this

theorem StrictOrderOn.ntrans {α : Type} {r : α → α → Bool} {S : α → Prop}
    (ord : StrictOrderOn r S) {x y z : α} (hx : S x) (hy : S y) (hz : S z)
    (h1 : r x y = false) (h2 : r y z = false) : r x z = false := by
  cases hxz : r x z with
  | false => rfl
  | true =>
    exfalso
    by_cases exy : x = y
    · subst exy; rw [hxz] at h2; cases h2
    · by_cases eyz : y = z
      · subst eyz; rw [hxz] at h1; cases h1
      · rcases ord.total x y hx hy exy with h | h
        · rw [h] at h1; cases h1
        · rcases ord.total y z hy hz eyz with h3 | h3
          · rw [h3] at h2; cases h2
          · have := ord.trans x z y hxz h3
            rw [this] at h1; cases h1

theorem StrictOrderOn.not_lt_of_lt_of_not_lt {α : Type} {r : α → α → Bool} {S : α → Prop}
    (ord : StrictOrderOn r S) {x y z : α} (h1 : r x y = true) (h2 : r z y = false) :
    r z x = false := by
  cases hzx : r z x with
  | false => rfl
  | true => have := ord.trans z x y hzx h1; rw [this] at h2; cases h2

namespace heap

variable {α : Type}

theorem Swap_get_right (h : List α) {i j : Nat} (hi : i < h.length) (hj : j < h.length) :
    (Swap h i j)[j]? = h[i]? := by
  rw [Swap_getElem? h hi hj]; simp

theorem Swap_get_left (h : List α) {i j : Nat} (hi : i < h.length) (hj : j < h.length) :
    (Swap h i j)[i]? = h[j]? := by
  rw [Swap_getElem? h hi hj]
  by_cases e : i = j
  · subst e; simp
  · simp [e]

theorem Swap_get_other (h : List α) {i j t : Nat} (hi : i < h.length) (hj : j < h.length)
    (h1 : t ≠ i) (h2 : t ≠ j) : (Swap h i j)[t]? = h[t]? := by
  rw [Swap_getElem? h hi hj]; simp [h1, h2]

theorem mem_of_getElem? {h : List α} {i : Nat} {x : α} (hx : h[i]? = some x) : x ∈ h := by
  rw [List.getElem?_eq_some_iff] at hx
  obtain ⟨hi, rfl⟩ := hx
  exact List.getElem_mem hi

theorem lt_length_of_getElem? {h : List α} {i : Nat} {x : α} (hx : h[i]? = some x) :
    i < h.length := by
  rw [List.getElem?_eq_some_iff] at hx
  exact hx.1

theorem upLoop_length (less : α → α → Bool) : ∀ (fuel : Nat) (h : List α) (j : Nat),
    (upLoop less fuel h j).length = h.length
  | 0, h, j => rfl
  | fuel + 1, h, j => by
    simp only [upLoop]
    split
    · split
      · rfl
      · rw [upLoop_length less fuel, Swap_length]
    · rfl

theorem upLoop_perm (less : α → α → Bool) : ∀ (fuel : Nat) (h : List α) (j : Nat),
    List.Perm (upLoop less fuel h j) h
  | 0, h, j => List.Perm.refl _
  | fuel + 1, h, j => by
    simp only [upLoop]
    split
    · split
      · exact List.Perm.refl _
      · exact (upLoop_perm less fuel _ _).trans (Swap_perm _ _ _)
    · exact List.Perm.refl _

theorem upLoop_isHeap {less : α → α → Bool} {S : α → Prop} (ord : StrictOrderOn less S) :
    ∀ (fuel : Nat) (h : List α) (j : Nat), j < fuel → j < h.length → (∀ x ∈ h, S x) →
      UpInv less h j → IsHeap less (upLoop less fuel h j)
  | 0, h, j, hf, _, _, _ => absurd hf (Nat.not_lt_zero _)
  | fuel + 1, h, j, hf, hj, hS, hinv => by
    have hi : (j - 1) / 2 < h.length := by omega
    simp only [upLoop]
    rw [List.getElem?_eq_getElem hj, List.getElem?_eq_getElem hi]
    simp only
    have hx : h[j]? = some h[j] := List.getElem?_eq_getElem hj
    have hy : h[(j - 1) / 2]? = some h[(j - 1) / 2] := List.getElem?_eq_getElem hi
    generalize h[j] = x at hx ⊢
    generalize h[(j - 1) / 2] = y at hy ⊢
    split
    · -- the loop stops: the edge above `j` is in order as well
      rename_i hstop
      intro c u v hc0 _ hu hv
      by_cases hcj : c = j
      · subst hcj
        rw [hx] at hv; rw [hy] at hu
        cases hv; cases hu
        rcases hstop with h0 | hl
        · omega
        · simpa using hl
      · exact hinv.1 c u v hc0 hcj hu hv
    · rename_i hgo
      have hij : (j - 1) / 2 ≠ j := fun e => hgo (Or.inl e)
      have hless : less x y = true := by
        cases hl : less x y with
        | true => rfl
        | false => exact absurd (Or.inr (by simp [hl])) hgo
      have hj0 : 0 < j := by omega
      have hlt : (j - 1) / 2 < j := by omega
      apply upLoop_isHeap ord fuel _ _ (by omega) (by rw [Swap_length]; exact hi)
      · intro z hz
        exact hS z ((Swap_perm h _ _).subset hz)
      · constructor
        · intro c u v hc0 hci hu hv
          by_cases hcj : c = j
          · subst hcj
            rw [Swap_get_left h hi hj] at hu
            rw [Swap_get_right h hi hj] at hv
            rw [hx] at hu; rw [hy] at hv
            cases hu; cases hv
            exact ord.asymm hless
          · rw [Swap_get_other h hi hj hci hcj] at hv
            by_cases hpj : (c - 1) / 2 = j
            · rw [hpj, Swap_get_right h hi hj, hy] at hu
              cases hu
              exact hinv.2 c _ v hc0 hj0 hpj hy hv
            · by_cases hpi : (c - 1) / 2 = (j - 1) / 2
              · rw [hpi, Swap_get_left h hi hj, hx] at hu
                cases hu
                have h1 := hinv.1 c y v hc0 hcj (by rw [hpi]; exact hy) hv
                exact ord.not_lt_of_lt_of_not_lt hless h1
              · rw [Swap_get_other h hi hj hpi hpj] at hu
                exact hinv.1 c u v hc0 hcj hu hv
        · intro c u v hc0 hi0 hpc hu hv
          have hpp : (((j - 1) / 2) - 1) / 2 < (j - 1) / 2 := by omega
          rw [Swap_get_other h hi hj (by omega) (by omega)] at hu
          have hyu : less y u = false := hinv.1 _ u y hi0 hij hu hy
          by_cases hcj : c = j
          · subst hcj
            rw [Swap_get_right h hi hj, hy] at hv
            cases hv
            exact hyu
          · rw [Swap_get_other h hi hj (by omega) hcj] at hv
            have hvy : less v y = false := hinv.1 c y v hc0 hcj (by rw [hpc]; exact hy) hv
            exact ord.ntrans (hS _ (mem_of_getElem? hv)) (hS _ (mem_of_getElem? hy))
              (hS _ (mem_of_getElem? hu)) hvy hyu

end heap

namespace heap

variable {α : Type}

theorem downLoop_length (less : α → α → Bool) : ∀ (fuel : Nat) (h : List α) (i n : Nat),
    (downLoop less fuel h i n).length = h.length
  | 0, h, i, n => rfl
  | fuel + 1, h, i, n => by
    simp only [downLoop]
    split
    · rfl
    · split
      · split
        · rfl
        · rw [downLoop_length less fuel, Swap_length]
      · rfl

theorem downLoop_perm (less : α → α → Bool) : ∀ (fuel : Nat) (h : List α) (i n : Nat),
    List.Perm (downLoop less fuel h i n) h
  | 0, h, i, n => List.Perm.refl _
  | fuel + 1, h, i, n => by
    simp only [downLoop]
    split
    · exact List.Perm.refl _
    · split
      · split
        · exact List.Perm.refl _
        · exact (downLoop_perm less fuel _ _ _).trans (Swap_perm _ _ _)
      · exact List.Perm.refl _

theorem downChild_cases (less : α → α → Bool) (h : List α) (j1 n : Nat) :
    downChild less h j1 n = j1 ∨ downChild less h j1 n = j1 + 1 := by
  unfold downChild
  split
  · split
    · exact Or.inr rfl
    · exact Or.inl rfl
  · exact Or.inl rfl

theorem downChild_lt (less : α → α → Bool) (h : List α) {j1 n : Nat} (hj : j1 < n) :
    downChild less h j1 n < n := by
  unfold downChild
  split
  · split
    · rename_i hc; exact hc.1
    · exact hj
  · exact hj

/-- The other child below `n`, if any, is not `less` than the child `down` chose. -/
theorem downChild_sibling {less : α → α → Bool} {S : α → Prop} (ord : StrictOrderOn less S)
    (h : List α) {j1 n c : Nat} {v x : α} (hc : c = j1 ∨ c = j1 + 1) (hcn : c < n)
    (hne : c ≠ downChild less h j1 n) (hv : h[c]? = some v)
    (hx : h[downChild less h j1 n]? = some x) : less v x = false := by
  unfold downChild at hne hx
  split at hne
  · rename_i a b ha hb
    rw [ha, hb] at hx
    simp only at hx
    split at hne
    · rename_i hcond
      rw [if_pos hcond, ha] at hx
      cases hx
      have hcj : c = j1 := by omega
      subst hcj
      rw [hb] at hv
      cases hv
      exact ord.asymm hcond.2
    · rename_i hcond
      rw [if_neg hcond, hb] at hx
      cases hx
      have hcj : c = j1 + 1 := by omega
      subst hcj
      rw [ha] at hv
      cases hv
      cases hl : less v x with
      | false => rfl
      | true => exact absurd ⟨hcn, hl⟩ hcond
  · rename_i hnone
    have hcj : c = j1 + 1 := by omega
    subst hcj
    have hj1 : j1 < h.length := by have := lt_length_of_getElem? hv; omega
    exact absurd (List.getElem?_eq_getElem hj1) (hnone _ _ hv)

theorem downLoop_getElem?_of_le (less : α → α → Bool) : ∀ (fuel : Nat) (h : List α)
    (i n t : Nat), n ≤ h.length → n ≤ t → (downLoop less fuel h i n)[t]? = h[t]?
  | 0, h, i, n, t, _, _ => rfl
  | fuel + 1, h, i, n, t, hn, ht => by
    simp only [downLoop]
    split
    · rfl
    · rename_i hj1
      have hj1c : 2 * i + 1 < n := by
        have h0 : ¬ n ≤ 2 * i + 1 := hj1
        omega
      have hjn := downChild_lt less h hj1c
      have hji := downChild_cases less h (2 * i + 1) n
      generalize downChild less h (2 * i + 1) n = j at hjn hji ⊢
      split
      · split
        · rfl
        · rw [downLoop_getElem?_of_le less fuel _ _ _ _ (by rw [Swap_length]; exact hn) ht]
          exact Swap_get_other h (by omega) (by omega) (by omega) (by omega)
      · rfl

theorem downLoop_isHeap {less : α → α → Bool} {S : α → Prop} (ord : StrictOrderOn less S) :
    ∀ (fuel : Nat) (h : List α) (i n : Nat), n - i ≤ fuel → n ≤ h.length → (∀ x ∈ h, S x) →
      DownInv less h n i → IsHeapBelow less (downLoop less fuel h i n) n
  | 0, h, i, n, hf, _, _, hinv => by
    intro c u v hc0 hcn hu hv
    exact hinv.1 c u v hc0 hcn (by omega) hu hv
  | fuel + 1, h, i, n, hf, hn, hS, hinv => by
    simp only [downLoop]
    split
    · rename_i hj1
      have hj1c : n ≤ 2 * i + 1 := hj1
      intro c u v hc0 hcn hu hv
      exact hinv.1 c u v hc0 hcn (by omega) hu hv
    · rename_i hj1
      have hj1c : 2 * i + 1 < n := by
        have h0 : ¬ n ≤ 2 * i + 1 := hj1
        omega
      have hjn := downChild_lt less h hj1c
      have hji := downChild_cases less h (2 * i + 1) n
      have hsib : ∀ c v x, (c = 2 * i + 1 ∨ c = 2 * i + 1 + 1) → c < n →
          c ≠ downChild less h (2 * i + 1) n → h[c]? = some v →
          h[downChild less h (2 * i + 1) n]? = some x → less v x = false :=
        fun c v x hc hcn hne hv hx => downChild_sibling ord h hc hcn hne hv hx
      generalize downChild less h (2 * i + 1) n = j at hjn hji hsib ⊢
      have hjl : j < h.length := by omega
      have hil : i < h.length := by omega
      rw [List.getElem?_eq_getElem hjl, List.getElem?_eq_getElem hil]
      simp only
      have hx : h[j]? = some h[j] := List.getElem?_eq_getElem hjl
      have hy : h[i]? = some h[i] := List.getElem?_eq_getElem hil
      generalize h[j] = x at hx ⊢
      generalize h[i] = y at hy ⊢
      have hpj : (j - 1) / 2 = i := by omega
      split
      · -- the loop stops: both children of `i` are in order with `i`
        rename_i hstop
        have hxy : less x y = false := by simpa using hstop
        intro c u v hc0 hcn hu hv
        by_cases hpc : (c - 1) / 2 = i
        · rw [hpc, hy] at hu
          cases hu
          by_cases hcj : c = j
          · subst hcj
            rw [hx] at hv
            cases hv
            exact hxy
          · have hvx := hsib c v x (by omega) hcn hcj hv hx
            exact ord.ntrans (hS _ (mem_of_getElem? hv)) (hS _ (mem_of_getElem? hx))
              (hS _ (mem_of_getElem? hy)) hvx hxy
        · exact hinv.1 c u v hc0 hcn hpc hu hv
      · rename_i hgo
        have hless : less x y = true := by
          cases hl : less x y with
          | true => rfl
          | false => exact absurd (by simp [hl]) hgo
        apply downLoop_isHeap ord fuel _ _ _ (by omega) (by rw [Swap_length]; exact hn)
        · intro z hz
          exact hS z ((Swap_perm h _ _).subset hz)
        · constructor
          · intro c u v hc0 hcn hpc hu hv
            by_cases hcj : c = j
            · subst hcj
              rw [hpj, Swap_get_left h hil hjl, hx] at hu
              rw [Swap_get_right h hil hjl, hy] at hv
              cases hu; cases hv
              exact ord.asymm hless
            · by_cases hci : c = i
              · subst hci
                rw [Swap_get_left h hil hjl, hx] at hv
                cases hv
                rw [Swap_get_other h hil hjl (by omega) (by omega)] at hu
                exact hinv.2 j u _ (by omega) hjn hc0 hpj hu hx
              · rw [Swap_get_other h hil hjl hci hcj] at hv
                by_cases hpi : (c - 1) / 2 = i
                · rw [hpi, Swap_get_left h hil hjl, hx] at hu
                  cases hu
                  exact hsib c v _ (by omega) hcn hcj hv hx
                · rw [Swap_get_other h hil hjl hpi hpc] at hu
                  exact hinv.1 c u v hc0 hcn hpi hu hv
          · intro c u v hc0 hcn hj0 hpc hu hv
            rw [hpj, Swap_get_left h hil hjl, hx] at hu
            cases hu
            rw [Swap_get_other h hil hjl (by omega) (by omega)] at hv
            exact hinv.1 c _ v hc0 hcn (by omega) (by rw [hpc]; exact hx) hv

end heap

/-! ## The fuel of the two loops is never used up -/

namespace heap

variable {α : Type}

/-- The loop of `up` ends by itself within `j + 1` iterations: any larger bound gives the
same slice. -/
theorem upLoop_fuel (less : α → α → Bool) : ∀ (fuel1 fuel2 : Nat) (h : List α) (j : Nat),
    j < fuel1 → j < fuel2 → upLoop less fuel1 h j = upLoop less fuel2 h j
  | 0, _, _, _, h1, _ => absurd h1 (Nat.not_lt_zero _)
  | _ + 1, 0, _, _, _, h2 => absurd h2 (Nat.not_lt_zero _)
  | f + 1, g + 1, h, j, h1, h2 => by
    simp only [upLoop]
    split
    · split
      · rfl
      · rename_i hgo
        have hij : (j - 1) / 2 ≠ j := fun e => hgo (Or.inl e)
        exact upLoop_fuel less f g _ _ (by omega) (by omega)
    · rfl

/-- The loop of `down` ends by itself within `n - i` iterations, and at once when `i` is not
below `n`: any larger bound gives the same slice. -/
theorem downLoop_fuel (less : α → α → Bool) : ∀ (fuel1 fuel2 : Nat) (h : List α) (i n : Nat),
    n - i ≤ fuel1 → n - i ≤ fuel2 → downLoop less fuel1 h i n = downLoop less fuel2 h i n
  | 0, 0, _, _, _, _, _ => rfl
  | 0, g + 1, h, i, n, h1, _ => by
    simp only [downLoop]
    rw [if_pos (by omega)]
  | f + 1, 0, h, i, n, _, h2 => by
    simp only [downLoop]
    rw [if_pos (by omega)]
  | f + 1, g + 1, h, i, n, h1, h2 => by
    simp only [downLoop]
    split
    · rfl
    · rename_i hj1
      have hj1c : 2 * i + 1 < n := by
        have h0 : ¬ n ≤ 2 * i + 1 := hj1
        omega
      have hji := downChild_cases less h (2 * i + 1) n
      generalize downChild less h (2 * i + 1) n = j at hji ⊢
      split
      · split
        · rfl
        · exact downLoop_fuel less f g _ _ _ (by omega) (by omega)
      · rfl

end heap

namespace heap

variable {α : Type}

theorem Init_nil (less : α → α → Bool) : Init less ([] : List α) = [] := by
  simp [Init, initLoop]

theorem isHeap_nil (less : α → α → Bool) : IsHeap less ([] : List α) := by
  intro c x y _ hc
  simp at hc

theorem Push_perm (less : α → α → Bool) (h : List α) (x : α) :
    List.Perm (Push less h x) (x :: h) := by
  unfold Push up
  exact (upLoop_perm less _ _ _).trans (List.perm_append_singleton x h)

theorem Push_length (less : α → α → Bool) (h : List α) (x : α) :
    (Push less h x).length = h.length + 1 := by
  unfold Push up
  rw [upLoop_length]; simp

theorem Push_isHeap {less : α → α → Bool} {S : α → Prop} (ord : StrictOrderOn less S)
    {h : List α} {x : α} (hh : IsHeap less h) (hS : ∀ y ∈ h, S y) (hx : S x) :
    IsHeap less (Push less h x) := by
  unfold Push up
  apply upLoop_isHeap ord _ _ _ (by omega) (by simp)
  · intro y hy
    rcases List.mem_append.1 hy with h1 | h1
    · exact hS y h1
    · simp at h1; subst h1; exact hx
  · constructor
    · intro c u v hc0 hcl hu hv
      have hc : c < h.length := by
        have := lt_length_of_getElem? hv
        simp at this
        omega
      rw [List.getElem?_append_left hc] at hv
      rw [List.getElem?_append_left (by omega)] at hu
      exact hh c u v hc0 hc hu hv
    · intro c u v hc0 _ hpc _ hv
      have := lt_length_of_getElem? hv
      simp at this
      omega

theorem root_le {less : α → α → Bool} {S : α → Prop} (ord : StrictOrderOn less S)
    {h : List α} {r : α} (hh : IsHeap less h) (hS : ∀ y ∈ h, S y) (hr : h[0]? = some r) :
    ∀ (j : Nat) (x : α), h[j]? = some x → less x r = false := by
  intro j
  induction j using Nat.strong_induction_on with
  | _ j ih =>
    intro x hx
    by_cases hj : j = 0
    · subst hj
      rw [hr] at hx
      cases hx
      exact ord.irrefl _
    · have hjl := lt_length_of_getElem? hx
      have hp : (j - 1) / 2 < h.length := by omega
      have hy := List.getElem?_eq_getElem hp
      have h1 := ih ((j - 1) / 2) (by omega) _ hy
      have h2 := hh j _ x (by omega) hjl hy hx
      exact ord.ntrans (hS _ (mem_of_getElem? hx)) (hS _ (mem_of_getElem? hy))
        (hS _ (mem_of_getElem? hr)) h2 h1

theorem root_le_mem {less : α → α → Bool} {S : α → Prop} (ord : StrictOrderOn less S)
    {h : List α} {r : α} (hh : IsHeap less h) (hS : ∀ y ∈ h, S y) (hr : h[0]? = some r)
    {x : α} (hx : x ∈ h) : less x r = false := by
  obtain ⟨j, hj, rfl⟩ := List.getElem_of_mem hx
  exact root_le ord hh hS hr j _ (List.getElem?_eq_getElem hj)

theorem Pop_spec (less : α → α → Bool) {h : List α} {r : α} (hr : h[0]? = some r) :
    ∃ h1, Pop less h = some (h1, r) ∧ List.Perm (r :: h1) h ∧ h1.length + 1 = h.length ∧
      ∀ S : α → Prop, StrictOrderOn less S → IsHeap less h → (∀ y ∈ h, S y) →
        IsHeap less h1 := by
  have hlen := lt_length_of_getElem? hr
  obtain ⟨n, hn⟩ : ∃ n, h.length = n + 1 := ⟨h.length - 1, by omega⟩
  have h0 : 0 < h.length := hlen
  have hnl : n < h.length := by omega
  have hsl : (Swap h 0 n).length = n + 1 := by rw [Swap_length]; exact hn
  have hdl : (down less (Swap h 0 n) 0 n).length = n + 1 := by
    unfold down; rw [downLoop_length]; exact hsl
  have hitem : (down less (Swap h 0 n) 0 n)[n]? = some r := by
    unfold down
    rw [downLoop_getElem?_of_le less _ _ _ _ _ (by omega) (Nat.le_refl n),
      Swap_get_right h h0 hnl]
    exact hr
  have hsplit : down less (Swap h 0 n) 0 n = (down less (Swap h 0 n) 0 n).take n ++ [r] := by
    have h1 := @List.take_succ _ (down less (Swap h 0 n) 0 n) n
    rw [hitem] at h1
    rw [← hdl, List.take_length] at h1
    exact h1
  refine ⟨(down less (Swap h 0 n) 0 n).take n, ?_, ?_, ?_, ?_⟩
  · unfold Pop
    rw [hn]
    simp only [hitem]
  · have hp : List.Perm (down less (Swap h 0 n) 0 n) h := by
      unfold down
      exact (downLoop_perm less _ _ _ _).trans (Swap_perm _ _ _)
    rw [hsplit] at hp
    exact (List.perm_append_singleton r _).symm.trans hp
  · rw [List.length_take, hdl, hn]; omega
  · intro S ord hh hS
    have hbelow : IsHeapBelow less (down less (Swap h 0 n) 0 n) n := by
      unfold down
      apply downLoop_isHeap ord n _ 0 n (by omega) (by omega)
      · intro z hz
        exact hS z ((Swap_perm h _ _).subset hz)
      · constructor
        · intro c u v hc0 hcn hpc hu hv
          rw [Swap_get_other h h0 hnl (by omega) (by omega)] at hu hv
          exact hh c u v hc0 (by omega) hu hv
        · intro c u v _ _ h00
          omega
    intro c u v hc0 hcl hu hv
    have hcn : c < n := by
      rw [List.length_take, hdl] at hcl; omega
    rw [List.getElem?_take_of_lt hcn] at hv
    rw [List.getElem?_take_of_lt (by omega)] at hu
    exact hbelow c u v hc0 hcn hu hv

end heap

/-! ## The methods of the heap types and the library -/

theorem heap_Swap_eq (h : List CampaignMetrics) (i j : Nat) :
    heap.Swap h i j = CTRHeap.Swap h i j ∧ heap.Swap h i j = CPAHeap.Swap h i j := by
  unfold heap.Swap CTRHeap.Swap CPAHeap.Swap
  cases h[i]? <;> cases h[j]? <;> exact ⟨rfl, rfl⟩

theorem heap_Push_eq (less : CampaignMetrics → CampaignMetrics → Bool)
    (h : List CampaignMetrics) (x : CampaignMetrics) :
    heap.Push less h x = heap.up less (CTRHeap.Push h x) (CTRHeap.Len (CTRHeap.Push h x) - 1) ∧
    heap.Push less h x = heap.up less (CPAHeap.Push h x) (CPAHeap.Len (CPAHeap.Push h x) - 1) := by
  simp [heap.Push, CTRHeap.Push, CTRHeap.Len, CPAHeap.Push, CPAHeap.Len]

theorem heap_Pop_eq (less : CampaignMetrics → CampaignMetrics → Bool)
    (h : List CampaignMetrics) (hne : h ≠ []) :
    heap.Pop less h =
      CTRHeap.Pop (heap.down less (heap.Swap h 0 (CTRHeap.Len h - 1)) 0 (CTRHeap.Len h - 1)) ∧
    heap.Pop less h =
      CPAHeap.Pop (heap.down less (heap.Swap h 0 (CPAHeap.Len h - 1)) 0 (CPAHeap.Len h - 1)) := by
  obtain ⟨n, hn⟩ : ∃ n, h.length = n + 1 :=
    ⟨h.length - 1, by have := List.length_pos.2 hne; omega⟩
  have hl : (heap.down less (heap.Swap h 0 n) 0 n).length = n + 1 := by
    unfold heap.down
    rw [heap.downLoop_length, heap.Swap_length, hn]
  unfold heap.Pop CTRHeap.Pop CPAHeap.Pop CTRHeap.Len CPAHeap.Len
  simp only [hn, Nat.add_sub_cancel, hl]
  cases (heap.down less (heap.Swap h 0 n) 0 n)[n]? <;> exact ⟨rfl, rfl⟩

/-! ## The admission step -/

theorem StrictOrderOn.flip {α : Type} {better less : α → α → Bool} {S : α → Prop}
    (ord : StrictOrderOn better S) (hless : ∀ x y, less x y = better y x) :
    StrictOrderOn less S where
  irrefl x := by rw [hless]; exact ord.irrefl x
  trans x y z h1 h2 := by
    rw [hless] at h1 h2 ⊢
    exact ord.trans z y x h2 h1
  total x y hx hy hne := by
    rw [hless, hless]
    exact (ord.total x y hx hy hne).symm

theorem TopInv.init {α : Type} (less better : α → α → Bool) (k : Nat) :
    TopInv less better k ([] : List α) [] where
  split := ⟨[], by simp, by simp, by simp⟩
  size := by simp
  isHeap := heap.isHeap_nil less

theorem offer_spec {α : Type} {less better : α → α → Bool} {S : α → Prop}
    (ord : StrictOrderOn better S) (hless : ∀ x y, less x y = better y x)
    {k : Int} (hk : 1 ≤ k) {h seen : List α} {m : α}
    (hinv : TopInv less better k.toNat h seen) (hS : ∀ x ∈ seen, S x) (hm : S m)
    (hnd : seen.Nodup) (hnew : m ∉ seen) :
    ∃ h1, offer less better k h m = some h1 ∧ TopInv less better k.toNat h1 (seen ++ [m]) := by
  have ordL : StrictOrderOn less S := ord.flip hless
  obtain ⟨rest, hperm, hbetter, hfull⟩ := hinv.split
  have hsub : ∀ x ∈ h, x ∈ seen := fun x hx =>
    hperm.subset (List.mem_append_left _ hx)
  have hSh : ∀ x ∈ h, S x := fun x hx => hS x (hsub x hx)
  have hndh : h.Nodup := (List.nodup_append.1 (hperm.nodup_iff.2 hnd)).1
  unfold offer
  by_cases hlt : (h.length : Int) < k
  · rw [if_pos hlt]
    refine ⟨_, rfl, ?_⟩
    have hrest : rest = [] := by
      by_contra hne
      have := hfull hne
      omega
    subst hrest
    refine ⟨⟨[], ?_, by simp, by simp⟩, ?_, ?_⟩
    · simp only [List.append_nil] at hperm ⊢
      exact (heap.Push_perm less h m).trans
        ((List.perm_append_singleton m h).symm.trans (hperm.append_right [m]))
    · rw [heap.Push_length]; omega
    · exact heap.Push_isHeap ordL hinv.isHeap hSh hm
  · rw [if_neg hlt]
    have hsize := hinv.size
    have hlen : h.length = k.toNat := by omega
    have hpos : 0 < h.length := by omega
    have hr : h[0]? = some h[0] := List.getElem?_eq_getElem hpos
    generalize h[0] = r at hr
    rw [hr]
    simp only
    have hrh : r ∈ h := heap.mem_of_getElem? hr
    have hworst : ∀ x ∈ h, x ≠ r → better x r = true := by
      intro x hx hne
      have h1 := heap.root_le_mem ordL hinv.isHeap hSh hr hx
      rw [hless] at h1
      rcases ord.total x r (hSh x hx) (hSh r hrh) hne with h2 | h2
      · exact h2
      · rw [h1] at h2; cases h2
    have hmr : m ≠ r := fun e => hnew (e ▸ hsub r hrh)
    by_cases hb : better m r = true
    · rw [if_pos hb]
      obtain ⟨h1, hpop, hp1, hl1, hheap1⟩ := heap.Pop_spec less hr
      rw [hpop]
      refine ⟨_, rfl, ?_⟩
      have hnd1 : (r :: h1).Nodup := hp1.nodup_iff.2 hndh
      have hsub1 : ∀ x ∈ h1, x ∈ h := fun x hx => hp1.subset (List.mem_cons_of_mem _ hx)
      have hpush := heap.Push_perm less h1 m
      refine ⟨⟨r :: rest, ?_, ?_, ?_⟩, ?_, ?_⟩
      · have e1 : List.Perm (heap.Push less h1 m ++ r :: rest) ((m :: h1) ++ r :: rest) :=
          hpush.append_right _
        have e2 : List.Perm ((m :: h1) ++ r :: rest) (m :: ((r :: h1) ++ rest)) := by
          simp only [List.cons_append]
          exact (List.perm_middle).cons m
        have e3 : List.Perm (m :: ((r :: h1) ++ rest)) (m :: seen) :=
          ((hp1.append_right rest).trans hperm).cons m
        exact e1.trans (e2.trans (e3.trans (List.perm_append_singleton m seen).symm))
      · intro x hx y hy
        have hx1 : x = m ∨ x ∈ h1 := by
          have := hpush.subset hx
          simpa using this
        rcases List.mem_cons.1 hy with hyr | hyr
        · subst hyr
          rcases hx1 with hx1 | hx1
          · subst hx1; exact hb
          · apply hworst x (hsub1 x hx1)
            intro e
            subst e
            exact (List.nodup_cons.1 hnd1).1 hx1
        · rcases hx1 with hx1 | hx1
          · subst hx1
            exact ord.trans _ _ _ hb (hbetter r hrh y hyr)
          · exact hbetter x (hsub1 x hx1) y hyr
      · intro _
        rw [heap.Push_length]; omega
      · rw [heap.Push_length]; omega
      · exact heap.Push_isHeap ordL (hheap1 S ordL hinv.isHeap hSh)
          (fun y hy => hSh y (hsub1 y hy)) hm
    · rw [if_neg hb]
      refine ⟨_, rfl, ?_⟩
      have hrm : better r m = true := by
        rcases ord.total m r hm (hSh r hrh) hmr with h2 | h2
        · exact absurd h2 hb
        · exact h2
      refine ⟨⟨rest ++ [m], ?_, ?_, ?_⟩, hsize, hinv.isHeap⟩
      · rw [← List.append_assoc]
        exact hperm.append_right [m]
      · intro x hx y hy
        rcases List.mem_append.1 hy with hy1 | hy1
        · exact hbetter x hx y hy1
        · simp at hy1
          subst hy1
          by_cases hxr : x = r
          · subst hxr; exact hrm
          · exact ord.trans _ _ _ (hworst x hx hxr) hrm
      · intro _
        exact hlen

theorem offerAll_spec {α : Type} {less better : α → α → Bool} {S : α → Prop}
    (ord : StrictOrderOn better S) (hless : ∀ x y, less x y = better y x)
    {k : Int} (hk : 1 ≤ k) : ∀ (ms h seen : List α), TopInv less better k.toNat h seen →
      (∀ x ∈ seen ++ ms, S x) → (seen ++ ms).Nodup →
      ∃ h1, offerAll less better k h ms = some h1 ∧ TopInv less better k.toNat h1 (seen ++ ms)
  | [], h, seen, hinv, _, _ => ⟨h, rfl, by simpa using hinv⟩
  | m :: ms, h, seen, hinv, hS, hnd => by
    have hnd1 : seen.Nodup := (List.nodup_append.1 hnd).1
    have hnew : m ∉ seen := by
      intro hmem
      exact (List.nodup_append.1 hnd).2.2 hmem (List.mem_cons_self _ _) 
    obtain ⟨h1, hstep, hinv1⟩ := offer_spec ord hless hk hinv
      (fun x hx => hS x (List.mem_append_left _ hx))
      (hS m (List.mem_append_right _ (List.mem_cons_self _ _))) hnd1 hnew
    have hassoc : seen ++ m :: ms = (seen ++ [m]) ++ ms := by simp
    obtain ⟨h2, hloop, hinv2⟩ := offerAll_spec ord hless hk ms h1 (seen ++ [m]) hinv1
      (by rw [← hassoc]; exact hS) (by rw [← hassoc]; exact hnd)
    refine ⟨h2, ?_, by rw [hassoc]; exact hinv2⟩
    simp only [offerAll, hstep]
    exact hloop

/-! ## The final sort -/

theorem insertLeft_perm {α : Type} (less : α → α → Bool) (x : α) :
    ∀ l : List α, List.Perm (insertLeft less x l) (x :: l)
  | [] => List.Perm.refl _
  | y :: ys => by
    simp only [insertLeft]
    split
    · exact ((insertLeft_perm less x ys).cons y).trans (List.Perm.swap x y ys)
    · exact List.Perm.refl _

theorem insertLeft_fold_perm {α : Type} (less : α → α → Bool) :
    ∀ (s acc : List α),
      List.Perm (s.foldl (fun sorted x => insertLeft less x sorted) acc) (acc ++ s)
  | [], acc => by simp
  | x :: xs, acc => by
    simp only [List.foldl_cons]
    refine (insertLeft_fold_perm less xs _).trans ?_
    refine ((insertLeft_perm less x acc).append_right xs).trans ?_
    simp only [List.cons_append]
    exact List.perm_middle.symm

theorem sortSlice_perm {α : Type} (less : α → α → Bool) (s : List α) :
    List.Perm (sortSlice less s) s := by
  unfold sortSlice
  refine (List.reverse_perm _).trans ?_
  simpa using insertLeft_fold_perm less s []

theorem insertLeft_sorted {α : Type} {less : α → α → Bool} {S : α → Prop}
    (ord : StrictOrderOn less S) (x : α) (hx : S x) :
    ∀ l : List α, (∀ y ∈ l, S y) → x ∉ l → l.Pairwise (fun a b => less b a = true) →
      (insertLeft less x l).Pairwise (fun a b => less b a = true)
  | [], _, _, _ => by simp [insertLeft]
  | y :: ys, hS, hnew, hp => by
    have hxy : x ≠ y := fun e => hnew (e ▸ List.mem_cons_self _ _)
    have hys := List.pairwise_cons.1 hp
    simp only [insertLeft]
    split
    · rename_i hl
      refine List.pairwise_cons.2 ⟨?_, ?_⟩
      · intro z hz
        rcases List.mem_cons.1 ((insertLeft_perm less x ys).subset hz) with e | hz1
        · subst e; exact hl
        · exact hys.1 z hz1
      · exact insertLeft_sorted ord x hx ys (fun z hz => hS z (List.mem_cons_of_mem _ hz))
          (fun hm => hnew (List.mem_cons_of_mem _ hm)) hys.2
    · rename_i hl
      have hyx : less y x = true := by
        rcases ord.total x y hx (hS y (List.mem_cons_self _ _)) hxy with h1 | h1
        · exact absurd h1 hl
        · exact h1
      refine List.pairwise_cons.2 ⟨?_, hp⟩
      intro z hz
      rcases List.mem_cons.1 hz with e | hz1
      · subst e; exact hyx
      · exact ord.trans _ _ _ (hys.1 z hz1) hyx

theorem insertLeft_fold_sorted {α : Type} {less : α → α → Bool} {S : α → Prop}
    (ord : StrictOrderOn less S) :
    ∀ (s acc : List α), (∀ y ∈ acc ++ s, S y) → (acc ++ s).Nodup →
      acc.Pairwise (fun a b => less b a = true) →
      (s.foldl (fun sorted x => insertLeft less x sorted) acc).Pairwise
        (fun a b => less b a = true)
  | [], acc, _, _, hp => by simpa using hp
  | x :: xs, acc, hS, hnd, hp => by
    simp only [List.foldl_cons]
    have hperm : List.Perm (insertLeft less x acc ++ xs) (acc ++ x :: xs) :=
      ((insertLeft_perm less x acc).append_right xs).trans (by
        simp only [List.cons_append]
        exact List.perm_middle.symm)
    apply insertLeft_fold_sorted ord xs
    · intro y hy
      exact hS y (hperm.subset hy)
    · exact hperm.nodup_iff.2 hnd
    · apply insertLeft_sorted ord x (hS x (by simp)) acc
        (fun y hy => hS y (List.mem_append_left _ hy))
      · intro hm
        exact (List.nodup_append.1 hnd).2.2 hm (List.mem_cons_self _ _)
      · exact hp

theorem sortSlice_sorted {α : Type} {less : α → α → Bool} {S : α → Prop}
    (ord : StrictOrderOn less S) {s : List α} (hS : ∀ y ∈ s, S y) (hnd : s.Nodup) :
    (sortSlice less s).Pairwise (fun a b => less a b = true) := by
  unfold sortSlice
  rw [List.pairwise_reverse]
  exact insertLeft_fold_sorted ord s [] (by simpa using hS) (by simpa using hnd)
    List.Pairwise.nil

/-- A strict order leaves one way only to sort a slice: every sorted permutation of `s`, the
output of any correct sorting routine, is the output of `sortSlice`. -/
theorem sortSlice_unique {α : Type} {less : α → α → Bool} {S : α → Prop}
    (ord : StrictOrderOn less S) {s out : List α} (hS : ∀ y ∈ s, S y) (hnd : s.Nodup)
    (hperm : List.Perm out s) (hsorted : out.Pairwise (fun a b => less a b = true)) :
    out = sortSlice less s := by
  haveI : IsAntisymm α (fun a b => less a b = true) :=
    ⟨fun a b h1 h2 => by
      have := ord.asymm h1
      rw [h2] at this
      cases this⟩
  exact List.eq_of_perm_of_sorted (hperm.trans (sortSlice_perm less s).symm) hsorted
    (sortSlice_sorted ord hS hnd)

/-! ## The selection as a whole -/

theorem TopInv.length_eq {α : Type} {less better : α → α → Bool} {k : Nat} {h seen : List α}
    (hinv : TopInv less better k h seen) : h.length = min k seen.length := by
  obtain ⟨rest, hperm, _, hfull⟩ := hinv.split
  have hl := hperm.length_eq
  have hs := hinv.size
  rw [List.length_append] at hl
  by_cases hr : rest = []
  · subst hr
    simp at hl
    omega
  · have := hfull hr
    omega

theorem TopInv.perm_of_perm {α : Type} {less better : α → α → Bool} {S : α → Prop}
    (ord : StrictOrderOn better S) {k : Nat} {h1 h2 s1 s2 : List α}
    (hi1 : TopInv less better k h1 s1) (hi2 : TopInv less better k h2 s2)
    (hnd : s1.Nodup) (hp : List.Perm s1 s2) : List.Perm h1 h2 := by
  have hlen : h1.length = h2.length := by
    rw [hi1.length_eq, hi2.length_eq, hp.length_eq]
  have key : ∀ (a b sa sb : List α), TopInv less better k a sa → TopInv less better k b sb →
      sa.Nodup → List.Perm sa sb → a.length = b.length → a ⊆ b := by
    intro a b sa sb hia hib hnda hpab hlab x hxa
    by_contra hxb
    obtain ⟨ra, hpa, hba, _⟩ := hia.split
    obtain ⟨rb, hpb, hbb, _⟩ := hib.split
    have hndb : sb.Nodup := hpab.nodup_iff.1 hnda
    have hxrb : x ∈ rb := by
      have : x ∈ b ++ rb := hpb.symm.subset (hpab.subset (hpa.subset (List.mem_append_left _ hxa)))
      rcases List.mem_append.1 this with h | h
      · exact absurd h hxb
      · exact h
    have hsub : b ⊆ a := by
      intro y hyb
      have : y ∈ a ++ ra :=
        hpa.symm.subset (hpab.symm.subset (hpb.subset (List.mem_append_left _ hyb)))
      rcases List.mem_append.1 this with h | h
      · exact h
      · have c1 := hba x hxa y h
        have c2 := hbb y hyb x hxrb
        rw [ord.asymm c1] at c2
        cases c2
    have hndb1 : b.Nodup := (List.nodup_append.1 (hpb.nodup_iff.2 hndb)).1
    have hpba : List.Perm b a :=
      (List.subperm_of_subset hndb1 hsub).perm_of_length_le (by omega)
    exact hxb (hpba.symm.subset hxa)
  have hnd1 : h1.Nodup := by
    obtain ⟨r1, hp1, _, _⟩ := hi1.split
    exact (List.nodup_append.1 (hp1.nodup_iff.2 hnd)).1
  exact (List.subperm_of_subset hnd1 (key h1 h2 s1 s2 hi1 hi2 hnd hp hlen)).perm_of_length_le
    (by omega)

theorem select_spec {α : Type} {less better : α → α → Bool} {S : α → Prop}
    (ord : StrictOrderOn better S) (hless : ∀ x y, less x y = better y x)
    {k : Int} (hk : 1 ≤ k) {cands : List α} (hS : ∀ x ∈ cands, S x) (hnd : cands.Nodup) :
    ∃ h, offerAll less better k [] cands = some h ∧ TopInv less better k.toNat h cands := by
  have := offerAll_spec ord hless hk cands [] [] (TopInv.init less better _)
    (by simpa using hS) (by simpa using hnd)
  simpa using this

theorem select_result {α : Type} {less better : α → α → Bool} {S : α → Prop}
    (ord : StrictOrderOn better S) {k : Nat} {h cands : List α}
    (hinv : TopInv less better k h cands) (hS : ∀ x ∈ cands, S x) (hnd : cands.Nodup) :
    (sortSlice better h).length = min k cands.length ∧
    (sortSlice better h).Pairwise (fun a b => better a b = true) ∧
    (∀ x ∈ sortSlice better h, x ∈ cands) ∧
    (sortSlice better h).Nodup ∧
    (∀ x ∈ sortSlice better h, ∀ y ∈ cands, y ∉ sortSlice better h → better x y = true) ∧
    (cands.length ≤ k → List.Perm (sortSlice better h) cands) := by
  obtain ⟨rest, hperm, hbetter, hfull⟩ := hinv.split
  have hsp := sortSlice_perm better h
  have hsub : ∀ x ∈ h, x ∈ cands := fun x hx => hperm.subset (List.mem_append_left _ hx)
  have hndh : h.Nodup := (List.nodup_append.1 (hperm.nodup_iff.2 hnd)).1
  refine ⟨?_, ?_, ?_, ?_, ?_, ?_⟩
  · rw [hsp.length_eq]; exact hinv.length_eq
  · exact sortSlice_sorted ord (fun y hy => hS y (hsub y hy)) hndh
  · intro x hx
    exact hsub x (hsp.subset hx)
  · exact hsp.nodup_iff.2 hndh
  · intro x hx y hy hny
    have hyr : y ∈ rest := by
      rcases List.mem_append.1 (hperm.symm.subset hy) with h1 | h1
      · exact absurd (hsp.symm.subset h1) hny
      · exact h1
    exact hbetter x (hsp.subset hx) y hyr
  · intro hle
    have hl := hperm.length_eq
    rw [List.length_append] at hl
    have hrest : rest = [] := by
      by_contra hne
      have h1 := hfull hne
      have h2 : 0 < rest.length := List.length_pos.2 hne
      omega
    subst hrest
    rw [List.append_nil] at hperm
    exact hsp.trans hperm

theorem select_order_independent {α : Type} {less better : α → α → Bool} {S : α → Prop}
    (ord : StrictOrderOn better S) {k : Nat} {h1 h2 c1 c2 : List α}
    (hi1 : TopInv less better k h1 c1) (hi2 : TopInv less better k h2 c2)
    (hS : ∀ x ∈ c1, S x) (hnd : c1.Nodup) (hp : List.Perm c1 c2) :
    sortSlice better h1 = sortSlice better h2 := by
  have hperm := TopInv.perm_of_perm ord hi1 hi2 hnd hp
  obtain ⟨r2, hp2, _, _⟩ := hi2.split
  have hnd2 : c2.Nodup := hp.nodup_iff.1 hnd
  have hsub2 : ∀ x ∈ h2, x ∈ c2 := fun x hx => hp2.subset (List.mem_append_left _ hx)
  have hS2 : ∀ x ∈ h2, S x := fun x hx => hS x (hp.symm.subset (hsub2 x hx))
  have hndh2 : h2.Nodup := (List.nodup_append.1 (hp2.nodup_iff.2 hnd2)).1
  have hS1 : ∀ x ∈ h1, S x := fun x hx => hS2 x (hperm.subset hx)
  have hndh1 : h1.Nodup := hperm.nodup_iff.2 hndh2
  exact sortSlice_unique ord hS2 hndh2 ((sortSlice_perm better h1).trans hperm)
    (sortSlice_sorted ord hS1 hndh1)

/-! ## The two selectors -/

theorem buildMetrics_CampaignID (id : String) (agg : CampaignAgg) :
    (buildMetrics id agg).CampaignID = id := by
  unfold buildMetrics
  simp only
  split <;> rfl

theorem buildMetrics_CTR_eq (id : String) (agg : CampaignAgg) :
    (buildMetrics id agg).CTR =
      if agg.TotalImpressions > 0 then
        F64.div (F64.ofInt agg.TotalClicks) (F64.ofInt agg.TotalImpressions)
      else F64.zero := by
  unfold buildMetrics
  simp only
  split <;> rfl

theorem buildMetrics_CPA_eq (id : String) (agg : CampaignAgg) :
    (buildMetrics id agg).CPA =
      if agg.TotalConversions > 0 then F64.div agg.TotalSpend (F64.ofInt agg.TotalConversions)
      else F64.zero := by
  unfold buildMetrics
  simp only
  split <;> rfl

theorem buildMetrics_HasCPA_eq (id : String) (agg : CampaignAgg) :
    (buildMetrics id agg).HasCPA = decide (agg.TotalConversions > 0) := by
  unfold buildMetrics
  simp only
  split <;> simp [*]

theorem buildMetrics_CTR_ne_nan (id : String) {agg : CampaignAgg} (hv : agg.Valid) :
    F64.isNaN (buildMetrics id agg).CTR = false := by
  rw [buildMetrics_CTR_eq]
  split
  · rename_i hpos
    exact F64.div_ofInt_ne_nan hv.2.1 hv.1 (by omega)
  · rfl

theorem buildMetrics_CPA_ne_nan (id : String) {agg : CampaignAgg} (hv : agg.Valid)
    (hs : F64.isNaN agg.TotalSpend = false) : F64.isNaN (buildMetrics id agg).CPA = false := by
  rw [buildMetrics_CPA_eq]
  split
  · rename_i hpos
    exact F64.div_ne_nan_of_ne_nan hs hv.2.2 (by omega)
  · rfl

theorem ctrCandidates_keys (aggs : List (String × CampaignAgg)) :
    (ctrCandidates aggs).map (fun m => m.CampaignID) = aggs.map Prod.fst := by
  unfold ctrCandidates
  rw [List.map_map]
  apply List.map_congr_left
  intro e _
  exact buildMetrics_CampaignID e.1 e.2

theorem cpaCandidates_keys (aggs : List (String × CampaignAgg)) :
    (cpaCandidates aggs).map (fun m => m.CampaignID) =
      (aggs.filter (fun e => decide (0 < e.2.TotalConversions))).map Prod.fst := by
  unfold cpaCandidates
  rw [List.map_map]
  apply List.map_congr_left
  intro e _
  exact buildMetrics_CampaignID e.1 e.2

theorem ctrCandidates_nodup {aggs : List (String × CampaignAgg)}
    (hkeys : (aggs.map Prod.fst).Nodup) : (ctrCandidates aggs).Nodup := by
  apply List.Nodup.of_map (fun m => m.CampaignID)
  rw [ctrCandidates_keys]
  exact hkeys

theorem cpaCandidates_nodup {aggs : List (String × CampaignAgg)}
    (hkeys : (aggs.map Prod.fst).Nodup) : (cpaCandidates aggs).Nodup := by
  apply List.Nodup.of_map (fun m => m.CampaignID)
  rw [cpaCandidates_keys]
  exact hkeys.sublist ((List.filter_sublist _).map _)

theorem key_ne_of_ne {l : List CampaignMetrics}
    (hnd : (l.map (fun m => m.CampaignID)).Nodup) {x y : CampaignMetrics} (hx : x ∈ l)
    (hy : y ∈ l) (hne : x ≠ y) : x.CampaignID ≠ y.CampaignID :=
  fun e => hne (List.inj_on_of_nodup_map hnd hx hy e)

theorem betterCTR_order {aggs : List (String × CampaignAgg)}
    (hkeys : (aggs.map Prod.fst).Nodup) (hvalid : ∀ e ∈ aggs, e.2.Valid) :
    StrictOrderOn betterCTR (fun x => x ∈ ctrCandidates aggs) where
  irrefl := betterCTR_irrefl
  trans _ _ _ := betterCTR_trans
  total x y hx hy hne := by
    have hnan : ∀ z ∈ ctrCandidates aggs, F64.isNaN z.CTR = false := by
      intro z hz
      unfold ctrCandidates at hz
      obtain ⟨e, he, rfl⟩ := List.mem_map.1 hz
      exact buildMetrics_CTR_ne_nan _ (hvalid e he)
    apply betterCTR_total (hnan x hx) (hnan y hy)
    apply key_ne_of_ne _ hx hy hne
    rw [ctrCandidates_keys]
    exact hkeys

theorem betterCPA_order {aggs : List (String × CampaignAgg)}
    (hkeys : (aggs.map Prod.fst).Nodup) (hvalid : ∀ e ∈ aggs, e.2.Valid)
    (hspend : ∀ e ∈ aggs, 0 < e.2.TotalConversions → F64.isNaN e.2.TotalSpend = false) :
    StrictOrderOn betterCPA (fun x => x ∈ cpaCandidates aggs) where
  irrefl := betterCPA_irrefl
  trans _ _ _ := betterCPA_trans
  total x y hx hy hne := by
    have hnan : ∀ z ∈ cpaCandidates aggs, F64.isNaN z.CPA = false := by
      intro z hz
      unfold cpaCandidates at hz
      obtain ⟨e, he, rfl⟩ := List.mem_map.1 hz
      rw [List.mem_filter] at he
      exact buildMetrics_CPA_ne_nan _ (hvalid e he.1) (hspend e he.1 (by simpa using he.2))
    apply betterCPA_total (hnan x hx) (hnan y hy)
    apply key_ne_of_ne _ hx hy hne
    rw [cpaCandidates_keys]
    exact hkeys.sublist ((List.filter_sublist _).map _)

theorem selectTopCTR_step_eq (k : Int) (h : CTRHeap) (e : String × CampaignAgg) :
    selectTopCTR.step k h e =
      offer CTRHeap.lessElem betterCTR k h (buildMetrics e.1 e.2) := by
  unfold selectTopCTR.step offer
  simp only
  split
  · rfl
  · cases h[0]? with
    | none => rfl
    | some r =>
      simp only
      split
      · cases heap.Pop CTRHeap.lessElem h <;> rfl
      · rfl

theorem selectTopCPA_step_eq (k : Int) (h : CPAHeap) (e : String × CampaignAgg)
    (hc : ¬ e.2.TotalConversions ≤ 0) :
    selectTopCPA.step k h e =
      offer CPAHeap.lessElem betterCPA k h (buildMetrics e.1 e.2) := by
  unfold selectTopCPA.step offer
  simp only [if_neg hc]
  split
  · rfl
  · cases h[0]? with
    | none => rfl
    | some r =>
      simp only
      split
      · cases heap.Pop CPAHeap.lessElem h <;> rfl
      · rfl

theorem selectTopCTR_loop_eq (k : Int) : ∀ (aggs : List (String × CampaignAgg)) (h : CTRHeap),
    selectTopCTR.loop k h aggs = offerAll CTRHeap.lessElem betterCTR k h (ctrCandidates aggs)
  | [], h => rfl
  | e :: es, h => by
    have ih := selectTopCTR_loop_eq k es
    simp only [selectTopCTR.loop, ctrCandidates, List.map_cons, offerAll]
    rw [selectTopCTR_step_eq]
    cases offer CTRHeap.lessElem betterCTR k h (buildMetrics e.1 e.2) with
    | none => rfl
    | some h1 => exact ih h1

theorem selectTopCPA_loop_eq (k : Int) : ∀ (aggs : List (String × CampaignAgg)) (h : CPAHeap),
    selectTopCPA.loop k h aggs = offerAll CPAHeap.lessElem betterCPA k h (cpaCandidates aggs)
  | [], h => rfl
  | e :: es, h => by
    have ih := selectTopCPA_loop_eq k es
    by_cases hc : e.2.TotalConversions ≤ 0
    · have hf : decide (0 < e.2.TotalConversions) = false := by simp; omega
      simp only [selectTopCPA.loop, selectTopCPA.step, if_pos hc, cpaCandidates,
        List.filter_cons, hf]
      exact ih h
    · have hf : decide (0 < e.2.TotalConversions) = true := by simp; omega
      have hstep := selectTopCPA_step_eq k h e hc
      simp only [selectTopCPA.loop, cpaCandidates, List.filter_cons, hf, if_true,
        List.map_cons, offerAll, hstep]
      cases offer CPAHeap.lessElem betterCPA k h (buildMetrics e.1 e.2) with
      | none => rfl
      | some h1 => exact ih h1

theorem selectTopCTR_eq (aggs : List (String × CampaignAgg)) (k : Int) :
    selectTopCTR aggs k =
      (offerAll CTRHeap.lessElem betterCTR k [] (ctrCandidates aggs)).map
        (sortSlice betterCTR) := by
  unfold selectTopCTR
  rw [heap.Init_nil, selectTopCTR_loop_eq]
  cases offerAll CTRHeap.lessElem betterCTR k [] (ctrCandidates aggs) <;> rfl

theorem selectTopCPA_eq (aggs : List (String × CampaignAgg)) (k : Int) :
    selectTopCPA aggs k =
      (offerAll CPAHeap.lessElem betterCPA k [] (cpaCandidates aggs)).map
        (sortSlice betterCPA) := by
  unfold selectTopCPA
  rw [heap.Init_nil, selectTopCPA_loop_eq]
  cases offerAll CPAHeap.lessElem betterCPA k [] (cpaCandidates aggs) <;> rfl

/-- The result of `selectTopCTR` read through the loop invariant. -/
theorem selectTopCTR_inv {aggs : List (String × CampaignAgg)} {k : Int} (hk : 1 ≤ k)
    (hkeys : (aggs.map Prod.fst).Nodup) (hvalid : ∀ e ∈ aggs, e.2.Valid) :
    ∃ h, selectTopCTR aggs k = some (sortSlice betterCTR h) ∧
      TopInv CTRHeap.lessElem betterCTR k.toNat h (ctrCandidates aggs) := by
  obtain ⟨h, hrun, hinv⟩ := select_spec (betterCTR_order hkeys hvalid) CTRHeap_lessElem_eq hk
    (fun x hx => hx) (ctrCandidates_nodup hkeys)
  exact ⟨h, by rw [selectTopCTR_eq, hrun]; rfl, hinv⟩

/-- The result of `selectTopCPA` read through the loop invariant, when no eligible campaign
has a NaN as its spend. -/
theorem selectTopCPA_inv {aggs : List (String × CampaignAgg)} {k : Int} (hk : 1 ≤ k)
    (hkeys : (aggs.map Prod.fst).Nodup) (hvalid : ∀ e ∈ aggs, e.2.Valid)
    (hspend : ∀ e ∈ aggs, 0 < e.2.TotalConversions → F64.isNaN e.2.TotalSpend = false) :
    ∃ h, selectTopCPA aggs k = some (sortSlice betterCPA h) ∧
      TopInv CPAHeap.lessElem betterCPA k.toNat h (cpaCandidates aggs) := by
  obtain ⟨h, hrun, hinv⟩ := select_spec (betterCPA_order hkeys hvalid hspend)
    CPAHeap_lessElem_eq hk (fun x hx => hx) (cpaCandidates_nodup hkeys)
  exact ⟨h, by rw [selectTopCPA_eq, hrun]; rfl, hinv⟩

theorem ctrCandidates_length (aggs : List (String × CampaignAgg)) :
    (ctrCandidates aggs).length = aggs.length := by
  simp [ctrCandidates]

/-- C1: for `k ≥ 1` and a mapping with distinct keys and `int64` totals, listed in `aggs` in
whatever order the keys are visited, `selectTopCTR` returns `min(k, n)` distinct campaigns of
the mapping, each of them `betterCTR` than every campaign of the mapping that the result
leaves out; with `k = 1` and a non-empty mapping the result is the one campaign that is
`betterCTR` than all others. -/
theorem selectTopCTR_keeps_k_best (aggs : List (String × CampaignAgg)) (k : Int)
    (hk : 1 ≤ k) (hkeys : (aggs.map Prod.fst).Nodup) (hvalid : ∀ e ∈ aggs, e.2.Valid) :
    ∃ res, selectTopCTR aggs k = some res ∧
      res.length = min k.toNat aggs.length ∧
      (∀ x ∈ res, x ∈ ctrCandidates aggs) ∧ res.Nodup ∧
      (∀ x ∈ res, ∀ y ∈ ctrCandidates aggs, y ∉ res → betterCTR x y = true) ∧
      (k = 1 → aggs ≠ [] →
        ∃ b, res = [b] ∧ ∀ y ∈ ctrCandidates aggs, y ≠ b → betterCTR b y = true) := by
  obtain ⟨h, hrun, hinv⟩ := selectTopCTR_inv hk hkeys hvalid
  obtain ⟨hlen, _, hsub, hnd, hbest, _⟩ := select_result (betterCTR_order hkeys hvalid) hinv
    (fun x hx => hx) (ctrCandidates_nodup hkeys)
  rw [ctrCandidates_length] at hlen
  refine ⟨_, hrun, hlen, hsub, hnd, hbest, ?_⟩
  intro hk1 hne
  subst hk1
  have hpos : 0 < aggs.length := List.length_pos.2 hne
  have hone : (sortSlice betterCTR h).length = 1 := by
    rw [hlen]
    have : (1 : Int).toNat = 1 := rfl
    omega
  obtain ⟨b, hb⟩ := List.length_eq_one.1 hone
  refine ⟨b, hb, ?_⟩
  intro y hy hyb
  apply hbest b (by rw [hb]; exact List.mem_singleton_self b) y hy
  rw [hb]
  simpa using hyb

/-- The CPA counterpart of C1 on the mappings in which no eligible campaign has a NaN as its
spend: `selectTopCPA` returns `min(k, eligible)` distinct eligible campaigns, each of them
`betterCPA` than every eligible campaign the result leaves out. -/
theorem selectTopCPA_keeps_k_best_of_no_nan (aggs : List (String × CampaignAgg)) (k : Int)
    (hk : 1 ≤ k) (hkeys : (aggs.map Prod.fst).Nodup) (hvalid : ∀ e ∈ aggs, e.2.Valid)
    (hspend : ∀ e ∈ aggs, 0 < e.2.TotalConversions → F64.isNaN e.2.TotalSpend = false) :
    ∃ res, selectTopCPA aggs k = some res ∧
      res.length = min k.toNat (cpaCandidates aggs).length ∧
      (∀ x ∈ res, x ∈ cpaCandidates aggs) ∧ res.Nodup ∧
      (∀ x ∈ res, ∀ y ∈ cpaCandidates aggs, y ∉ res → betterCPA x y = true) ∧
      res.Pairwise (fun a b => betterCPA a b = true) := by
  obtain ⟨h, hrun, hinv⟩ := selectTopCPA_inv hk hkeys hvalid hspend
  obtain ⟨hlen, hsorted, hsub, hnd, hbest, _⟩ :=
    select_result (betterCPA_order hkeys hvalid hspend) hinv
      (fun x hx => hx) (cpaCandidates_nodup hkeys)
  exact ⟨_, hrun, hlen, hsub, hnd, hbest, hsorted⟩

theorem ctrCandidates_perm {a1 a2 : List (String × CampaignAgg)} (hp : List.Perm a1 a2) :
    List.Perm (ctrCandidates a1) (ctrCandidates a2) := hp.map _

theorem cpaCandidates_perm {a1 a2 : List (String × CampaignAgg)} (hp : List.Perm a1 a2) :
    List.Perm (cpaCandidates a1) (cpaCandidates a2) := (hp.filter _).map _

/-- The CTR half of C3: two visiting orders of one mapping give `selectTopCTR` the same
sequence to return. -/
theorem selectTopCTR_order_independent (a1 a2 : List (String × CampaignAgg)) (k : Int)
    (hk : 1 ≤ k) (hkeys : (a1.map Prod.fst).Nodup) (hvalid : ∀ e ∈ a1, e.2.Valid)
    (hp : List.Perm a1 a2) : selectTopCTR a1 k = selectTopCTR a2 k := by
  have hkeys2 : (a2.map Prod.fst).Nodup := (hp.map _).nodup_iff.1 hkeys
  have hvalid2 : ∀ e ∈ a2, e.2.Valid := fun e he => hvalid e (hp.symm.subset he)
  obtain ⟨h1, hrun1, hinv1⟩ := selectTopCTR_inv hk hkeys hvalid
  obtain ⟨h2, hrun2, hinv2⟩ := selectTopCTR_inv hk hkeys2 hvalid2
  rw [hrun1, hrun2]
  exact congrArg some (select_order_independent (betterCTR_order hkeys hvalid) hinv1 hinv2
    (fun x hx => hx) (ctrCandidates_nodup hkeys) (ctrCandidates_perm hp))

/-- The CPA half of C3 on the mappings in which no eligible campaign has a NaN as its spend:
two visiting orders of one mapping give `selectTopCPA` the same sequence to return. -/
theorem selectTopCPA_order_independent_of_no_nan (a1 a2 : List (String × CampaignAgg))
    (k : Int) (hk : 1 ≤ k) (hkeys : (a1.map Prod.fst).Nodup) (hvalid : ∀ e ∈ a1, e.2.Valid)
    (hspend : ∀ e ∈ a1, 0 < e.2.TotalConversions → F64.isNaN e.2.TotalSpend = false)
    (hp : List.Perm a1 a2) : selectTopCPA a1 k = selectTopCPA a2 k := by
  have hkeys2 : (a2.map Prod.fst).Nodup := (hp.map _).nodup_iff.1 hkeys
  have hvalid2 : ∀ e ∈ a2, e.2.Valid := fun e he => hvalid e (hp.symm.subset he)
  have hspend2 : ∀ e ∈ a2, 0 < e.2.TotalConversions → F64.isNaN e.2.TotalSpend = false :=
    fun e he => hspend e (hp.symm.subset he)
  obtain ⟨h1, hrun1, hinv1⟩ := selectTopCPA_inv hk hkeys hvalid hspend
  obtain ⟨h2, hrun2, hinv2⟩ := selectTopCPA_inv hk hkeys2 hvalid2 hspend2
  rw [hrun1, hrun2]
  exact congrArg some (select_order_independent (betterCPA_order hkeys hvalid hspend) hinv1
    hinv2 (fun x hx => hx) (cpaCandidates_nodup hkeys) (cpaCandidates_perm hp))

/-- C4: for `k ≥ 1` and a mapping with `n` distinct keys and `int64` totals the output of
`selectTopCTR` has length `min(k, n)` and is strictly sorted by `betterCTR`, adjacent rows and
all pairs of rows alike, so that of two rows with equal CTR the one with the smaller key
comes first; when `k ≥ n` the keys of the output are the keys of the mapping, each once. -/
theorem selectTopCTR_sorted (aggs : List (String × CampaignAgg)) (k : Int)
    (hk : 1 ≤ k) (hkeys : (aggs.map Prod.fst).Nodup) (hvalid : ∀ e ∈ aggs, e.2.Valid) :
    ∃ res, selectTopCTR aggs k = some res ∧
      res.length = min k.toNat aggs.length ∧
      res.Chain' (fun a b => betterCTR a b = true) ∧
      res.Pairwise (fun a b => betterCTR a b = true) ∧
      res.Pairwise (fun a b => F64.eq a.CTR b.CTR = true →
        strLess a.CampaignID b.CampaignID = true) ∧
      ((aggs.length : Int) ≤ k →
        List.Perm (res.map (fun m => m.CampaignID)) (aggs.map Prod.fst) ∧
        (res.map (fun m => m.CampaignID)).Nodup) := by
  obtain ⟨h, hrun, hinv⟩ := selectTopCTR_inv hk hkeys hvalid
  obtain ⟨hlen, hsorted, _, _, _, hall⟩ := select_result (betterCTR_order hkeys hvalid) hinv
    (fun x hx => hx) (ctrCandidates_nodup hkeys)
  rw [ctrCandidates_length] at hlen hall
  refine ⟨_, hrun, hlen, List.Pairwise.chain' hsorted, hsorted, ?_, ?_⟩
  · refine hsorted.imp ?_
    intro a b hab heq
    unfold betterCTR at hab
    simpa [F64.ne, heq] using hab
  · intro hle
    have hp := (hall (by omega)).map (fun m => m.CampaignID)
    rw [ctrCandidates_keys] at hp
    exact ⟨hp, hp.nodup_iff.2 hkeys⟩

/-! ## The aggregation loop -/

theorem wrapInt64_add_left (a b : Int) : wrapInt64 (wrapInt64 a + b) = wrapInt64 (a + b) := by
  unfold wrapInt64
  omega

theorem wrapInt64_isInt64 (a : Int) : IsInt64 (wrapInt64 a) := by
  unfold wrapInt64 IsInt64
  omega

theorem wrapInt64_of_isInt64 {a : Int} (h : IsInt64 a) : wrapInt64 a = a := by
  unfold wrapInt64
  unfold IsInt64 at h
  omega

theorem AggMap.get_set (aggs : AggMap) (key key1 : String) (agg : CampaignAgg) :
    (aggs.set key agg).get key1 = if key = key1 then some agg else aggs.get key1 := by
  induction aggs with
  | nil => simp [AggMap.set, AggMap.get]
  | cons e es ih =>
    simp only [AggMap.set]
    by_cases h : e.1 = key
    · simp only [if_pos h, AggMap.get]
      by_cases h1 : key = key1
      · simp [h1]
      · have : ¬ e.1 = key1 := by rw [h]; exact h1
        simp [h1, this]
    · simp only [if_neg h, AggMap.get, ih]
      by_cases h1 : e.1 = key1
      · have : ¬ key = key1 := by rw [← h1]; exact fun e2 => h e2.symm
        simp [h1, this]
      · simp [h1]

theorem aggregateLoop_eq_fold (std : StdLib) (cols : Columns) :
    ∀ (lines : List Line) (st : AggState), Line.malformed ∉ lines →
      aggregateLoop std cols st lines =
        some ((acceptedRows std cols lines).foldl AggState.fold st)
  | [], st, _ => rfl
  | Line.malformed :: _, _, h => absurd (List.mem_cons_self _ _) h
  | Line.fields fs :: rest, st, h => by
    have ih := aggregateLoop_eq_fold std cols rest (ingest std cols st fs)
      (fun hm => h (List.mem_cons_of_mem _ hm))
    simp only [aggregateLoop]
    rw [ih]
    simp only [acceptedRows, List.filterMap_cons, ingest]
    cases parseRecord std cols fs <;> rfl

theorem aggregateLoop_eq_none (std : StdLib) (cols : Columns) :
    ∀ (lines : List Line) (st : AggState), Line.malformed ∈ lines →
      aggregateLoop std cols st lines = none
  | [], _, h => by simp at h
  | Line.malformed :: _, _, _ => rfl
  | Line.fields fs :: rest, st, h => by
    simp only [aggregateLoop]
    apply aggregateLoop_eq_none std cols rest
    simpa using h

theorem fold_processed (rows : List Row) : ∀ st : AggState,
    (rows.foldl AggState.fold st).processed = wrapInt64 (st.processed + rows.length) ∨
      rows = [] := by
  induction rows with
  | nil => intro st; exact Or.inr rfl
  | cons r rs ih =>
    intro st
    left
    simp only [List.foldl_cons, List.length_cons]
    rcases ih (st.fold r) with h | h
    · rw [h]
      simp only [AggState.fold]
      rw [wrapInt64_add_left]
      congr 1
      push_cast
      ring
    · subst h
      simp only [List.foldl_nil, AggState.fold, List.length_nil]
      congr 1

theorem fold_processed_init (rows : List Row) :
    (rows.foldl AggState.fold AggState.init).processed = wrapInt64 rows.length := by
  rcases fold_processed rows AggState.init with h | h
  · rw [h]; simp [AggState.init]
  · subst h; rfl

theorem rowsOf_append (rs : List Row) (r : Row) (key : String) :
    rowsOf (rs ++ [r]) key = if r.campaignID = key then rowsOf rs key ++ [r] else rowsOf rs key := by
  unfold rowsOf
  rw [List.filter_append]
  by_cases h : r.campaignID = key
  · simp [h]
  · simp [h]

theorem specTotals_snoc (rs : List Row) (r : Row) :
    specTotals (rs ++ [r]) = (specTotals rs).add r := by
  simp only [specTotals, CampaignAgg.add, List.map_append, List.map_cons, List.map_nil,
    List.sum_append, List.sum_cons, List.sum_nil, add_zero, wrapInt64_add_left, sumF64,
    List.foldl_append, List.foldl_cons, List.foldl_nil]

theorem specTotals_single (r : Row) : specTotals [r] = CampaignAgg.zero.add r := by
  simp [specTotals, CampaignAgg.add, CampaignAgg.zero, sumF64]

/-- The map after folding the records `rows` into the empty state: a key has an entry iff
some record carries it, and the entry holds the totals of `specTotals`. -/
theorem fold_get (rows : List Row) (key : String) :
    (rows.foldl AggState.fold AggState.init).aggs.get key =
      if rowsOf rows key = [] then none else some (specTotals (rowsOf rows key)) := by
  induction rows using List.reverseRecOn with
  | nil => simp [AggState.init, AggMap.get, rowsOf]
  | append_singleton rs r ih =>
    rw [List.foldl_append, List.foldl_cons, List.foldl_nil]
    generalize hst : rs.foldl AggState.fold AggState.init = st at ih
    simp only [AggState.fold, AggMap.get_set, rowsOf_append]
    by_cases hk : r.campaignID = key
    · subst hk
      simp only [if_true, List.append_ne_nil_of_right_ne_nil _ (List.cons_ne_nil r []),
        if_false]
      rw [ih]
      by_cases hrs : rowsOf rs r.campaignID = []
      · rw [hrs]
        simp only [if_true, List.nil_append]
        rw [specTotals_single]
      · simp only [if_neg hrs]
        rw [specTotals_snoc]
    · simp only [if_neg hk]
      exact ih

theorem parseRecord_isSome (std : StdLib) (cols : Columns) (fs : List String) :
    (parseRecord std cols fs).isSome = numericOK std cols (Line.fields fs) := by
  unfold parseRecord
  simp only [numericOK]
  by_cases h1 : fs.length = cols.nFields
  · rw [if_neg (fun h => h h1)]
    by_cases h2 : fs.length = 0
    · rw [if_pos h2]
      simp [h2]
    · rw [if_neg h2]
      have e1 : decide (fs.length = cols.nFields) = true := decide_eq_true h1
      have e2 : decide (fs.length ≠ 0) = true := decide_eq_true h2
      rw [e1, e2]
      cases std.ParseInt (fs.getD cols.impressionIdx "") <;>
        cases std.ParseInt (fs.getD cols.clickIdx "") <;>
        cases std.ParseFloat (fs.getD cols.spendIdx "") <;>
        cases std.ParseInt (fs.getD cols.conversionIdx "") <;> rfl
  · rw [if_pos h1]
    have e1 : decide (fs.length = cols.nFields) = false := decide_eq_false h1
    rw [e1]
    rfl

theorem acceptedRows_length (std : StdLib) (cols : Columns) (lines : List Line) :
    (acceptedRows std cols lines).length = (lines.filter (numericOK std cols)).length := by
  induction lines with
  | nil => rfl
  | cons l ls ih =>
    cases l with
    | malformed =>
      simp only [acceptedRows, List.filterMap_cons, List.filter_cons, numericOK]
      exact ih
    | fields fs =>
      have h := parseRecord_isSome std cols fs
      simp only [acceptedRows, List.filterMap_cons, List.filter_cons]
      cases hp : parseRecord std cols fs with
      | none =>
        rw [hp] at h
        simp only [Option.isSome_none] at h
        rw [← h]
        exact ih
      | some row =>
        rw [hp] at h
        simp only [Option.isSome_some] at h
        rw [← h]
        simp only [if_true, List.length_cons]
        exact congrArg (· + 1) ih

theorem acceptedRows_perm (std : StdLib) (cols : Columns) {l1 l2 : List Line}
    (hp : List.Perm l1 l2) :
    List.Perm (acceptedRows std cols l1) (acceptedRows std cols l2) :=
  hp.filterMap _

theorem rowsOf_eq_nil_iff (rows : List Row) (key : String) :
    rowsOf rows key = [] ↔ ∀ r ∈ rows, r.campaignID ≠ key := by
  unfold rowsOf
  rw [List.filter_eq_nil_iff]
  constructor
  · intro h r hr
    simpa using h r hr
  · intro h r hr
    simpa using h r hr

/-- C6, as amended: when no line stops the reader, the loop returns a map in which a key has
an entry iff an accepted row carries it; the three integer totals of the entry are the sums
of the rows' fields as `int64` values, that is reduced modulo `2^64`, and hence the exact sums
whenever those fit `int64`; `TotalSpend` is the sum of the rows' spends taken from `+0` in
arrival order. -/
theorem aggregateLoop_totals (std : StdLib) (cols : Columns) (lines : List Line)
    (hok : Line.malformed ∉ lines) (key : String) :
    ∃ st, aggregateLoop std cols AggState.init lines = some st ∧
      (st.aggs.get key = none ↔ ∀ r ∈ acceptedRows std cols lines, r.campaignID ≠ key) ∧
      ∀ agg, st.aggs.get key = some agg →
        agg = specTotals (rowsOf (acceptedRows std cols lines) key) ∧
        agg.TotalSpend =
          sumF64 ((rowsOf (acceptedRows std cols lines) key).map (fun r => r.spend)) ∧
        (IsInt64 ((rowsOf (acceptedRows std cols lines) key).map (fun r => r.impressions)).sum →
          agg.TotalImpressions =
            ((rowsOf (acceptedRows std cols lines) key).map (fun r => r.impressions)).sum) ∧
        (IsInt64 ((rowsOf (acceptedRows std cols lines) key).map (fun r => r.clicks)).sum →
          agg.TotalClicks =
            ((rowsOf (acceptedRows std cols lines) key).map (fun r => r.clicks)).sum) ∧
        (IsInt64 ((rowsOf (acceptedRows std cols lines) key).map (fun r => r.conversions)).sum →
          agg.TotalConversions =
            ((rowsOf (acceptedRows std cols lines) key).map (fun r => r.conversions)).sum) := by
  refine ⟨_, aggregateLoop_eq_fold std cols lines _ hok, ?_, ?_⟩
  · rw [fold_get, ← rowsOf_eq_nil_iff]
    by_cases h : rowsOf (acceptedRows std cols lines) key = []
    · simp [h]
    · simp [h]
  · intro agg hagg
    rw [fold_get] at hagg
    by_cases h : rowsOf (acceptedRows std cols lines) key = []
    · rw [if_pos h] at hagg; cases hagg
    · rw [if_neg h] at hagg
      cases hagg
      refine ⟨rfl, rfl, ?_, ?_, ?_⟩ <;> intro hfit <;> exact wrapInt64_of_isInt64 hfit

/-- C7, as amended: when no line stops the reader, the processed count the loop returns is
the number of rows with the header's field count and four numeric fields that parse, as an
`int64` value, hence that very number while it is below `2^63`; the campaign key plays no
part. A row that fails the test leaves the state as it was, and a row that passes it adds
one to the count. -/
theorem aggregateLoop_processed (std : StdLib) (cols : Columns) (lines : List Line)
    (hok : Line.malformed ∉ lines) :
    ∃ st, aggregateLoop std cols AggState.init lines = some st ∧
      st.processed = wrapInt64 (lines.filter (numericOK std cols)).length ∧
      (((lines.filter (numericOK std cols)).length : Int) < 2 ^ 63 →
        st.processed = (lines.filter (numericOK std cols)).length) ∧
      (∀ (st0 : AggState) (fs : List String), numericOK std cols (Line.fields fs) = false →
        ingest std cols st0 fs = st0) ∧
      (∀ (st0 : AggState) (fs : List String), numericOK std cols (Line.fields fs) = true →
        (ingest std cols st0 fs).processed = wrapInt64 (st0.processed + 1)) := by
  refine ⟨_, aggregateLoop_eq_fold std cols lines _ hok, ?_, ?_, ?_, ?_⟩
  · rw [fold_processed_init, acceptedRows_length]
  · intro hlt
    rw [fold_processed_init, acceptedRows_length]
    apply wrapInt64_of_isInt64
    constructor <;> omega
  · intro st0 fs h
    rw [← parseRecord_isSome] at h
    unfold ingest
    cases hp : parseRecord std cols fs with
    | none => rfl
    | some row => rw [hp] at h; cases h
  · intro st0 fs h
    rw [← parseRecord_isSome] at h
    unfold ingest
    cases hp : parseRecord std cols fs with
    | none => rw [hp] at h; cases h
    | some row => rfl

theorem specTotals_counts_perm {r1 r2 : List Row} (hp : List.Perm r1 r2) :
    (specTotals r1).counts = (specTotals r2).counts := by
  simp only [specTotals, CampaignAgg.counts]
  rw [(hp.map (fun r => r.impressions)).sum_eq, (hp.map (fun r => r.clicks)).sum_eq,
    (hp.map (fun r => r.conversions)).sum_eq]

/-- C9: `buildMetrics` copies the key and the four totals; with `TotalImpressions > 0` the
CTR is the quotient of the two conversions, whose divisor is a finite double other than zero;
with `TotalImpressions = 0` the CTR is `+0`; the CTR is never a NaN. -/
theorem buildMetrics_ctr (campaignID : String) (agg : CampaignAgg) (hv : agg.Valid) :
    (agg.TotalImpressions > 0 →
      (buildMetrics campaignID agg).CTR =
        F64.div (F64.ofInt agg.TotalClicks) (F64.ofInt agg.TotalImpressions) ∧
      ∃ n, F64.ofInt agg.TotalImpressions = F64.fin false n ∧ 0 < n) ∧
    (agg.TotalImpressions = 0 → (buildMetrics campaignID agg).CTR = F64.zero) ∧
    F64.isNaN (buildMetrics campaignID agg).CTR = false ∧
    (buildMetrics campaignID agg).CampaignID = campaignID ∧
    (buildMetrics campaignID agg).TotalImpressions = agg.TotalImpressions ∧
    (buildMetrics campaignID agg).TotalClicks = agg.TotalClicks ∧
    (buildMetrics campaignID agg).TotalSpend = agg.TotalSpend ∧
    (buildMetrics campaignID agg).TotalConversions = agg.TotalConversions := by
  refine ⟨?_, ?_, buildMetrics_CTR_ne_nan _ hv, buildMetrics_CampaignID _ _, ?_, ?_, ?_, ?_⟩
  · intro hpos
    refine ⟨by rw [buildMetrics_CTR_eq, if_pos hpos], ?_⟩
    obtain ⟨n, hn, hnpos⟩ := F64.ofInt_fin hv.1
    refine ⟨n, ?_, hnpos (by omega)⟩
    rw [hn]
    have : decide (agg.TotalImpressions < 0) = false := by simp; omega
    rw [this]
  · intro h0
    rw [buildMetrics_CTR_eq, if_neg (by omega)]
  all_goals (unfold buildMetrics; simp only; split <;> rfl)

/-- C10: `buildMetrics` sets `HasCPA` iff `TotalConversions > 0`; with `HasCPA` set the CPA is
the quotient of the spend and the converted count; with `HasCPA` unset the CPA is the `+0`
the struct literal left in the field. -/
theorem buildMetrics_cpa (campaignID : String) (agg : CampaignAgg) :
    ((buildMetrics campaignID agg).HasCPA = true ↔ agg.TotalConversions > 0) ∧
    ((buildMetrics campaignID agg).HasCPA = true →
      (buildMetrics campaignID agg).CPA =
        F64.div agg.TotalSpend (F64.ofInt agg.TotalConversions)) ∧
    ((buildMetrics campaignID agg).HasCPA = false →
      (buildMetrics campaignID agg).CPA = F64.zero) := by
  rw [buildMetrics_HasCPA_eq, buildMetrics_CPA_eq]
  by_cases h : agg.TotalConversions > 0
  · simp [h]
  · simp [h]

/-- What an accepted record holds: the trimmed key and the four parsed numbers of the
fields at the five columns. -/
theorem parseRecord_eq_some {std : StdLib} {cols : Columns} {fs : List String} {row : Row}
    (h : parseRecord std cols fs = some row) :
    fs.length = cols.nFields ∧
    row.campaignID = std.TrimSpace (fs.getD cols.campaignIdx "") ∧
    std.ParseInt (fs.getD cols.impressionIdx "") = some row.impressions ∧
    std.ParseInt (fs.getD cols.clickIdx "") = some row.clicks ∧
    std.ParseFloat (fs.getD cols.spendIdx "") = some row.spend ∧
    std.ParseInt (fs.getD cols.conversionIdx "") = some row.conversions := by
  unfold parseRecord at h
  split at h
  · cases h
  · rename_i hlen
    split at h
    · cases h
    · simp only at h
      split at h
      · rename_i a b c d ha hb hc hd
        cases h
        exact ⟨by simpa using hlen, rfl, ha, hb, hc, hd⟩
      · cases h

/-! ## The header and the field accesses -/

theorem headerIndexLoop_lt (std : StdLib) (name : String) :
    ∀ (hs : List String) (i : Nat) (acc : Option Nat) (j : Nat),
      headerIndexLoop std name hs i acc = some j → acc = some j ∨ (i ≤ j ∧ j < i + hs.length)
  | [], _, _, _, h => Or.inl h
  | h :: hs, i, acc, j, hrun => by
    simp only [headerIndexLoop] at hrun
    rcases headerIndexLoop_lt std name hs (i + 1) _ j hrun with h1 | h1
    · split at h1
      · cases h1
        exact Or.inr ⟨Nat.le_refl _, by simp⟩
      · exact Or.inl h1
    · exact Or.inr ⟨by omega, by simp only [List.length_cons]; omega⟩

theorem headerIndex_lt {std : StdLib} {header : List String} {name : String} {j : Nat}
    (h : headerIndex std header name = some j) : j < header.length := by
  rcases headerIndexLoop_lt std name header 0 none j h with h1 | h1
  · cases h1
  · omega

/-- The columns read off a header lie within it: with the field count the reader enforces,
every field access `record[idx]` of the loop is in bounds. -/
theorem resolveColumns_inBounds {std : StdLib} {header : List String} {cols : Columns}
    (h : resolveColumns std header = some cols) :
    cols.nFields = header.length ∧ cols.campaignIdx < cols.nFields ∧
      cols.impressionIdx < cols.nFields ∧ cols.clickIdx < cols.nFields ∧
      cols.spendIdx < cols.nFields ∧ cols.conversionIdx < cols.nFields := by
  unfold resolveColumns at h
  split at h
  · rename_i a b c d e ha hb hc hd he
    cases h
    exact ⟨rfl, headerIndex_lt ha, headerIndex_lt hb, headerIndex_lt hc, headerIndex_lt hd,
      headerIndex_lt he⟩
  · cases h

/-- An access within bounds reads the field: the default of `getD` is never used. -/
theorem getD_inBounds (fs : List String) {i : Nat} (hi : i < fs.length) :
    fs[i]? = some (fs.getD i "") := by
  simp [List.getD, List.getElem?_eq_getElem hi]


/-! ## The map the loop returns -/

theorem AggMap.mem_set {aggs : AggMap} {key : String} {agg : CampaignAgg}
    {e : String × CampaignAgg} (he : e ∈ aggs.set key agg) : e = (key, agg) ∨ e ∈ aggs := by
  induction aggs with
  | nil => simpa [AggMap.set] using he
  | cons x xs ih =>
    simp only [AggMap.set] at he
    split at he
    · rcases List.mem_cons.1 he with h | h
      · exact Or.inl h
      · exact Or.inr (List.mem_cons_of_mem _ h)
    · rcases List.mem_cons.1 he with h | h
      · exact Or.inr (h ▸ List.mem_cons_self _ _)
      · rcases ih h with h1 | h1
        · exact Or.inl h1
        · exact Or.inr (List.mem_cons_of_mem _ h1)

theorem AggMap.keys_set (aggs : AggMap) (key : String) (agg : CampaignAgg) :
    (aggs.set key agg).map Prod.fst =
      if key ∈ aggs.map Prod.fst then aggs.map Prod.fst else aggs.map Prod.fst ++ [key] := by
  induction aggs with
  | nil => simp [AggMap.set]
  | cons x xs ih =>
    simp only [AggMap.set]
    by_cases h : x.1 = key
    · simp [h]
    · have h2 : ¬ key = x.1 := fun e => h e.symm
      simp only [if_neg h, List.map_cons, ih, List.mem_cons, h2, false_or]
      split <;> simp

theorem AggMap.nodup_set {aggs : AggMap} (hnd : (aggs.map Prod.fst).Nodup) (key : String)
    (agg : CampaignAgg) : ((aggs.set key agg).map Prod.fst).Nodup := by
  rw [AggMap.keys_set]
  split
  · exact hnd
  · rename_i h
    rw [List.nodup_append]
    refine ⟨hnd, List.nodup_singleton _, ?_⟩
    intro a ha hb
    simp at hb
    subst hb
    exact h ha

theorem AggMap.mem_iff_get {aggs : AggMap} (hnd : (aggs.map Prod.fst).Nodup) (key : String)
    (agg : CampaignAgg) : (key, agg) ∈ aggs ↔ aggs.get key = some agg := by
  induction aggs with
  | nil => simp [AggMap.get]
  | cons x xs ih =>
    rw [List.map_cons, List.nodup_cons] at hnd
    simp only [AggMap.get, List.mem_cons]
    by_cases h : x.1 = key
    · simp only [if_pos h]
      constructor
      · intro hm
        rcases hm with hm | hm
        · rw [← hm]
        · exact absurd (List.mem_map.2 ⟨(key, agg), hm, rfl⟩) (h ▸ hnd.1)
      · intro hm
        left
        cases hm
        exact Prod.ext h.symm rfl
    · simp only [if_neg h]
      rw [← ih hnd.2]
      constructor
      · intro hm
        rcases hm with hm | hm
        · exact absurd (by rw [← hm]) h
        · exact hm
      · exact Or.inr

theorem CampaignAgg.add_valid (agg : CampaignAgg) (row : Row) : (agg.add row).Valid :=
  ⟨wrapInt64_isInt64 _, wrapInt64_isInt64 _, wrapInt64_isInt64 _⟩

theorem fold_wellFormed (rows : List Row) : ∀ st : AggState,
    (st.aggs.map Prod.fst).Nodup → (∀ e ∈ st.aggs, e.2.Valid) →
    ((rows.foldl AggState.fold st).aggs.map Prod.fst).Nodup ∧
      ∀ e ∈ (rows.foldl AggState.fold st).aggs, e.2.Valid := by
  induction rows with
  | nil => intro st h1 h2; exact ⟨h1, h2⟩
  | cons r rs ih =>
    intro st h1 h2
    simp only [List.foldl_cons]
    apply ih
    · exact AggMap.nodup_set h1 _ _
    · intro e he
      rcases AggMap.mem_set he with h | h
      · rw [h]; exact CampaignAgg.add_valid _ _
      · exact h2 e h

/-- The map the loop returns has distinct keys and `int64` totals: it meets what the
theorems on the selectors ask of their input. -/
theorem aggregateLoop_wellFormed (std : StdLib) (cols : Columns) (lines : List Line)
    (st : AggState) (hrun : aggregateLoop std cols AggState.init lines = some st) :
    (st.aggs.map Prod.fst).Nodup ∧ ∀ e ∈ st.aggs, e.2.Valid := by
  by_cases hm : Line.malformed ∈ lines
  · rw [aggregateLoop_eq_none std cols lines _ hm] at hrun
    cases hrun
  · rw [aggregateLoop_eq_fold std cols lines _ hm] at hrun
    cases hrun
    exact fold_wellFormed _ AggState.init List.nodup_nil (fun e he => by cases he)

/-! ## Selections that agree up to the spend -/

/-- Two sorted selections of the best candidates of one candidate set are the same list. -/
theorem top_unique {α : Type} {better : α → α → Bool} {S : α → Prop}
    (ord : StrictOrderOn better S) {c1 c2 q1 q2 : List α} (hc : List.Perm c1 c2)
    (hlen : q1.length = q2.length)
    (hsub1 : ∀ x ∈ q1, x ∈ c1) (hsub2 : ∀ x ∈ q2, x ∈ c2)
    (hnd1 : q1.Nodup) (hnd2 : q2.Nodup)
    (hbest1 : ∀ x ∈ q1, ∀ y ∈ c1, y ∉ q1 → better x y = true)
    (hbest2 : ∀ x ∈ q2, ∀ y ∈ c2, y ∉ q2 → better x y = true)
    (hs1 : q1.Pairwise (fun a b => better a b = true))
    (hs2 : q2.Pairwise (fun a b => better a b = true)) : q1 = q2 := by
  have key : ∀ (a b ca cb : List α), List.Perm ca cb → a.length = b.length →
      (∀ x ∈ a, x ∈ ca) → (∀ x ∈ b, x ∈ cb) → b.Nodup →
      (∀ x ∈ a, ∀ y ∈ ca, y ∉ a → better x y = true) →
      (∀ x ∈ b, ∀ y ∈ cb, y ∉ b → better x y = true) → a ⊆ b := by
    intro a b ca cb hp hl hsa hsb hndb hba hbb x hxa
    by_contra hxb
    have hsub : b ⊆ a := by
      intro y hyb
      by_contra hya
      have e1 := hba x hxa y (hp.symm.subset (hsb y hyb)) hya
      have e2 := hbb y hyb x (hp.subset (hsa x hxa)) hxb
      rw [ord.asymm e1] at e2
      cases e2
    have hpba : List.Perm b a := (List.subperm_of_subset hndb hsub).perm_of_length_le (by omega)
    exact hxb (hpba.symm.subset hxa)
  have h12 := key q1 q2 c1 c2 hc hlen hsub1 hsub2 hnd2 hbest1 hbest2
  have hperm : List.Perm q1 q2 := (List.subperm_of_subset hnd1 h12).perm_of_length_le (by omega)
  haveI : IsAntisymm α (fun a b => better a b = true) :=
    ⟨fun a b e1 e2 => by
      have := ord.asymm e1
      rw [e2] at this
      cases this⟩
  exact List.eq_of_perm_of_sorted hperm hs1 hs2

theorem betterCTR_withoutSpend (x y : CampaignMetrics) :
    betterCTR x.withoutSpend y.withoutSpend = betterCTR x y := rfl

theorem withoutSpend_buildMetrics {id : String} {a b : CampaignAgg} (h : a.counts = b.counts) :
    (buildMetrics id a).withoutSpend = (buildMetrics id b).withoutSpend := by
  simp only [CampaignAgg.counts, Prod.mk.injEq] at h
  obtain ⟨h1, h2, h3⟩ := h
  unfold buildMetrics CampaignMetrics.withoutSpend
  simp only [h1, h2, h3]
  split <;> rfl

theorem betterCTR_order_of {l : List CampaignMetrics}
    (hkeys : (l.map (fun m => m.CampaignID)).Nodup) (hnan : ∀ z ∈ l, F64.isNaN z.CTR = false) :
    StrictOrderOn betterCTR (fun x => x ∈ l) where
  irrefl := betterCTR_irrefl
  trans _ _ _ := betterCTR_trans
  total x y hx hy hne :=
    betterCTR_total (hnan x hx) (hnan y hy) (key_ne_of_ne hkeys hx hy hne)

theorem counts_perm {a1 a2 : AggMap} (hkeys1 : (a1.map Prod.fst).Nodup)
    (hkeys2 : (a2.map Prod.fst).Nodup)
    (hsame : ∀ key, (a1.get key).map CampaignAgg.counts = (a2.get key).map CampaignAgg.counts) :
    List.Perm (a1.map (fun e => (e.1, e.2.counts))) (a2.map (fun e => (e.1, e.2.counts))) := by
  have hmem : ∀ (a : AggMap), (a.map Prod.fst).Nodup → ∀ (id : String) (c : Int × Int × Int),
      (id, c) ∈ a.map (fun e => (e.1, e.2.counts)) ↔
        (a.get id).map CampaignAgg.counts = some c := by
    intro a hnd id c
    constructor
    · intro h
      obtain ⟨e, he, heq⟩ := List.mem_map.1 h
      simp only [Prod.mk.injEq] at heq
      have : (id, e.2) ∈ a := by rw [← heq.1]; exact he
      rw [(AggMap.mem_iff_get hnd id e.2).1 this]
      simp [heq.2]
    · intro h
      cases hg : a.get id with
      | none => rw [hg] at h; cases h
      | some agg =>
        rw [hg] at h
        simp only [Option.map_some', Option.some.injEq] at h
        exact List.mem_map.2 ⟨(id, agg), (AggMap.mem_iff_get hnd id agg).2 hg, by simp [h]⟩
  have hnd : ∀ (a : AggMap), (a.map Prod.fst).Nodup →
      (a.map (fun e => (e.1, e.2.counts))).Nodup := by
    intro a h
    apply List.Nodup.of_map Prod.fst
    rw [List.map_map]
    exact h
  rw [List.perm_ext_iff_of_nodup (hnd a1 hkeys1) (hnd a2 hkeys2)]
  intro x
  rw [hmem a1 hkeys1 x.1 x.2, hmem a2 hkeys2 x.1 x.2, hsame]

/-- Two maps with the same keys and, key by key, the same integer totals make `selectTopCTR`
return the same campaigns in the same order, with the same CTR: the outputs differ at most in
`TotalSpend` and `CPA`. The orders in which the two maps are visited play no part. -/
theorem selectTopCTR_congr_counts {a1 a2 : AggMap} {k : Int} (hk : 1 ≤ k)
    (hkeys1 : (a1.map Prod.fst).Nodup) (hvalid1 : ∀ e ∈ a1, e.2.Valid)
    (hkeys2 : (a2.map Prod.fst).Nodup) (hvalid2 : ∀ e ∈ a2, e.2.Valid)
    (hsame : ∀ key, (a1.get key).map CampaignAgg.counts = (a2.get key).map CampaignAgg.counts) :
    (selectTopCTR a1 k).map (List.map CampaignMetrics.withoutSpend) =
      (selectTopCTR a2 k).map (List.map CampaignMetrics.withoutSpend) := by
  obtain ⟨h1, hrun1, hinv1⟩ := selectTopCTR_inv hk hkeys1 hvalid1
  obtain ⟨h2, hrun2, hinv2⟩ := selectTopCTR_inv hk hkeys2 hvalid2
  obtain ⟨hlen1, hs1, hsub1, hnd1, hbest1, _⟩ :=
    select_result (betterCTR_order hkeys1 hvalid1) hinv1 (fun x hx => hx)
      (ctrCandidates_nodup hkeys1)
  obtain ⟨hlen2, hs2, hsub2, hnd2, hbest2, _⟩ :=
    select_result (betterCTR_order hkeys2 hvalid2) hinv2 (fun x hx => hx)
      (ctrCandidates_nodup hkeys2)
  rw [hrun1, hrun2]
  simp only [Option.map_some']
  congr 1
  generalize sortSlice betterCTR h1 = r1 at hlen1 hs1 hsub1 hnd1 hbest1
  generalize sortSlice betterCTR h2 = r2 at hlen2 hs2 hsub2 hnd2 hbest2
  have hpairs := counts_perm hkeys1 hkeys2 hsame
  -- the candidates of the two maps agree once the spend is blanked
  have hcand : ∀ a : AggMap, (ctrCandidates a).map CampaignMetrics.withoutSpend =
      (a.map (fun e => (e.1, e.2.counts))).map
        (fun p => (buildMetrics p.1 ⟨p.2.1, p.2.2.1, F64.zero, p.2.2.2⟩).withoutSpend) := by
    intro a
    unfold ctrCandidates
    rw [List.map_map, List.map_map]
    apply List.map_congr_left
    intro e _
    exact withoutSpend_buildMetrics rfl
  have hc : List.Perm ((ctrCandidates a1).map CampaignMetrics.withoutSpend)
      ((ctrCandidates a2).map CampaignMetrics.withoutSpend) := by
    rw [hcand a1, hcand a2]
    exact hpairs.map _
  have hkeysP : ∀ l : List CampaignMetrics,
      (l.map CampaignMetrics.withoutSpend).map (fun m => m.CampaignID) =
        l.map (fun m => m.CampaignID) := by
    intro l
    rw [List.map_map]
    rfl
  have hordKeys : (((ctrCandidates a1).map CampaignMetrics.withoutSpend).map
      (fun m => m.CampaignID)).Nodup := by
    rw [hkeysP, ctrCandidates_keys]; exact hkeys1
  have hord := betterCTR_order_of hordKeys (by
    intro z hz
    obtain ⟨y, hy, rfl⟩ := List.mem_map.1 hz
    obtain ⟨e, he, rfl⟩ := List.mem_map.1 hy
    exact buildMetrics_CTR_ne_nan _ (hvalid1 e he))
  have hndq : ∀ (a : AggMap) (r : List CampaignMetrics), (a.map Prod.fst).Nodup →
      (∀ x ∈ r, x ∈ ctrCandidates a) → r.Nodup →
      (r.map CampaignMetrics.withoutSpend).Nodup := by
    intro a r hk hsub hnd
    apply List.Nodup.of_map (fun m => m.CampaignID)
    rw [hkeysP]
    apply List.Nodup.map_on _ hnd
    intro x hx y hy hxy
    have hkc : ((ctrCandidates a).map (fun m => m.CampaignID)).Nodup := by
      rw [ctrCandidates_keys]; exact hk
    exact List.inj_on_of_nodup_map hkc (hsub x hx) (hsub y hy) hxy
  have hbestq : ∀ (a : AggMap) (r : List CampaignMetrics),
      (∀ x ∈ r, ∀ y ∈ ctrCandidates a, y ∉ r → betterCTR x y = true) →
      ∀ x ∈ r.map CampaignMetrics.withoutSpend,
        ∀ y ∈ (ctrCandidates a).map CampaignMetrics.withoutSpend,
          y ∉ r.map CampaignMetrics.withoutSpend → betterCTR x y = true := by
    intro a r hb x hx y hy hny
    obtain ⟨x0, hx0, rfl⟩ := List.mem_map.1 hx
    obtain ⟨y0, hy0, rfl⟩ := List.mem_map.1 hy
    rw [betterCTR_withoutSpend]
    exact hb x0 hx0 y0 hy0 (fun hm => hny (List.mem_map.2 ⟨y0, hm, rfl⟩))
  have hlenA : a1.length = a2.length := by
    simpa using hpairs.length_eq
  apply top_unique hord hc
  · simp only [List.length_map]
    rw [hlen1, hlen2, ctrCandidates_length, ctrCandidates_length, hlenA]
  · intro x hx
    obtain ⟨x0, hx0, rfl⟩ := List.mem_map.1 hx
    exact List.mem_map.2 ⟨x0, hsub1 x0 hx0, rfl⟩
  · intro x hx
    obtain ⟨x0, hx0, rfl⟩ := List.mem_map.1 hx
    exact List.mem_map.2 ⟨x0, hsub2 x0 hx0, rfl⟩
  · exact hndq a1 r1 hkeys1 hsub1 hnd1
  · exact hndq a2 r2 hkeys2 hsub2 hnd2
  · exact hbestq a1 r1 hbest1
  · exact hbestq a2 r2 hbest2
  · exact List.Pairwise.map _ (fun a b h => by rw [betterCTR_withoutSpend]; exact h) hs1
  · exact List.Pairwise.map _ (fun a b h => by rw [betterCTR_withoutSpend]; exact h) hs2

theorem AggMap.get_perm {v a : AggMap} (hnd : (a.map Prod.fst).Nodup) (hp : List.Perm v a)
    (key : String) : v.get key = a.get key := by
  have hndv : (v.map Prod.fst).Nodup := (hp.map _).nodup_iff.2 hnd
  cases hg : a.get key with
  | some agg =>
    exact (AggMap.mem_iff_get hndv key agg).1
      (hp.symm.subset ((AggMap.mem_iff_get hnd key agg).2 hg))
  | none =>
    cases hv : v.get key with
    | none => rfl
    | some b =>
      have := (AggMap.mem_iff_get hnd key b).1
        (hp.subset ((AggMap.mem_iff_get hndv key b).2 hv))
      rw [hg] at this
      cases this

/-! ## What holds of `selectTopCPA` on every map -/

theorem offer_mem {α : Type} {less better : α → α → Bool} {k : Int} {h h1 : List α} {m : α}
    (hrun : offer less better k h m = some h1) : ∀ x ∈ h1, x = m ∨ x ∈ h := by
  unfold offer at hrun
  split at hrun
  · cases hrun
    intro x hx
    simpa using (heap.Push_perm less h m).subset hx
  · cases hr : h[0]? with
    | none => rw [hr] at hrun; cases hrun
    | some r =>
      rw [hr] at hrun
      simp only at hrun
      split at hrun
      · obtain ⟨h2, hpop, hperm, _, _⟩ := heap.Pop_spec less hr
        rw [hpop] at hrun
        cases hrun
        intro x hx
        rcases List.mem_cons.1 ((heap.Push_perm less h2 m).subset hx) with e | e
        · exact Or.inl e
        · exact Or.inr (hperm.subset (List.mem_cons_of_mem _ e))
      · cases hrun
        exact fun x hx => Or.inr hx

theorem offerAll_mem {α : Type} {less better : α → α → Bool} {k : Int} :
    ∀ (ms h h1 : List α), offerAll less better k h ms = some h1 →
      ∀ x ∈ h1, x ∈ h ∨ x ∈ ms
  | [], h, h1, hrun => by
    cases hrun
    exact fun x hx => Or.inl hx
  | m :: ms, h, h1, hrun => by
    simp only [offerAll] at hrun
    cases hstep : offer less better k h m with
    | none => rw [hstep] at hrun; cases hrun
    | some h2 =>
      rw [hstep] at hrun
      intro x hx
      rcases offerAll_mem ms h2 h1 hrun x hx with e | e
      · rcases offer_mem hstep x e with e1 | e1
        · exact Or.inr (e1 ▸ List.mem_cons_self _ _)
        · exact Or.inl e1
      · exact Or.inr (List.mem_cons_of_mem _ e)

/-- On every map and for every `k`, whatever the spends are: a row that `selectTopCPA`
returns is the snapshot of an entry with `TotalConversions > 0` and has `HasCPA` set, and the
output is empty when no entry has conversions. -/
theorem selectTopCPA_eligible_only (aggs : AggMap) (k : Int) (res : List CampaignMetrics)
    (hrun : selectTopCPA aggs k = some res) :
    (∀ x ∈ res, x ∈ cpaCandidates aggs ∧ x.HasCPA = true ∧ 0 < x.TotalConversions) ∧
    ((∀ e ∈ aggs, e.2.TotalConversions ≤ 0) → res = []) := by
  rw [selectTopCPA_eq] at hrun
  cases hall : offerAll CPAHeap.lessElem betterCPA k [] (cpaCandidates aggs) with
  | none => rw [hall] at hrun; cases hrun
  | some h =>
    rw [hall] at hrun
    cases hrun
    have hmem : ∀ x ∈ sortSlice betterCPA h, x ∈ cpaCandidates aggs := by
      intro x hx
      rcases offerAll_mem _ _ _ hall x ((sortSlice_perm betterCPA h).subset hx) with e | e
      · cases e
      · exact e
    constructor
    · intro x hx
      have hc := hmem x hx
      refine ⟨hc, ?_⟩
      unfold cpaCandidates at hc
      obtain ⟨e, he, rfl⟩ := List.mem_map.1 hc
      have hpos : 0 < e.2.TotalConversions := by simpa using (List.mem_filter.1 he).2
      rw [buildMetrics_HasCPA_eq]
      refine ⟨by simpa using hpos, ?_⟩
      unfold buildMetrics
      simp only
      split <;> exact hpos
    · intro hnone
      have hempty : cpaCandidates aggs = [] := by
        unfold cpaCandidates
        rw [List.map_eq_nil_iff, List.filter_eq_nil_iff]
        intro e he
        have := hnone e he
        simp only [decide_eq_true_eq]
        omega
      cases hs : sortSlice betterCPA h with
      | nil => rfl
      | cons x xs =>
        have := hmem x (by rw [hs]; exact List.mem_cons_self _ _)
        rw [hempty] at this
        cases this

theorem aggregateLoop_perm_counts (std : StdLib) (cols : Columns) (l1 l2 : List Line)
    (hp : List.Perm l1 l2) :
    (aggregateLoop std cols AggState.init l1 = none ↔
      aggregateLoop std cols AggState.init l2 = none) ∧
    ∀ s1 s2, aggregateLoop std cols AggState.init l1 = some s1 →
      aggregateLoop std cols AggState.init l2 = some s2 →
      s1.processed = s2.processed ∧
      ∀ key, (s1.aggs.get key = none ↔ s2.aggs.get key = none) ∧
        (s1.aggs.get key).map CampaignAgg.counts = (s2.aggs.get key).map CampaignAgg.counts := by
  by_cases hm : Line.malformed ∈ l1
  · have hm2 : Line.malformed ∈ l2 := hp.subset hm
    rw [aggregateLoop_eq_none std cols l1 _ hm, aggregateLoop_eq_none std cols l2 _ hm2]
    exact ⟨Iff.rfl, fun s1 s2 h => by cases h⟩
  · have hm2 : Line.malformed ∉ l2 := fun h => hm (hp.symm.subset h)
    rw [aggregateLoop_eq_fold std cols l1 _ hm, aggregateLoop_eq_fold std cols l2 _ hm2]
    refine ⟨by simp, ?_⟩
    intro s1 s2 h1 h2
    cases h1
    cases h2
    have hrows := acceptedRows_perm std cols hp
    refine ⟨?_, ?_⟩
    · rw [fold_processed_init, fold_processed_init, hrows.length_eq]
    · intro key
      have hk : List.Perm (rowsOf (acceptedRows std cols l1) key)
          (rowsOf (acceptedRows std cols l2) key) := hrows.filter _
      rw [fold_get, fold_get]
      by_cases h : rowsOf (acceptedRows std cols l1) key = []
      · have h2 : rowsOf (acceptedRows std cols l2) key = [] := by
          rw [h] at hk
          exact hk.symm.eq_nil
        simp [h, h2]
      · have h2 : ¬ rowsOf (acceptedRows std cols l2) key = [] := by
          intro e
          rw [e] at hk
          exact h hk.eq_nil
        simp only [if_neg h, if_neg h2, Option.map_some']
        refine ⟨by simp, congrArg some (specTotals_counts_perm hk)⟩

/-- C8, as amended: a permutation of the rows leaves unchanged whether the loop returns a
map, the processed count, the set of keys, and for each key the three integer totals; and
for every `k ≥ 1`, in whatever orders the two maps are visited, `selectTopCTR` returns for
both the same campaigns in the same order with the same integer totals, CTR and `HasCPA`.
`TotalSpend` is a floating-point sum in arrival order: it, the CPA computed from it and the
CPA ranking are not covered. -/
theorem aggregateLoop_perm (std : StdLib) (cols : Columns) (l1 l2 : List Line)
    (hp : List.Perm l1 l2) :
    (aggregateLoop std cols AggState.init l1 = none ↔
      aggregateLoop std cols AggState.init l2 = none) ∧
    ∀ s1 s2, aggregateLoop std cols AggState.init l1 = some s1 →
      aggregateLoop std cols AggState.init l2 = some s2 →
      s1.processed = s2.processed ∧
      (∀ key, (s1.aggs.get key = none ↔ s2.aggs.get key = none) ∧
        (s1.aggs.get key).map CampaignAgg.counts =
          (s2.aggs.get key).map CampaignAgg.counts) ∧
      ∀ (k : Int) (v1 v2 : AggMap), 1 ≤ k → List.Perm v1 s1.aggs → List.Perm v2 s2.aggs →
        (selectTopCTR v1 k).map (List.map CampaignMetrics.withoutSpend) =
          (selectTopCTR v2 k).map (List.map CampaignMetrics.withoutSpend) := by
  obtain ⟨hnone, hsome⟩ := aggregateLoop_perm_counts std cols l1 l2 hp
  refine ⟨hnone, ?_⟩
  intro s1 s2 h1 h2
  obtain ⟨hcount, hkeys⟩ := hsome s1 s2 h1 h2
  refine ⟨hcount, hkeys, ?_⟩
  intro k v1 v2 hk hv1 hv2
  obtain ⟨hnd1, hval1⟩ := aggregateLoop_wellFormed std cols l1 s1 h1
  obtain ⟨hnd2, hval2⟩ := aggregateLoop_wellFormed std cols l2 s2 h2
  apply selectTopCTR_congr_counts hk ((hv1.map _).nodup_iff.2 hnd1)
    (fun e he => hval1 e (hv1.subset he)) ((hv2.map _).nodup_iff.2 hnd2)
    (fun e he => hval2 e (hv2.subset he))
  intro key
  rw [AggMap.get_perm hnd1 hv1, AggMap.get_perm hnd2 hv2]
  exact (hkeys key).2

/-! ## Records the loop skips, and records it folds in -/

theorem parseRecord_eq_none_of_unparsable (std : StdLib) (cols : Columns) (fs : List String)
    (hbad : std.ParseInt (fs.getD cols.impressionIdx "") = none ∨
      std.ParseInt (fs.getD cols.clickIdx "") = none ∨
      std.ParseFloat (fs.getD cols.spendIdx "") = none ∨
      std.ParseInt (fs.getD cols.conversionIdx "") = none) :
    parseRecord std cols fs = none := by
  cases hp : parseRecord std cols fs with
  | none => rfl
  | some row =>
    obtain ⟨_, _, h1, h2, h3, h4⟩ := parseRecord_eq_some hp
    rcases hbad with h | h | h | h
    · rw [h] at h1; cases h1
    · rw [h] at h2; cases h2
    · rw [h] at h3; cases h3
    · rw [h] at h4; cases h4

theorem ingest_eq_fold {std : StdLib} {cols : Columns} {fs : List String} {row : Row}
    (st : AggState) (hrow : parseRecord std cols fs = some row) :
    ingest std cols st fs = st.fold row := by
  simp only [ingest, hrow]

theorem fold_get_key (st : AggState) (row : Row) (key : String) :
    (st.fold row).aggs.get key =
      if row.campaignID = key then
        some (((st.aggs.get row.campaignID).getD CampaignAgg.zero).add row)
      else st.aggs.get key := by
  simp only [AggState.fold, AggMap.get_set]
  cases st.aggs.get row.campaignID <;> rfl

/-- C11: a data row in which one of the four numeric fields does not parse is discarded
whole. From every state of the loop, ingesting such a row returns the state as it was: the
same map (the same totals under every key, the same keys) and the same processed count, and
the loop goes on from the unchanged state. -/
theorem ingest_unparsable_discarded (std : StdLib) (cols : Columns) (st : AggState)
    (fs : List String)
    (hbad : std.ParseInt (fs.getD cols.impressionIdx "") = none ∨
      std.ParseInt (fs.getD cols.clickIdx "") = none ∨
      std.ParseFloat (fs.getD cols.spendIdx "") = none ∨
      std.ParseInt (fs.getD cols.conversionIdx "") = none) :
    ingest std cols st fs = st ∧
    (ingest std cols st fs).aggs = st.aggs ∧
    (∀ key, (ingest std cols st fs).aggs.get key = st.aggs.get key) ∧
    (ingest std cols st fs).aggs.map Prod.fst = st.aggs.map Prod.fst ∧
    (ingest std cols st fs).processed = st.processed ∧
    ∀ rest, aggregateLoop std cols st (Line.fields fs :: rest) =
      aggregateLoop std cols st rest := by
  have h : ingest std cols st fs = st := by
    simp only [ingest, parseRecord_eq_none_of_unparsable std cols fs hbad]
  refine ⟨h, by rw [h], fun key => by rw [h], by rw [h], by rw [h], fun rest => ?_⟩
  simp only [aggregateLoop, h]

/-- C12, as amended: a record whose campaign key is empty after trimming is not skipped.
From every state of the loop, a record with the header's field count whose four numbers parse
and whose key trims to the empty string is accepted: ingesting it counts the record, adds its
four numbers to the totals under the empty key, which start from zero when the key is new, and
leaves the totals under every other key as they were. -/
theorem ingest_empty_key_folded (std : StdLib) (cols : Columns) (st : AggState)
    (fs : List String) (impressions clicks conversions : Int) (spend : F64)
    (hlen : fs.length = cols.nFields) (hne : fs.length ≠ 0)
    (h1 : std.ParseInt (fs.getD cols.impressionIdx "") = some impressions)
    (h2 : std.ParseInt (fs.getD cols.clickIdx "") = some clicks)
    (h3 : std.ParseFloat (fs.getD cols.spendIdx "") = some spend)
    (h4 : std.ParseInt (fs.getD cols.conversionIdx "") = some conversions)
    (hkey : std.TrimSpace (fs.getD cols.campaignIdx "") = "") :
    parseRecord std cols fs = some ⟨"", impressions, clicks, spend, conversions⟩ ∧
    (ingest std cols st fs).processed = wrapInt64 (st.processed + 1) ∧
    (ingest std cols st fs).aggs.get "" =
      some (((st.aggs.get "").getD CampaignAgg.zero).add
        ⟨"", impressions, clicks, spend, conversions⟩) ∧
    ∀ key, key ≠ "" → (ingest std cols st fs).aggs.get key = st.aggs.get key := by
  have hrow : parseRecord std cols fs = some ⟨"", impressions, clicks, spend, conversions⟩ := by
    unfold parseRecord
    rw [if_neg (fun h => h hlen), if_neg hne]
    simp only [h1, h2, h3, h4, hkey]
  rw [ingest_eq_fold st hrow]
  refine ⟨hrow, rfl, ?_, fun key hne1 => ?_⟩
  · rw [fold_get_key, if_pos rfl]
  · rw [fold_get_key, if_neg (fun h => hne1 h.symm)]

/-! ## Rounding is monotone -/

namespace F64

/-- The shape of a rounded integer: the quotient by the unit in the last place, or one more
when the remainder is not zero. -/
theorem round_one_eq (neg : Bool) (num : Nat) :
    ∃ m1, (m1 = num / 2 ^ (ilog2 num - 52) ∨
        (m1 = num / 2 ^ (ilog2 num - 52) + 1 ∧ 0 < num % 2 ^ (ilog2 num - 52))) ∧
      round neg num 1 =
        if 2 ^ 2098 ≤ m1 * 2 ^ (ilog2 num - 52) then .inf neg
        else .fin neg (m1 * 2 ^ (ilog2 num - 52)) := by
  unfold round
  simp only [Nat.div_one, Nat.one_mul, Nat.one_shiftLeft]
  generalize ilog2 num - 52 = s
  have hP : 0 < 2 ^ s := Nat.two_pow_pos _
  by_cases hc : 2 ^ s < 2 * (num % 2 ^ s) ∨ (2 * (num % 2 ^ s) = 2 ^ s ∧ num / 2 ^ s % 2 = 1)
  · refine ⟨num / 2 ^ s + 1, Or.inr ⟨rfl, ?_⟩, by rw [if_pos hc]⟩
    rcases hc with h | ⟨h, _⟩ <;> omega
  · exact ⟨num / 2 ^ s, Or.inl rfl, by rw [if_neg hc]⟩

/-- A magnitude `x` that a double can hold brackets the rounding of `num`: rounding does not
go below an `x ≤ num` nor above an `x ≥ num`. -/
theorem round_bracket {num x m e : Nat} (hm : m < 2 ^ 53) (hx : x = m * 2 ^ e) :
    (x ≤ num → x ≤ num / 2 ^ (ilog2 num - 52) * 2 ^ (ilog2 num - 52)) ∧
    (num ≤ x → ∀ m1, (m1 = num / 2 ^ (ilog2 num - 52) ∨
        (m1 = num / 2 ^ (ilog2 num - 52) + 1 ∧ 0 < num % 2 ^ (ilog2 num - 52))) →
      m1 * 2 ^ (ilog2 num - 52) ≤ x) := by
  generalize hs : ilog2 num - 52 = s
  have hP : 0 < 2 ^ s := Nat.two_pow_pos _
  have hdm := Nat.div_add_mod num (2 ^ s)
  have hmod := Nat.mod_lt num hP
  by_cases hes : s ≤ e
  · -- the unit in the last place divides `x`
    obtain ⟨t, ht⟩ : ∃ t, e = s + t := ⟨e - s, by omega⟩
    have hxq : x = m * 2 ^ t * 2 ^ s := by
      rw [hx, ht, Nat.pow_add]; ring
    generalize m * 2 ^ t = q at hxq
    subst hxq
    constructor
    · intro hle
      exact Nat.mul_le_mul_right _ ((Nat.le_div_iff_mul_le hP).2 hle)
    · intro hge m1 hm1
      apply Nat.mul_le_mul_right
      have hlt : num / 2 ^ s ≤ q := by
        by_contra hcon
        have h1 : q + 1 ≤ num / 2 ^ s := by omega
        have h2 := (Nat.le_div_iff_mul_le hP).1 h1
        have h3 : (q + 1) * 2 ^ s = q * 2 ^ s + 2 ^ s := by ring
        omega
      rcases hm1 with h | ⟨h, hr⟩
      · omega
      · by_contra hcon
        have hq : q = num / 2 ^ s := by omega
        rw [hq, Nat.mul_comm] at hge
        omega
  · -- `x` lies below `2^(52 + s)`, which `num` has reached
    have hs0 : 0 < s := by omega
    have hL : ilog2 num = s + 52 := by omega
    have hnum1 : 1 ≤ num := by
      by_contra hcon
      have h0 : num = 0 := by omega
      rw [h0, ilog2_zero] at hL
      omega
    have hbig : 2 ^ 52 * 2 ^ s ≤ num := by
      have h1 := ilog2_le hnum1
      rw [hL, Nat.pow_add] at h1
      rw [Nat.mul_comm]; exact h1
    have hxlt : x < 2 ^ 52 * 2 ^ s := by
      have h1 : 2 ^ e * 2 ≤ 2 ^ s := by
        have : 2 ^ (e + 1) ≤ 2 ^ s := Nat.pow_le_pow_right (by decide) (by omega)
        rwa [Nat.pow_succ] at this
      have h2 : m * 2 ^ e < 2 ^ 53 * 2 ^ e := Nat.mul_lt_mul_of_pos_right hm (Nat.two_pow_pos _)
      have h3 : (2:Nat) ^ 53 * 2 ^ e = 2 ^ 52 * (2 ^ e * 2) := by
        rw [show (53:Nat) = 52 + 1 from rfl, Nat.pow_succ]; ring
      have h4 : 2 ^ 52 * (2 ^ e * 2) ≤ 2 ^ 52 * 2 ^ s := Nat.mul_le_mul_left _ h1
      omega
    constructor
    · intro _
      have h1 : 2 ^ 52 ≤ num / 2 ^ s := (Nat.le_div_iff_mul_le hP).2 hbig
      have h2 : 2 ^ 52 * 2 ^ s ≤ num / 2 ^ s * 2 ^ s := Nat.mul_le_mul_right _ h1
      omega
    · intro hge
      omega

/-- Rounding an integer that is at least a magnitude a double can hold gives the infinity or
a magnitude that is at least as large. -/
theorem round_ge {num x m e : Nat} (neg : Bool) (hm : m < 2 ^ 53) (hx : x = m * 2 ^ e)
    (hle : x ≤ num) :
    round neg num 1 = .inf neg ∨ ∃ n, round neg num 1 = .fin neg n ∧ x ≤ n := by
  obtain ⟨m1, hm1, hr⟩ := round_one_eq neg num
  have hb := (@round_bracket num x m e hm hx).1 hle
  rw [hr]
  split
  · exact Or.inl rfl
  · refine Or.inr ⟨_, rfl, ?_⟩
    rcases hm1 with h | ⟨h, _⟩
    · rw [h]; exact hb
    · rw [h]
      exact Nat.le_trans hb (Nat.mul_le_mul_right _ (Nat.le_succ _))

/-- Rounding an integer that is at most a finite magnitude a double can hold gives a finite
magnitude that is at most as large. -/
theorem round_le {num x m e : Nat} (neg : Bool) (hm : m < 2 ^ 53) (hx : x = m * 2 ^ e)
    (hfin : x < 2 ^ 2098) (hge : num ≤ x) :
    ∃ n, round neg num 1 = .fin neg n ∧ n ≤ x := by
  obtain ⟨m1, hm1, hr⟩ := round_one_eq neg num
  have hb := (@round_bracket num x m e hm hx).2 hge m1 hm1
  rw [hr, if_neg (by omega)]
  exact ⟨_, rfl, hb⟩

end F64

/-! ## Totals under rows without negative numbers -/

namespace F64

theorem signed_zero (a : Bool) : signed a 0 = 0 := by
  cases a <;> rfl

/-- Adding a double that is at least zero gives a double that is at least the left operand,
unless the left operand is a NaN or the negative infinity. -/
theorem le_add_of_nonneg {x y : F64} (hd : x.IsDouble) (hx : isNaN x = false)
    (hninf : x ≠ .inf true) (hy : le zero y = true) : le x (add x y) = true := by
  cases x with
  | nan => simp [isNaN] at hx
  | inf a =>
    cases a with
    | true => exact absurd rfl hninf
    | false =>
      cases y with
      | nan => simp [le, lt, eq, zero] at hy
      | inf b =>
        cases b with
        | true => simp [le, lt, eq, zero] at hy
        | false => simp [le, lt, eq, add]
      | fin b m => simp [le, lt, eq, add]
  | fin a n =>
    cases y with
    | nan => simp [le, lt, eq, zero] at hy
    | inf b =>
      cases b with
      | true => simp [le, lt, eq, zero] at hy
      | false => simp [le, lt, eq, add]
    | fin b m =>
      have hy0 : 0 ≤ signed b m := by
        simp only [le, lt, eq, zero, signed_zero, Bool.or_eq_true, decide_eq_true_eq] at hy
        omega
      obtain ⟨⟨mx, ex, hmx, hnx⟩, hfin⟩ := hd
      rw [Nat.shiftLeft_eq] at hnx
      rw [Nat.one_shiftLeft] at hfin
      simp only [add]
      split
      · rename_i hs
        simp only [le, lt, eq, signed_zero, Bool.or_eq_true, decide_eq_true_eq]
        omega
      · rename_i hs
        by_cases hneg : signed a n + signed b m < 0
        · -- the sum is negative: the left operand is, and its magnitude bounds the sum's
          have ha : a = true := by
            cases a with
            | true => rfl
            | false => simp only [signed] at hneg hy0 ⊢; simp at hneg; omega
          subst ha
          have hle : (signed true n + signed b m).natAbs ≤ n := by
            simp only [signed] at hneg hy0 ⊢
            simp only [if_true] at hneg ⊢
            omega
          obtain ⟨N, hN, hNle⟩ := round_le (decide (signed true n + signed b m < 0)) hmx hnx hfin hle
          rw [hN]
          simp only [le, lt, eq, signed, hneg, decide_True, if_true, Bool.or_eq_true,
            decide_eq_true_eq]
          omega
        · -- the sum is positive
          have hdec : decide (signed a n + signed b m < 0) = false := by
            simp only [decide_eq_false_iff_not]; exact hneg
          rw [hdec]
          cases a with
          | true =>
            rcases @round_ge (signed true n + signed b m).natAbs 0 0 0 false (by decide)
              (by simp) (Nat.zero_le _) with h | ⟨N, hN, _⟩
            · rw [h]; simp [le, lt]
            · rw [hN]
              simp only [le, lt, eq, signed, if_true, Bool.or_eq_true, decide_eq_true_eq]
              simp only [Bool.false_eq_true, if_false]
              omega
          | false =>
            have hle : n ≤ (signed false n + signed b m).natAbs := by
              simp only [signed] at hneg hy0 ⊢
              simp only [Bool.false_eq_true, if_false] at hneg ⊢
              omega
            rcases round_ge false hmx hnx hle with h | ⟨N, hN, hNge⟩
            · rw [h]; simp [le, lt]
            · rw [hN]
              simp only [le, lt, eq, signed, Bool.false_eq_true, if_false, Bool.or_eq_true,
                decide_eq_true_eq]
              omega

end F64

theorem wrapInt64_add_ge {a r : Int} (ha : IsInt64 a) (hr : 0 ≤ r) (hfit : a + r < 2 ^ 63) :
    a ≤ wrapInt64 (a + r) := by
  have h : IsInt64 (a + r) := by
    unfold IsInt64 at ha ⊢
    omega
  rw [wrapInt64_of_isInt64 h]
  omega

/-- C13, as amended: a data row with the header's field count whose four numeric fields
parse is accepted whatever the sign of its numbers. From every state of the loop, ingesting it
counts the row, adds its four numbers to the totals under its trimmed key, which start from
zero when the key is new, and leaves the totals under every other key as they were. For a key
that had totals before the row, an integer total does not decrease when the row's number is
not negative and the sum fits `int64`, and the spend total does not decrease when the row's
spend is at least zero and the total before is neither a NaN nor the negative infinity. -/
theorem ingest_totals_monotone (std : StdLib) (cols : Columns) (st : AggState)
    (fs : List String) (key : String) (impressions clicks conversions : Int) (spend : F64)
    (hlen : fs.length = cols.nFields) (hne : fs.length ≠ 0)
    (hkey : std.TrimSpace (fs.getD cols.campaignIdx "") = key)
    (h1 : std.ParseInt (fs.getD cols.impressionIdx "") = some impressions)
    (h2 : std.ParseInt (fs.getD cols.clickIdx "") = some clicks)
    (h3 : std.ParseFloat (fs.getD cols.spendIdx "") = some spend)
    (h4 : std.ParseInt (fs.getD cols.conversionIdx "") = some conversions) :
    parseRecord std cols fs = some ⟨key, impressions, clicks, spend, conversions⟩ ∧
    (ingest std cols st fs).processed = wrapInt64 (st.processed + 1) ∧
    (ingest std cols st fs).aggs.get key =
      some (((st.aggs.get key).getD CampaignAgg.zero).add
        ⟨key, impressions, clicks, spend, conversions⟩) ∧
    (∀ other, other ≠ key → (ingest std cols st fs).aggs.get other = st.aggs.get other) ∧
    ∀ before after, st.aggs.get key = some before →
      (ingest std cols st fs).aggs.get key = some after →
      after.TotalImpressions = wrapInt64 (before.TotalImpressions + impressions) ∧
      after.TotalClicks = wrapInt64 (before.TotalClicks + clicks) ∧
      after.TotalSpend = F64.add before.TotalSpend spend ∧
      after.TotalConversions = wrapInt64 (before.TotalConversions + conversions) ∧
      (before.Valid → 0 ≤ impressions → before.TotalImpressions + impressions < 2 ^ 63 →
        before.TotalImpressions ≤ after.TotalImpressions) ∧
      (before.Valid → 0 ≤ clicks → before.TotalClicks + clicks < 2 ^ 63 →
        before.TotalClicks ≤ after.TotalClicks) ∧
      (before.Valid → 0 ≤ conversions → before.TotalConversions + conversions < 2 ^ 63 →
        before.TotalConversions ≤ after.TotalConversions) ∧
      (F64.le F64.zero spend = true → before.TotalSpend.IsDouble →
        F64.isNaN before.TotalSpend = false → before.TotalSpend ≠ F64.inf true →
        F64.le before.TotalSpend after.TotalSpend = true) := by
  have hrow : parseRecord std cols fs = some ⟨key, impressions, clicks, spend, conversions⟩ := by
    unfold parseRecord
    rw [if_neg (fun h => h hlen), if_neg hne]
    simp only [h1, h2, h3, h4, hkey]
  rw [ingest_eq_fold st hrow]
  have hget : (st.fold ⟨key, impressions, clicks, spend, conversions⟩).aggs.get key =
      some (((st.aggs.get key).getD CampaignAgg.zero).add
        ⟨key, impressions, clicks, spend, conversions⟩) := by
    rw [fold_get_key, if_pos rfl]
  refine ⟨hrow, rfl, hget, fun other hne1 => ?_, fun before after hb ha => ?_⟩
  · rw [fold_get_key, if_neg (fun h => hne1 h.symm)]
  · rw [hget, hb] at ha
    have hafter : after = before.add ⟨key, impressions, clicks, spend, conversions⟩ := by
      simpa using ha.symm
    subst hafter
    exact ⟨rfl, rfl, rfl, rfl, fun hv h0 hfit => wrapInt64_add_ge hv.1 h0 hfit,
      fun hv h0 hfit => wrapInt64_add_ge hv.2.1 h0 hfit,
      fun hv h0 hfit => wrapInt64_add_ge hv.2.2 h0 hfit,
      fun hy hd hx hninf => F64.le_add_of_nonneg hd hx hninf hy⟩

/-! ## The size of the heap during the selection -/

theorem offer_length {α : Type} (less better : α → α → Bool) {k : Int} (hk : 1 ≤ k)
    {h : List α} (hsize : h.length ≤ k.toNat) (m : α) :
    ∃ h1, offer less better k h m = some h1 ∧ h1.length = min k.toNat (h.length + 1) := by
  unfold offer
  by_cases hlt : (h.length : Int) < k
  · rw [if_pos hlt]
    refine ⟨_, rfl, ?_⟩
    rw [heap.Push_length]
    omega
  · rw [if_neg hlt]
    have hlen : h.length = k.toNat := by omega
    have hpos : 0 < h.length := by omega
    have hr : h[0]? = some (h.get ⟨0, hpos⟩) := by
      rw [List.getElem?_eq_getElem hpos]; rfl
    obtain ⟨h1, hpop, _, hl1, _⟩ := heap.Pop_spec less hr
    rw [hr]
    simp only
    split
    · rw [hpop]
      refine ⟨_, rfl, ?_⟩
      rw [heap.Push_length]
      omega
    · exact ⟨h, rfl, by omega⟩

theorem offerAll_length {α : Type} (less better : α → α → Bool) {k : Int} (hk : 1 ≤ k) :
    ∀ (ms h : List α), h.length ≤ k.toNat →
      ∃ h1, offerAll less better k h ms = some h1 ∧
        h1.length = min k.toNat (h.length + ms.length)
  | [], h, hsize => ⟨h, rfl, by simp only [List.length_nil]; omega⟩
  | m :: ms, h, hsize => by
    obtain ⟨h1, hrun, hl1⟩ := offer_length less better hk hsize m
    obtain ⟨h2, hrun2, hl2⟩ := offerAll_length less better hk ms h1 (by omega)
    refine ⟨h2, ?_, ?_⟩
    · simp only [offerAll, hrun, hrun2]
    · rw [hl2, hl1, List.length_cons]
      omega

theorem offerAll_append {α : Type} (less better : α → α → Bool) (k : Int) :
    ∀ (a b h : List α), offerAll less better k h (a ++ b) =
      (offerAll less better k h a).bind (fun h1 => offerAll less better k h1 b)
  | [], b, h => by simp [offerAll]
  | m :: a, b, h => by
    simp only [List.cons_append, offerAll]
    cases offer less better k h m with
    | none => rfl
    | some h1 => exact offerAll_append less better k a b h1

theorem ctrCandidates_append (a b : List (String × CampaignAgg)) :
    ctrCandidates (a ++ b) = ctrCandidates a ++ ctrCandidates b := by
  simp [ctrCandidates]

theorem cpaCandidates_append (a b : List (String × CampaignAgg)) :
    cpaCandidates (a ++ b) = cpaCandidates a ++ cpaCandidates b := by
  simp [cpaCandidates]

/-- C15: for `k ≥ 1` and every point of the two selection loops, that is after every initial
part `pre` of the entries the loop visits, the loop has not panicked and its heap holds
`min(k, number of eligible candidates offered so far)` elements, hence at most `k`; the rest
of the loop runs on from that heap. For `selectTopCTR` every entry is eligible, for
`selectTopCPA` the entries with `TotalConversions > 0` are. -/
theorem selectTop_heap_bounded (k : Int) (hk : 1 ≤ k) (pre post : List (String × CampaignAgg)) :
    (∃ h, selectTopCTR.loop k (heap.Init CTRHeap.lessElem []) pre = some h ∧
      h.length = min k.toNat pre.length ∧ h.length ≤ k.toNat ∧
      selectTopCTR.loop k (heap.Init CTRHeap.lessElem []) (pre ++ post) =
        selectTopCTR.loop k h post) ∧
    (∃ h, selectTopCPA.loop k (heap.Init CPAHeap.lessElem []) pre = some h ∧
      h.length = min k.toNat (cpaCandidates pre).length ∧ h.length ≤ k.toNat ∧
      selectTopCPA.loop k (heap.Init CPAHeap.lessElem []) (pre ++ post) =
        selectTopCPA.loop k h post) := by
  constructor
  · obtain ⟨h, hrun, hlen⟩ := offerAll_length CTRHeap.lessElem betterCTR hk
      (ctrCandidates pre) [] (Nat.zero_le _)
    refine ⟨h, ?_, ?_, ?_, ?_⟩
    · rw [heap.Init_nil, selectTopCTR_loop_eq]; exact hrun
    · rw [hlen, ctrCandidates_length]; simp
    · rw [hlen]; exact Nat.min_le_left _ _
    · rw [heap.Init_nil, selectTopCTR_loop_eq, selectTopCTR_loop_eq, ctrCandidates_append,
        offerAll_append, hrun]
      rfl
  · obtain ⟨h, hrun, hlen⟩ := offerAll_length CPAHeap.lessElem betterCPA hk
      (cpaCandidates pre) [] (Nat.zero_le _)
    refine ⟨h, ?_, ?_, ?_, ?_⟩
    · rw [heap.Init_nil, selectTopCPA_loop_eq]; exact hrun
    · rw [hlen]; simp
    · rw [hlen]; exact Nat.min_le_left _ _
    · rw [heap.Init_nil, selectTopCPA_loop_eq, selectTopCPA_loop_eq, cpaCandidates_append,
        offerAll_append, hrun]
      rfl

/-! ## The root of the heap during the selection -/

/-- Under a strict order that is total on the candidates, after every initial part of the
candidates the admission loop has a heap with the heap property whose root every other
retained candidate is better than. -/
theorem offerAll_root_worst {α : Type} {less better : α → α → Bool} {S : α → Prop}
    (ord : StrictOrderOn better S) (hless : ∀ x y, less x y = better y x)
    {k : Int} (hk : 1 ≤ k) {cands : List α} (hS : ∀ x ∈ cands, S x) (hnd : cands.Nodup) :
    ∃ h, offerAll less better k [] cands = some h ∧ heap.IsHeap less h ∧
      ∀ r, h[0]? = some r → ∀ x ∈ h, x ≠ r → better x r = true := by
  obtain ⟨h, hrun, hinv⟩ := select_spec ord hless hk hS hnd
  refine ⟨h, hrun, hinv.isHeap, fun r hr x hx hne => ?_⟩
  obtain ⟨rest, hperm, _, _⟩ := hinv.split
  have hmem : ∀ y ∈ h, y ∈ cands := fun y hy =>
    hperm.subset (List.mem_append_left _ hy)
  have hSh : ∀ y ∈ h, S y := fun y hy => hS y (hmem y hy)
  have h1 := heap.root_le_mem (ord.flip hless) hinv.isHeap hSh hr hx
  rw [hless] at h1
  rcases ord.total x r (hSh x hx) (hSh r (heap.mem_of_getElem? hr)) hne with h2 | h2
  · exact h2
  · rw [h1] at h2; cases h2

theorem nodup_of_append_left {α : Type} {a b : List α} (h : (a ++ b).Nodup) : a.Nodup :=
  (List.nodup_append.1 h).1

/-- The CTR half of the root property: for `k ≥ 1` and a map with distinct keys and `int64`
totals, after every initial part `pre` of the entries the heap of `selectTopCTR` has the heap
property with respect to `CTRHeap.Less`, and every retained candidate other than the root is
`betterCTR` than the root. -/
theorem selectTopCTR_root_worst (k : Int) (hk : 1 ≤ k) (pre post : List (String × CampaignAgg))
    (hkeys : ((pre ++ post).map Prod.fst).Nodup) (hvalid : ∀ e ∈ pre ++ post, e.2.Valid) :
    ∃ h, selectTopCTR.loop k (heap.Init CTRHeap.lessElem []) pre = some h ∧
      heap.IsHeap CTRHeap.lessElem h ∧
      ∀ r, h[0]? = some r → ∀ x ∈ h, x ≠ r → betterCTR x r = true := by
  have hkeys1 : (pre.map Prod.fst).Nodup := by
    rw [List.map_append] at hkeys
    exact nodup_of_append_left hkeys
  have hvalid1 : ∀ e ∈ pre, e.2.Valid := fun e he => hvalid e (List.mem_append_left _ he)
  obtain ⟨h, hrun, hheap, hroot⟩ := offerAll_root_worst (betterCTR_order hkeys1 hvalid1)
    CTRHeap_lessElem_eq hk (fun x hx => hx) (ctrCandidates_nodup hkeys1)
  exact ⟨h, by rw [heap.Init_nil, selectTopCTR_loop_eq]; exact hrun, hheap, hroot⟩

/-- The CPA half of the root property, for maps in which no eligible campaign has a NaN as
its spend. -/
theorem selectTopCPA_root_worst_of_no_nan (k : Int) (hk : 1 ≤ k)
    (pre post : List (String × CampaignAgg))
    (hkeys : ((pre ++ post).map Prod.fst).Nodup) (hvalid : ∀ e ∈ pre ++ post, e.2.Valid)
    (hspend : ∀ e ∈ pre ++ post, 0 < e.2.TotalConversions →
      F64.isNaN e.2.TotalSpend = false) :
    ∃ h, selectTopCPA.loop k (heap.Init CPAHeap.lessElem []) pre = some h ∧
      heap.IsHeap CPAHeap.lessElem h ∧
      ∀ r, h[0]? = some r → ∀ x ∈ h, x ≠ r → betterCPA x r = true := by
  have hkeys1 : (pre.map Prod.fst).Nodup := by
    rw [List.map_append] at hkeys
    exact nodup_of_append_left hkeys
  have hvalid1 : ∀ e ∈ pre, e.2.Valid := fun e he => hvalid e (List.mem_append_left _ he)
  have hspend1 : ∀ e ∈ pre, 0 < e.2.TotalConversions → F64.isNaN e.2.TotalSpend = false :=
    fun e he => hspend e (List.mem_append_left _ he)
  obtain ⟨h, hrun, hheap, hroot⟩ := offerAll_root_worst (betterCPA_order hkeys1 hvalid1 hspend1)
    CPAHeap_lessElem_eq hk (fun x hx => hx) (cpaCandidates_nodup hkeys1)
  exact ⟨h, by rw [heap.Init_nil, selectTopCPA_loop_eq]; exact hrun, hheap, hroot⟩

/-! ## The admission step -/

theorem offer_admission {α : Type} [DecidableEq α] (less better : α → α → Bool) {k : Int}
    (hk : 1 ≤ k) (h : List α) (m : α) :
    ((h.length : Int) < k →
      ∃ h1, offer less better k h m = some h1 ∧ List.Perm h1 (m :: h)) ∧
    ((h.length : Int) = k →
      ∃ root, h[0]? = some root ∧
        (better m root = true →
          ∃ h1, offer less better k h m = some h1 ∧ List.Perm h1 (m :: h.erase root)) ∧
        (better m root = false → offer less better k h m = some h)) := by
  constructor
  · intro hlt
    refine ⟨heap.Push less h m, ?_, heap.Push_perm less h m⟩
    unfold offer
    rw [if_pos hlt]
  · intro hlen
    have hpos : 0 < h.length := by omega
    have hr : h[0]? = some (h.get ⟨0, hpos⟩) := by
      rw [List.getElem?_eq_getElem hpos]; rfl
    generalize h.get ⟨0, hpos⟩ = root at hr
    have hnlt : ¬ (h.length : Int) < k := by omega
    refine ⟨root, hr, fun hb => ?_, fun hb => ?_⟩
    · obtain ⟨h1, hpop, hperm, _, _⟩ := heap.Pop_spec less hr
      refine ⟨heap.Push less h1 m, ?_, ?_⟩
      · unfold offer
        rw [if_neg hnlt, hr]
        simp only [hb, if_true, hpop]
      · have h2 : List.Perm h1 (h.erase root) := by
          have := hperm.erase root
          rwa [List.erase_cons_head] at this
        exact (heap.Push_perm less h1 m).trans (List.Perm.cons m h2)
    · unfold offer
      rw [if_neg hnlt, hr]
      simp only [hb, Bool.false_eq_true, if_false]

/-- C17: the admission step of the two selectors, for `k ≥ 1`, every heap `h` and every
eligible candidate `m` built from an entry of the map. (i) While the heap holds fewer than
`k` elements the step keeps `m` and everything the heap held. (ii) When it holds `k` elements
and `m` is better than the root, the step keeps what the heap held without the root, and `m`.
(iii) When it holds `k` elements and `m` is not better than the root, the heap is left as it
is. In no case does the step panic. -/
theorem selectTop_step_admission (k : Int) (hk : 1 ≤ k) (h : List CampaignMetrics)
    (e : String × CampaignAgg) :
    (((h.length : Int) < k →
        ∃ h1, selectTopCTR.step k h e = some h1 ∧
          List.Perm h1 (buildMetrics e.1 e.2 :: h)) ∧
      ((h.length : Int) = k →
        ∃ root, h[0]? = some root ∧
          (betterCTR (buildMetrics e.1 e.2) root = true →
            ∃ h1, selectTopCTR.step k h e = some h1 ∧
              List.Perm h1 (buildMetrics e.1 e.2 :: h.erase root)) ∧
          (betterCTR (buildMetrics e.1 e.2) root = false →
            selectTopCTR.step k h e = some h))) ∧
    (0 < e.2.TotalConversions →
      ((h.length : Int) < k →
        ∃ h1, selectTopCPA.step k h e = some h1 ∧
          List.Perm h1 (buildMetrics e.1 e.2 :: h)) ∧
      ((h.length : Int) = k →
        ∃ root, h[0]? = some root ∧
          (betterCPA (buildMetrics e.1 e.2) root = true →
            ∃ h1, selectTopCPA.step k h e = some h1 ∧
              List.Perm h1 (buildMetrics e.1 e.2 :: h.erase root)) ∧
          (betterCPA (buildMetrics e.1 e.2) root = false →
            selectTopCPA.step k h e = some h))) := by
  constructor
  · rw [selectTopCTR_step_eq]
    exact offer_admission CTRHeap.lessElem betterCTR hk h _
  · intro hc
    rw [selectTopCPA_step_eq k h e (by omega)]
    exact offer_admission CPAHeap.lessElem betterCPA hk h _

/-! ## The comparisons of the heaps and of the final sort -/

/-- C18: each heap is keyed by the exact inverse of its relation. For valid indices `i` and
`j` of a slice `h`, `CTRHeap.Less(i, j)` returns what `betterCTR(h[j], h[i])` returns and
`CPAHeap.Less(i, j)` returns what `betterCPA(h[j], h[i])` returns; the comparison closures of
the two final sorts return what `betterCTR` and `betterCPA` return. -/
theorem Less_eq_better_flipped (h : List CampaignMetrics) (i j : Nat) (hi : i < h.length)
    (hj : j < h.length) :
    (∃ x y, h[i]? = some x ∧ h[j]? = some y ∧
      CTRHeap.Less h i j = some (betterCTR y x) ∧
      CPAHeap.Less h i j = some (betterCPA y x)) ∧
    (∀ x y, selectTopCTR.sortLess x y = betterCTR x y) ∧
    (∀ x y, selectTopCPA.sortLess x y = betterCPA x y) := by
  refine ⟨⟨h.get ⟨i, hi⟩, h.get ⟨j, hj⟩, ?_, ?_, ?_, ?_⟩, fun _ _ => rfl, fun _ _ => rfl⟩
  · rw [List.getElem?_eq_getElem hi]; rfl
  · rw [List.getElem?_eq_getElem hj]; rfl
  · simp only [CTRHeap.Less, List.getElem?_eq_getElem hi, List.getElem?_eq_getElem hj,
      CTRHeap_lessElem_eq]
    rfl
  · simp only [CPAHeap.Less, List.getElem?_eq_getElem hi, List.getElem?_eq_getElem hj,
      CPAHeap_lessElem_eq]
    rfl

/-! ## Every index the library reads is in range -/

namespace heap

variable {α : Type}

theorem getElem?_of_lt {h : List α} {i : Nat} (hi : i < h.length) : ∃ x, h[i]? = some x :=
  ⟨h.get ⟨i, hi⟩, by rw [List.getElem?_eq_getElem hi]; rfl⟩

/-- From an index inside the slice `up` reads only inside the slice. -/
theorem upLoopChecked_eq (less : α → α → Bool) : ∀ (fuel : Nat) (h : List α) (j : Nat),
    j < h.length → upLoopChecked less fuel h j = some (upLoop less fuel h j)
  | 0, h, j, _ => rfl
  | fuel + 1, h, j, hj => by
    have hi : (j - 1) / 2 < h.length := by omega
    obtain ⟨x, hx⟩ := getElem?_of_lt hj
    obtain ⟨y, hy⟩ := getElem?_of_lt hi
    simp only [upLoopChecked, upLoop, hx, hy]
    by_cases hij : (j - 1) / 2 = j
    · simp [hij]
    · by_cases hl : less x y = true
      · simp only [hij, hl, if_false, false_or, Bool.not_true, Bool.false_eq_true]
        exact upLoopChecked_eq less fuel _ _ (by rw [Swap_length]; exact hi)
      · simp [hij, hl]

theorem downChildChecked_eq (less : α → α → Bool) (h : List α) {j1 n : Nat}
    (hn : n ≤ h.length) (hj1 : j1 < n) :
    downChildChecked less h j1 n = some (downChild less h j1 n) := by
  obtain ⟨y, hy⟩ := getElem?_of_lt (show j1 < h.length by omega)
  unfold downChildChecked downChild
  by_cases h2 : j1 + 1 < n
  · obtain ⟨x, hx⟩ := getElem?_of_lt (show j1 + 1 < h.length by omega)
    simp [h2, hx, hy]
  · rw [if_neg h2, hy]
    cases h[j1 + 1]? <;> simp [h2]

/-- On the first `n` elements of a slice with at least `n` elements `down` reads only inside
the slice. -/
theorem downLoopChecked_eq (less : α → α → Bool) : ∀ (fuel : Nat) (h : List α) (i n : Nat),
    n ≤ h.length → downLoopChecked less fuel h i n = some (downLoop less fuel h i n)
  | 0, h, i, n, _ => rfl
  | fuel + 1, h, i, n, hn => by
    simp only [downLoopChecked, downLoop]
    by_cases hle : n ≤ 2 * i + 1
    · simp [hle]
    · rw [if_neg hle, if_neg hle, downChildChecked_eq less h hn (by omega)]
      have hjn := downChild_lt less h (show 2 * i + 1 < n by omega)
      obtain ⟨x, hx⟩ := getElem?_of_lt (show downChild less h (2 * i + 1) n < h.length by omega)
      obtain ⟨y, hy⟩ := getElem?_of_lt (show i < h.length by omega)
      simp only [hx, hy]
      by_cases hl : less x y = true
      · simp only [hl, Bool.not_true, Bool.false_eq_true, if_false]
        exact downLoopChecked_eq less fuel _ _ _ (by rw [Swap_length]; exact hn)
      · simp [hl]

/-- The calls of `up` in `heap.Push` and of `down` in `heap.Pop` read only inside the slice,
and `Swap(0, n)` in `heap.Pop` is given two indices of the slice. -/
theorem calls_inBounds (less : α → α → Bool) (h : List α) :
    (∀ x, upLoopChecked less (h.length + 1) (h ++ [x]) h.length = some (Push less h x)) ∧
    (∀ n, h.length = n + 1 → 0 < h.length ∧ n < h.length ∧
      downLoopChecked less n (Swap h 0 n) 0 n = some (down less (Swap h 0 n) 0 n)) := by
  constructor
  · intro x
    exact upLoopChecked_eq less _ _ _ (by simp)
  · intro n hn
    exact ⟨by omega, by omega, downLoopChecked_eq less _ _ _ _ (by rw [Swap_length]; omega)⟩

end heap

/-! ## The two relations as orders -/

theorem betterCTR_asymm {x y : CampaignMetrics} (h : betterCTR x y = true) :
    betterCTR y x = false := by
  cases hyx : betterCTR y x with
  | false => rfl
  | true =>
    have := betterCTR_trans h hyx
    rw [betterCTR_irrefl] at this
    cases this

theorem betterCPA_asymm {x y : CampaignMetrics} (h : betterCPA x y = true) :
    betterCPA y x = false := by
  cases hyx : betterCPA y x with
  | false => rfl
  | true =>
    have := betterCPA_trans h hyx
    rw [betterCPA_irrefl] at this
    cases this

/-- What holds of the two relations on all snapshots: each is irreflexive and transitive, at
most one of `better(a, b)` and `better(b, a)` holds, and exactly one holds for two snapshots
with different keys whose metric values are not NaN. -/
theorem better_order_of_no_nan :
    (∀ a, betterCTR a a = false) ∧ (∀ a, betterCPA a a = false) ∧
    (∀ a b c, betterCTR a b = true → betterCTR b c = true → betterCTR a c = true) ∧
    (∀ a b c, betterCPA a b = true → betterCPA b c = true → betterCPA a c = true) ∧
    (∀ a b, a.CampaignID ≠ b.CampaignID → F64.isNaN a.CTR = false → F64.isNaN b.CTR = false →
      (betterCTR a b = true ↔ betterCTR b a = false)) ∧
    (∀ a b, a.CampaignID ≠ b.CampaignID → F64.isNaN a.CPA = false → F64.isNaN b.CPA = false →
      (betterCPA a b = true ↔ betterCPA b a = false)) := by
  refine ⟨betterCTR_irrefl, betterCPA_irrefl, fun _ _ _ => betterCTR_trans,
    fun _ _ _ => betterCPA_trans, fun a b hk ha hb => ⟨betterCTR_asymm, fun h => ?_⟩,
    fun a b hk ha hb => ⟨betterCPA_asymm, fun h => ?_⟩⟩
  · rcases betterCTR_total ha hb hk with h1 | h1
    · exact h1
    · rw [h] at h1; cases h1
  · rcases betterCPA_total ha hb hk with h1 | h1
    · exact h1
    · rw [h] at h1; cases h1

/-! ## Index safety of the selectors -/

theorem offer_isSome {α : Type} (less : α → α → Bool) {k : Int} (hk : 1 ≤ k)
    {h : List α} (hnot : ¬ (h.length : Int) < k) :
    (∃ root, h[0]? = some root) ∧ ∃ h1 item, heap.Pop less h = some (h1, item) := by
  have hpos : 0 < h.length := by omega
  have hr : h[0]? = some (h.get ⟨0, hpos⟩) := by
    rw [List.getElem?_eq_getElem hpos]; rfl
  obtain ⟨h1, hpop, _⟩ := heap.Pop_spec less hr
  exact ⟨⟨_, hr⟩, h1, _, hpop⟩

theorem selectTopCTR_nonpositive (k : Int) (hk : k ≤ 0) (e : String × CampaignAgg)
    (es : List (String × CampaignAgg)) : selectTopCTR (e :: es) k = none := by
  have hnot : ¬ (((([] : CTRHeap)).length : Int) < k) := by
    simp only [List.length_nil, Int.Nat.cast_ofNat_Int]; omega
  simp only [selectTopCTR, heap.Init_nil, selectTopCTR.loop, selectTopCTR.step, if_neg hnot,
    List.getElem?_nil]

theorem selectTopCPA_loop_nonpositive (k : Int) (hk : k ≤ 0) :
    ∀ aggs : List (String × CampaignAgg), (∃ e ∈ aggs, 0 < e.2.TotalConversions) →
      selectTopCPA.loop k [] aggs = none
  | [], h => by
    obtain ⟨e, he, _⟩ := h
    cases he
  | e :: es, h => by
    have hnot : ¬ (((([] : CPAHeap)).length : Int) < k) := by
      simp only [List.length_nil, Int.Nat.cast_ofNat_Int]; omega
    by_cases hc : e.2.TotalConversions ≤ 0
    · have hrest : ∃ e1 ∈ es, 0 < e1.2.TotalConversions := by
        obtain ⟨e1, he1, hpos⟩ := h
        rcases List.mem_cons.1 he1 with h1 | h1
        · subst h1; omega
        · exact ⟨e1, h1, hpos⟩
      simp only [selectTopCPA.loop, selectTopCPA.step, if_pos hc]
      exact selectTopCPA_loop_nonpositive k hk es hrest
    · simp only [selectTopCPA.loop, selectTopCPA.step, if_neg hc, if_neg hnot,
        List.getElem?_nil]

/-- C20: index safety of the selectors. For `k ≥ 1`, which is what `main` lets through, and
every map, `selectTopCTR` and `selectTopCPA` return without a panic; whenever the loops reach
the root access `(*h)[0]`, that is on a heap `h` with `h.Len() < k` false, the heap has a
root, and `heap.Pop` on it finds the element `old[n-1]`; the calls of `up` and `down` that
`heap.Push` and `heap.Pop` make read only inside the slice. For `k ≤ 0`, which `main`
rejects, the root access of `selectTopCTR` panics on every non-empty map and that of
`selectTopCPA` on every map with an eligible entry. -/
theorem selectTop_no_panic (k : Int) (hk : 1 ≤ k) (aggs : List (String × CampaignAgg)) :
    main.rejectsTopK k = false ∧
    (∃ res, selectTopCTR aggs k = some res) ∧
    (∃ res, selectTopCPA aggs k = some res) ∧
    (∀ h : List CampaignMetrics, ¬ (h.length : Int) < k →
      (∃ root, h[0]? = some root) ∧
      (∃ h1 item, heap.Pop CTRHeap.lessElem h = some (h1, item)) ∧
      (∃ h1 item, heap.Pop CPAHeap.lessElem h = some (h1, item)) ∧
      (∃ h1 item, CTRHeap.Pop h = some (h1, item)) ∧
      (∃ h1 item, CPAHeap.Pop h = some (h1, item))) ∧
    (∀ (less : CampaignMetrics → CampaignMetrics → Bool) (h : List CampaignMetrics),
      (∀ x, heap.upLoopChecked less (h.length + 1) (h ++ [x]) h.length =
        some (heap.Push less h x)) ∧
      (∀ n, h.length = n + 1 → 0 < h.length ∧ n < h.length ∧
        heap.downLoopChecked less n (heap.Swap h 0 n) 0 n =
          some (heap.down less (heap.Swap h 0 n) 0 n))) ∧
    (∀ k0 : Int, k0 ≤ 0 → main.rejectsTopK k0 = true ∧
      (∀ e es, selectTopCTR (e :: es) k0 = none) ∧
      (∀ m : List (String × CampaignAgg), (∃ e ∈ m, 0 < e.2.TotalConversions) →
        selectTopCPA m k0 = none)) := by
  refine ⟨by simp only [main.rejectsTopK, decide_eq_false_iff_not]; omega, ?_, ?_, ?_,
    fun less h => heap.calls_inBounds less h, ?_⟩
  · obtain ⟨h, hrun, _⟩ := offerAll_length CTRHeap.lessElem betterCTR hk
      (ctrCandidates aggs) [] (Nat.zero_le _)
    rw [selectTopCTR_eq, hrun]
    exact ⟨_, rfl⟩
  · obtain ⟨h, hrun, _⟩ := offerAll_length CPAHeap.lessElem betterCPA hk
      (cpaCandidates aggs) [] (Nat.zero_le _)
    rw [selectTopCPA_eq, hrun]
    exact ⟨_, rfl⟩
  · intro h hnot
    have hpos : 0 < h.length := by omega
    obtain ⟨n, hn⟩ : ∃ n, h.length = n + 1 := ⟨h.length - 1, by omega⟩
    obtain ⟨last, hlast⟩ : ∃ last, h[n]? = some last :=
      ⟨h.get ⟨n, by omega⟩, by rw [List.getElem?_eq_getElem (by omega)]; rfl⟩
    refine ⟨(offer_isSome CTRHeap.lessElem hk hnot).1,
      (offer_isSome CTRHeap.lessElem hk hnot).2,
      (offer_isSome CPAHeap.lessElem hk hnot).2, ⟨h.take n, last, ?_⟩, ⟨h.take n, last, ?_⟩⟩
    · unfold CTRHeap.Pop
      rw [hn]
      simp only [hlast]
    · unfold CPAHeap.Pop
      rw [hn]
      simp only [hlast]
  · intro k0 hk0
    refine ⟨by simp only [main.rejectsTopK, decide_eq_true_eq]; exact hk0,
      fun e es => selectTopCTR_nonpositive k0 hk0 e es, fun m hm => ?_⟩
    simp only [selectTopCPA, heap.Init_nil, selectTopCPA_loop_nonpositive k0 hk0 m hm]

/-! ## The claims at concrete inputs -/

/-- Witness of C1 on three campaigns, two of them tied, with `k = 2`. -/
theorem selectTopCTR_keeps_k_best_witness :
    (1 : Int) ≤ 2 ∧ (tieAggs.map Prod.fst).Nodup ∧ (∀ e ∈ tieAggs, e.2.Valid) ∧
    ∃ res, selectTopCTR tieAggs 2 = some res ∧ res.length = 2 ∧
      ∀ x ∈ res, ∀ y ∈ ctrCandidates tieAggs, y ∉ res → betterCTR x y = true := by
  refine ⟨by decide, by decide, by decide, ?_⟩
  obtain ⟨res, hrun, hlen, _, _, hbest, _⟩ :=
    selectTopCTR_keeps_k_best tieAggs 2 (by decide) (by decide) (by decide)
  exact ⟨res, hrun, by rw [hlen]; decide, hbest⟩

/-- C2 at the failing input `nanAggs` with `k = 1`: `selectTopCPA` keeps campaign `A`, whose
CPA is a NaN, and leaves out the eligible campaign `B` with CPA `1`, although `A` is not
`betterCPA` than `B`; neither of the two is `betterCPA` than the other. -/
theorem selectTopCPA_nan_keeps_unranked :
    selectTopCPA nanAggs 1 = some [nanMetricsA] ∧
    nanMetricsB ∈ cpaCandidates nanAggs ∧ nanMetricsB ∉ [nanMetricsA] ∧
    betterCPA nanMetricsA nanMetricsB = false ∧ betterCPA nanMetricsB nanMetricsA = false := by
  decide

/-- C3 at the failing input: the rows `A,1,1,NaN,1` and `B,1,1,1,1` aggregate to the map
`nanAggs`, and with `k = 1` the two visiting orders of that map make `selectTopCPA` return
different sequences, `[A]` for one and `[B]` for the other. -/
theorem selectTopCPA_nan_order_dependent :
    (aggregateLoop goStdLib Columns.standard AggState.init nanLines).map (fun st => st.aggs) =
      some nanAggs ∧
    List.Perm nanAggs nanAggs.reverse ∧
    selectTopCPA nanAggs 1 = some [nanMetricsA] ∧
    selectTopCPA nanAggs.reverse 1 = some [nanMetricsB] ∧
    selectTopCPA nanAggs 1 ≠ selectTopCPA nanAggs.reverse 1 := by
  decide

/-- Witness of C4 on three campaigns with `k = 2`: `X` and `Y` are tied at a CTR of one half
and come out in this order. -/
theorem selectTopCTR_sorted_witness :
    (1 : Int) ≤ 2 ∧ (tieAggs.map Prod.fst).Nodup ∧ (∀ e ∈ tieAggs, e.2.Valid) ∧
    (selectTopCTR tieAggs 2).map (fun res => res.map (fun m => m.CampaignID)) =
      some ["X", "Y"] ∧
    ∃ res, selectTopCTR tieAggs 2 = some res ∧ res.length = 2 ∧
      res.Chain' (fun a b => betterCTR a b = true) := by
  refine ⟨by decide, by decide, by decide, by decide, ?_⟩
  obtain ⟨res, hrun, hlen, hchain, _⟩ :=
    selectTopCTR_sorted tieAggs 2 (by decide) (by decide) (by decide)
  exact ⟨res, hrun, by rw [hlen]; decide, hchain⟩

/-- C5 at the failing input `nanAggs` with `k = 2`: the output of `selectTopCPA` holds `A`,
whose CPA is a NaN, before `B`, and `A` is not `betterCPA` than `B`; in the other visiting
order it holds `B` before `A`, and `B` is not `betterCPA` than `A`. Neither output is sorted
strictly. -/
theorem selectTopCPA_nan_not_sorted :
    selectTopCPA nanAggs 2 = some [nanMetricsA, nanMetricsB] ∧
    betterCPA nanMetricsA nanMetricsB = false ∧
    selectTopCPA nanAggs.reverse 2 = some [nanMetricsB, nanMetricsA] ∧
    betterCPA nanMetricsB nanMetricsA = false := by
  decide

/-- Counterexample to C6 as stated: two rows of campaign `A` with impressions `2^63 - 1`
and `1` leave `TotalImpressions = -2^63`, which is not their sum `2^63`. -/
theorem aggregateLoop_totals_overflow :
    (aggregateLoop goStdLib Columns.standard AggState.init overflowLines).map
        (fun st => (st.aggs.get "A").map (fun agg => agg.TotalImpressions)) =
      some (some (-9223372036854775808)) ∧
    ((rowsOf (acceptedRows goStdLib Columns.standard overflowLines) "A").map
        (fun r => r.impressions)).sum = 9223372036854775808 := by
  decide

/-- Witness of C6 on the worked input of the specification, for the key `A`. -/
theorem aggregateLoop_totals_witness :
    Line.malformed ∉ sampleLines ∧
    ∃ st, aggregateLoop goStdLib Columns.standard AggState.init sampleLines = some st ∧
      st.aggs.get "A" = some ⟨150, 15, F64.fin false (15 <<< 1073), 3⟩ := by
  refine ⟨by decide, ?_⟩
  obtain ⟨st, hrun, _, _⟩ :=
    aggregateLoop_totals goStdLib Columns.standard sampleLines (by decide) "A"
  refine ⟨st, hrun, ?_⟩
  have h2 : aggregateLoop goStdLib Columns.standard AggState.init sampleLines =
      some ⟨[("A", ⟨150, 15, F64.fin false (15 <<< 1073), 3⟩),
        ("B", ⟨200, 50, F64.ofInt 10, 0⟩)], 3⟩ := by decide
  rw [h2] at hrun
  cases hrun
  decide

/-- Counterexample to C7 as stated: a row with an empty campaign key and four valid numbers
is counted, so the processed count is `1` where the rows with valid numbers and a non-empty
key number `0`; the row even gets an entry under the empty key. -/
theorem aggregateLoop_counts_empty_key :
    aggregateLoop goStdLib Columns.standard AggState.init emptyKeyLines =
      some ⟨[("", ⟨1, 1, F64.ofInt 1, 1⟩)], 1⟩ ∧
    (emptyKeyLines.filter (fun l => numericOK goStdLib Columns.standard l &&
      keyNonEmpty goStdLib Columns.standard l)).length = 0 := by
  decide

/-- Witness of C7 on the worked input of the specification: three rows, all counted. -/
theorem aggregateLoop_processed_witness :
    Line.malformed ∉ sampleLines ∧
    ∃ st, aggregateLoop goStdLib Columns.standard AggState.init sampleLines = some st ∧
      st.processed = 3 := by
  refine ⟨by decide, ?_⟩
  obtain ⟨st, hrun, _, hexact, _⟩ :=
    aggregateLoop_processed goStdLib Columns.standard sampleLines (by decide)
  exact ⟨st, hrun, hexact (by decide)⟩

/-- Counterexample to C8 as stated: the rows with spends `1e16`, `1`, `1` give the total spend
`1e16` in this order and `1e16 + 2` in the order `1`, `1`, `1e16`, so the two maps differ and so
does the output of the pipeline. -/
theorem aggregateLoop_spend_order_dependent :
    List.Perm spendLines spendLinesReordered ∧
    aggregateLoop goStdLib Columns.standard AggState.init spendLines =
      some ⟨[("A", ⟨3, 3, F64.ofInt 10000000000000000, 3⟩)], 3⟩ ∧
    aggregateLoop goStdLib Columns.standard AggState.init spendLinesReordered =
      some ⟨[("A", ⟨3, 3, F64.ofInt 10000000000000002, 3⟩)], 3⟩ ∧
    F64.ofInt 10000000000000000 ≠ F64.ofInt 10000000000000002 ∧
    pipeline goStdLib Columns.standard id 1 spendLines ≠
      pipeline goStdLib Columns.standard id 1 spendLinesReordered := by
  decide

/-- Witness of C8 on the two orders of the rows with spends `1e16`, `1`, `1`: same count,
same integer totals, and the same CTR output up to the spend. -/
theorem aggregateLoop_perm_witness :
    List.Perm spendLines spendLinesReordered ∧
    ∀ s1 s2, aggregateLoop goStdLib Columns.standard AggState.init spendLines = some s1 →
      aggregateLoop goStdLib Columns.standard AggState.init spendLinesReordered = some s2 →
      s1.processed = s2.processed ∧
      (∀ key, (s1.aggs.get key).map CampaignAgg.counts =
        (s2.aggs.get key).map CampaignAgg.counts) ∧
      (selectTopCTR s1.aggs 1).map (List.map CampaignMetrics.withoutSpend) =
        (selectTopCTR s2.aggs 1).map (List.map CampaignMetrics.withoutSpend) := by
  refine ⟨by decide, ?_⟩
  intro s1 s2 h1 h2
  obtain ⟨hcount, hkeys, hctr⟩ :=
    (aggregateLoop_perm goStdLib Columns.standard spendLines spendLinesReordered
      (by decide)).2 s1 s2 h1 h2
  exact ⟨hcount, fun key => (hkeys key).2,
    hctr 1 s1.aggs s2.aggs (by decide) (List.Perm.refl _) (List.Perm.refl _)⟩

/-- Witness of C9 on the totals `(150, 15, 7.50, 3)`: the CTR is the double nearest to one
tenth. -/
theorem buildMetrics_ctr_witness :
    (⟨150, 15, F64.fin false (15 <<< 1073), 3⟩ : CampaignAgg).Valid ∧
    (buildMetrics "A" ⟨150, 15, F64.fin false (15 <<< 1073), 3⟩).CTR =
      F64.round false (1 <<< 1074) 10 ∧
    F64.isNaN (buildMetrics "A" ⟨150, 15, F64.fin false (15 <<< 1073), 3⟩).CTR = false := by
  refine ⟨by decide, by decide, ?_⟩
  exact (buildMetrics_ctr "A" ⟨150, 15, F64.fin false (15 <<< 1073), 3⟩ (by decide)).2.2.1

/-- Witness of C11: the row `A,100,10,abc,2`, whose spend does not parse, ingested in the
state the worked input leaves, changes nothing. -/
theorem ingest_unparsable_discarded_witness :
    goStdLib.ParseFloat (badSpendFields.getD Columns.standard.spendIdx "") = none ∧
    ingest goStdLib Columns.standard sampleState badSpendFields = sampleState :=
  ⟨by decide,
    (ingest_unparsable_discarded goStdLib Columns.standard sampleState badSpendFields
      (Or.inr (Or.inr (Or.inl (by decide))))).1⟩

/-- Counterexample to C12 as stated: the row with a key of two blanks and the numbers
`1,1,1,1` is trimmed to the empty key, creates an entry under it and is counted. -/
theorem ingest_blank_key_counted :
    goStdLib.TrimSpace (blankKeyFields.getD Columns.standard.campaignIdx "") = "" ∧
    ingest goStdLib Columns.standard AggState.init blankKeyFields =
      ⟨[("", ⟨1, 1, F64.ofInt 1, 1⟩)], 1⟩ ∧
    (ingest goStdLib Columns.standard AggState.init blankKeyFields).aggs ≠ AggState.init.aggs ∧
    (ingest goStdLib Columns.standard AggState.init blankKeyFields).processed ≠
      AggState.init.processed := by
  decide

/-- Witness of C12 on the row with a key of two blanks, ingested in the empty state: by the
theorem the record is accepted and counted. -/
theorem ingest_empty_key_folded_witness :
    blankKeyFields.length = Columns.standard.nFields ∧ blankKeyFields.length ≠ 0 ∧
    goStdLib.TrimSpace (blankKeyFields.getD Columns.standard.campaignIdx "") = "" ∧
    parseRecord goStdLib Columns.standard blankKeyFields = some ⟨"", 1, 1, F64.ofInt 1, 1⟩ ∧
    (ingest goStdLib Columns.standard AggState.init blankKeyFields).processed =
      wrapInt64 (AggState.init.processed + 1) :=
  ⟨by decide, by decide, by decide,
    (ingest_empty_key_folded goStdLib Columns.standard AggState.init blankKeyFields 1 1 1
      (F64.ofInt 1) (by decide) (by decide) (by decide) (by decide) (by decide) (by decide)
      (by decide)).1,
    (ingest_empty_key_folded goStdLib Columns.standard AggState.init blankKeyFields 1 1 1
      (F64.ofInt 1) (by decide) (by decide) (by decide) (by decide) (by decide) (by decide)
      (by decide)).2.1⟩

/-- Counterexample to C13 as stated: the row `A,-200,-20,-10,-5`, ingested in the state the
worked input leaves, is counted and lowers all four totals of campaign `A`. Totals also go
down without a negative number: the row `A,1,1,1,1` wraps the impressions `2^63 - 1` around to
`-2^63`, and after the row `A,1,1,NaN,1` the spend total is a NaN, which is not at least the
total before. -/
theorem ingest_negative_row_folded :
    sampleState.aggs.get "A" = some ⟨150, 15, F64.fin false (15 <<< 1073), 3⟩ ∧
    (ingest goStdLib Columns.standard sampleState negativeFields).aggs.get "A" =
      some ⟨-50, -5, F64.fin true (5 <<< 1073), -2⟩ ∧
    (ingest goStdLib Columns.standard sampleState negativeFields).processed = 4 ∧
    F64.le (F64.fin false (15 <<< 1073)) (F64.fin true (5 <<< 1073)) = false ∧
    (ingest goStdLib Columns.standard fullState unitFields).aggs.get "A" =
      some ⟨-9223372036854775808, 1, F64.ofInt 1, 1⟩ ∧
    (ingest goStdLib Columns.standard sampleState nanSpendFields).aggs.get "A" =
      some ⟨151, 16, F64.nan, 4⟩ ∧
    F64.le (F64.fin false (15 <<< 1073)) F64.nan = false := by
  decide

/-- Witness of C13 on two rows ingested in the state the worked input leaves. By the
theorem the row `A,-200,-20,-10,-5` with its negative numbers is accepted and counted, and
the row `C,1,1,1,1` of a new key gives the key the totals `(1, 1, 1, 1)`; under the row
`A,1,1,1,1` the spend total `7.5` of campaign `A` does not decrease. -/
theorem ingest_totals_monotone_witness :
    negativeFields.length = Columns.standard.nFields ∧ negativeFields.length ≠ 0 ∧
    goStdLib.ParseInt (negativeFields.getD Columns.standard.impressionIdx "") = some (-200) ∧
    parseRecord goStdLib Columns.standard negativeFields =
      some ⟨"A", -200, -20, F64.fin true (10 <<< 1074), -5⟩ ∧
    (ingest goStdLib Columns.standard sampleState negativeFields).processed =
      wrapInt64 (sampleState.processed + 1) ∧
    (ingest goStdLib Columns.standard sampleState newKeyFields).aggs.get "C" =
      some (((sampleState.aggs.get "C").getD CampaignAgg.zero).add
        ⟨"C", 1, 1, F64.ofInt 1, 1⟩) ∧
    F64.le (F64.fin false (15 <<< 1073))
      (F64.add (F64.fin false (15 <<< 1073)) (F64.ofInt 1)) = true :=
  ⟨by decide, by decide, by decide,
    (ingest_totals_monotone goStdLib Columns.standard sampleState negativeFields "A" (-200)
      (-20) (-5) (F64.fin true (10 <<< 1074)) (by decide) (by decide) (by decide) (by decide)
      (by decide) (by decide) (by decide)).1,
    (ingest_totals_monotone goStdLib Columns.standard sampleState negativeFields "A" (-200)
      (-20) (-5) (F64.fin true (10 <<< 1074)) (by decide) (by decide) (by decide) (by decide)
      (by decide) (by decide) (by decide)).2.1,
    (ingest_totals_monotone goStdLib Columns.standard sampleState newKeyFields "C" 1 1 1
      (F64.ofInt 1) (by decide) (by decide) (by decide) (by decide) (by decide) (by decide)
      (by decide)).2.2.1,
    ((ingest_totals_monotone goStdLib Columns.standard sampleState unitFields "A" 1 1 1
      (F64.ofInt 1) (by decide) (by decide) (by decide) (by decide) (by decide) (by decide)
      (by decide)).2.2.2.2 ⟨150, 15, F64.fin false (15 <<< 1073), 3⟩
      ((⟨150, 15, F64.fin false (15 <<< 1073), 3⟩ : CampaignAgg).add
        ⟨"A", 1, 1, F64.ofInt 1, 1⟩) (by decide) (by decide)).2.2.2.2.2.2.2 (by decide)
      ⟨⟨15, 1073, by decide, rfl⟩, by decide⟩ (by decide) (by decide)⟩

/-- C14: the worked scenario. The rows `A,100,10,5.00,2`, `A,50,5,2.50,1` and
`B,200,50,10.00,0` under the header `campaign_id,impressions,clicks,spend,conversions` give
the processed count 3 and the totals `A = (150, 15, 7.50, 3)` and `B = (200, 50, 10.00, 0)`;
with `K = 2`, in either order of visiting the map, `selectTopCTR` returns `[B, A]` with the
CTR `0.25` of `B` and `0.10` of `A`, and `selectTopCPA` returns `[A]` with the CPA `2.50`. The
decimal numbers are the doubles `strconv.ParseFloat` reads them as. -/
theorem worked_scenario :
    aggregateCampaigns goStdLib sampleHeader sampleLines = some (sampleAggs, 3) ∧
    sampleAggs.get "A" = some ⟨150, 15, F64.fin false (15 <<< 1073), 3⟩ ∧
    sampleAggs.get "B" = some ⟨200, 50, F64.ofInt 10, 0⟩ ∧
    sampleAggs.map Prod.fst = ["A", "B"] ∧
    goStdLib.ParseFloat "7.50" = some (F64.fin false (15 <<< 1073)) ∧
    goStdLib.ParseFloat "10.00" = some (F64.ofInt 10) ∧
    selectTopCTR sampleAggs 2 = some [sampleMetricsB, sampleMetricsA] ∧
    selectTopCTR sampleAggs.reverse 2 = some [sampleMetricsB, sampleMetricsA] ∧
    goStdLib.ParseFloat "0.25" = some sampleMetricsB.CTR ∧
    goStdLib.ParseFloat "0.10" = some sampleMetricsA.CTR ∧
    selectTopCPA sampleAggs 2 = some [sampleMetricsA] ∧
    selectTopCPA sampleAggs.reverse 2 = some [sampleMetricsA] ∧
    goStdLib.ParseFloat "2.50" = some sampleMetricsA.CPA ∧
    sampleMetricsA.HasCPA = true ∧ sampleMetricsB.HasCPA = false := by
  decide

/-- Witness of C15 on three campaigns with `k = 2`: after all three have been offered the
heap of `selectTopCTR` holds two elements. -/
theorem selectTop_heap_bounded_witness :
    (1 : Int) ≤ 2 ∧
    ∃ h, selectTopCTR.loop 2 (heap.Init CTRHeap.lessElem []) tieAggs = some h ∧
      h.length = 2 := by
  refine ⟨by decide, ?_⟩
  obtain ⟨h, hrun, hlen, _⟩ := (selectTop_heap_bounded 2 (by decide) tieAggs []).1
  exact ⟨h, hrun, by rw [hlen]; decide⟩

/-- C16 at the failing input `nanAggs` with `k = 2`: after both campaigns have been pushed the
heap of `selectTopCPA` is `[A, B]`; `CPAHeap.Less(1, 0)` is false, so the heap property
holds, and yet the retained candidate `B` is not `betterCPA` than the root `A`, whose CPA is a
NaN. -/
theorem selectTopCPA_nan_root_not_worst :
    selectTopCPA.loop 2 (heap.Init CPAHeap.lessElem []) nanAggs =
      some [nanMetricsA, nanMetricsB] ∧
    CPAHeap.Less [nanMetricsA, nanMetricsB] 1 0 = some false ∧
    nanMetricsB ≠ nanMetricsA ∧
    betterCPA nanMetricsB nanMetricsA = false := by
  decide

/-- Witness of C17 with `k = 1`: the heap holds campaign `A` of the worked input and
campaign `B`, whose CTR is higher, is offered; the step replaces `A` by `B`. -/
theorem selectTop_step_admission_witness :
    (1 : Int) ≤ 1 ∧
    selectTopCTR.step 1 [sampleMetricsA] ("B", ⟨200, 50, F64.ofInt 10, 0⟩) =
      some [sampleMetricsB] ∧
    ∃ root, [sampleMetricsA][0]? = some root ∧
      (betterCTR (buildMetrics "B" ⟨200, 50, F64.ofInt 10, 0⟩) root = true →
        ∃ h1, selectTopCTR.step 1 [sampleMetricsA] ("B", ⟨200, 50, F64.ofInt 10, 0⟩) = some h1 ∧
          List.Perm h1
            (buildMetrics "B" ⟨200, 50, F64.ofInt 10, 0⟩ :: [sampleMetricsA].erase root)) ∧
      (betterCTR (buildMetrics "B" ⟨200, 50, F64.ofInt 10, 0⟩) root = false →
        selectTopCTR.step 1 [sampleMetricsA] ("B", ⟨200, 50, F64.ofInt 10, 0⟩) =
          some [sampleMetricsA]) :=
  ⟨by decide, by decide,
    (selectTop_step_admission 1 (by decide) [sampleMetricsA]
      ("B", ⟨200, 50, F64.ofInt 10, 0⟩)).1.2 (by decide)⟩

/-- Witness of C18 on the slice `[B, A]` of the worked input at the indices 0 and 1. -/
theorem Less_eq_better_flipped_witness :
    0 < [sampleMetricsB, sampleMetricsA].length ∧ 1 < [sampleMetricsB, sampleMetricsA].length ∧
    CTRHeap.Less [sampleMetricsB, sampleMetricsA] 0 1 =
      some (betterCTR sampleMetricsA sampleMetricsB) ∧
    ∃ x y, [sampleMetricsB, sampleMetricsA][0]? = some x ∧
      [sampleMetricsB, sampleMetricsA][1]? = some y ∧
      CTRHeap.Less [sampleMetricsB, sampleMetricsA] 0 1 = some (betterCTR y x) ∧
      CPAHeap.Less [sampleMetricsB, sampleMetricsA] 0 1 = some (betterCPA y x) :=
  ⟨by decide, by decide, by decide,
    (Less_eq_better_flipped [sampleMetricsB, sampleMetricsA] 0 1 (by decide) (by decide)).1⟩

/-- C19 at the failing input: the two candidates `selectTopCPA` builds from `nanAggs` have
different keys, and neither is `betterCPA` than the other. -/
theorem betterCPA_nan_not_total :
    cpaCandidates nanAggs = [nanMetricsA, nanMetricsB] ∧
    nanMetricsA.CampaignID ≠ nanMetricsB.CampaignID ∧
    F64.isNaN nanMetricsA.CPA = true ∧
    betterCPA nanMetricsA nanMetricsB = false ∧
    betterCPA nanMetricsB nanMetricsA = false := by
  decide

/-- Witness of C20 on three campaigns: with `k = 2` both selectors return, with `k = 0` the
root access of `selectTopCTR` panics. -/
theorem selectTop_no_panic_witness :
    (1 : Int) ≤ 2 ∧
    (∃ res, selectTopCTR tieAggs 2 = some res) ∧
    (∃ res, selectTopCPA tieAggs 2 = some res) ∧
    selectTopCTR tieAggs 0 = none ∧ selectTopCPA tieAggs 0 = none :=
  ⟨by decide, (selectTop_no_panic 2 (by decide) tieAggs).2.1,
    (selectTop_no_panic 2 (by decide) tieAggs).2.2.1, by decide, by decide⟩

end Aggregator
